import Mathlib

/-!
# Pixel engines of nebula-screen-capture

A shallow embedding of `src/wasm/video-transitions.cpp` (class `VideoTransitions`)
and `src/wasm/video-filters.cpp` (class `VideoFilters`), and the properties of
the two engines proved over it.

* A frame is a `List Nat` of bytes, channel order R, G, B, A, row-major.
  A read `p[i]` is `p.getD i 0`, a write `p[i] = v` is `p.set i v`; a method
  that works in place returns the buffer as it is after the call.
* Dimensions and `int` loop counters are natural numbers. Index arithmetic in
  `int` is not wrapped: frames that fit the address space keep it in range.
  The 64-bit expression `x * 2654435761 + y * 2246822519` of `dissolve` and
  the `int` accumulators of `blur`, whose size grows with the radius, are
  wrapped explicitly.
* A `float` is the rational number it denotes. Every arithmetic operation is
  the exact operation followed by `F32.round`, rounding to the nearest binary32
  value, ties to even, with gradual underflow. A conversion of a `float` to
  `int` truncates toward zero. Square roots are correctly rounded. Infinities
  and NaN appear for `applyLUT` only, whose parameters have no bounded range:
  there a result that is not finite is `none`.
* The library function `pow` is not part of the source and is not required to
  round correctly. `F32.powf` is the correctly rounded one; where a property
  depends on more than `pow(0, 3) = 0` the function is a parameter of the
  definition, bound by `F32.FaithfulPow`.
-/

/-! ## binary32 arithmetic -/

namespace F32

/-- The power of two `2 ^ e` as a rational. -/
def pow2 (e : Int) : ℚ :=
  if 0 ≤ e then ((2 ^ e.toNat : Nat) : ℚ) else 1 / ((2 ^ (-e).toNat : Nat) : ℚ)

/-- Binary logarithm by repeated halving, `fuel` bounding the number of steps. -/
def log2Aux : Nat → Nat → Nat
  | 0, _ => 0
  | fuel + 1, n => if n < 2 then 0 else log2Aux fuel (n / 2) + 1

/-- The position of the leading bit of `n`: `2 ^ natLog2 n ≤ n < 2 ^ (natLog2 n + 1)`. -/
def natLog2 (n : Nat) : Nat := log2Aux n n

/-- The binary exponent of a positive rational: `2 ^ ilog2 q ≤ q < 2 ^ (ilog2 q + 1)`. -/
def ilog2 (q : ℚ) : Int :=
  let n := q.num.natAbs
  let d := q.den
  let a := natLog2 n
  let b := natLog2 d
  if d * 2 ^ a ≤ n * 2 ^ b then (a : Int) - b else (a : Int) - b - 1

/-- Round to the nearest integer, ties to the even one. -/
def rne (x : ℚ) : Int :=
  let f := ⌊x⌋
  if x - f < 1 / 2 then f
  else if 1 / 2 < x - f then f + 1
  else if f % 2 = 0 then f else f + 1

/-- Rounding of a positive rational to 24 significant bits, the exponent
    not below `-126` (below it the spacing stays `2 ^ (-149)`). -/
def roundPos (q : ℚ) : ℚ :=
  let u := pow2 (max (ilog2 q) (-126) - 23)
  rne (q / u) * u

/-- Round to nearest binary32 value, ties to even. -/
def round (q : ℚ) : ℚ :=
  if q = 0 then 0 else if q < 0 then - roundPos (-q) else roundPos q

/-- The float addition `a + b`. -/
def add (a b : ℚ) : ℚ := round (a + b)

/-- The float subtraction `a - b`. -/
def sub (a b : ℚ) : ℚ := round (a - b)

/-- The float multiplication `a * b`. -/
def mul (a b : ℚ) : ℚ := round (a * b)

/-- The float division `a / b`, for a divisor other than zero. -/
def div (a b : ℚ) : ℚ := round (a / b)

/-- Conversion of an integer to `float`. -/
def ofInt (n : Int) : ℚ := round (n : ℚ)

/-- Truncation toward zero. -/
def trunc (q : ℚ) : Int := if 0 ≤ q then ⌊q⌋ else -⌊-q⌋

/-- The conversion `static_cast<int>(q)`, also the implicit one at a call
    of `clamp(int)` with a `float` argument. -/
def toInt (q : ℚ) : Int := trunc q

/-- The library function `fmod`: the result `x - n * y`, `n` the quotient
    truncated toward zero, is exact. -/
def fmod (x y : ℚ) : ℚ := x - (trunc (x / y) : ℚ) * y

/-- The library function `pow(x, y)` for a non-negative integral exponent `y`
    (the source calls it with `3.0f` only), correctly rounded: one of the
    functions `F32.FaithfulPow` admits. -/
def powf (x y : ℚ) : ℚ := round (x ^ (trunc y).toNat)

/-- A rational is a binary32 value when rounding leaves it alone. -/
def IsF32 (q : ℚ) : Prop := round q = q

instance (q : ℚ) : Decidable (IsF32 q) := by unfold IsF32; infer_instance

/-- What is taken for granted of a library function `pow` at the exponent 3
    and a base in `[0, 1]`: its result lies between the two binary32 values
    that enclose the cube, so no binary32 value lies strictly between the
    result and the cube. A binary32 result less than one unit in the last
    place away from the cube is of this kind; the correctly rounded
    cube is the closest one. -/
def FaithfulPow (pow : ℚ → ℚ → ℚ) : Prop :=
  ∀ x : ℚ, 0 ≤ x → x ≤ 1 → ∀ f : ℚ, IsF32 f →
    (f ≤ x ^ 3 → f ≤ pow x 3) ∧ (x ^ 3 ≤ f → pow x 3 ≤ f)

end F32

/-! ## Loops and buffers -/

/-- The loop `for (int i = lo; i < hi; i++) body`, as a state transformer. -/
def forLoop {σ : Type} (lo hi : Nat) (body : Nat → σ → σ) (s : σ) : σ :=
  (List.range' lo (hi - lo)).foldl (fun acc i => body i acc) s

/-- The loop `for (i = 0; i < size; i += step) body`. -/
def forStep {σ : Type} (size step : Nat) (body : Nat → σ → σ) (s : σ) : σ :=
  forLoop 0 ((size + step - 1) / step) (fun k acc => body (k * step) acc) s

/-- The loop `for (int d = lo; d <= hi; d++) body` over signed bounds. -/
def forInt {σ : Type} (lo hi : Int) (body : Int → σ → σ) (s : σ) : σ :=
  (List.range (hi + 1 - lo).toNat).foldl (fun acc k => body (lo + (k : Int)) acc) s

/-- The four assignments `p[i] = r; p[i + 1] = g; p[i + 2] = b; p[i + 3] = a`. -/
def writePixel (p : List Nat) (i r g b a : Nat) : List Nat :=
  (((p.set i r).set (i + 1) g).set (i + 2) b).set (i + 3) a

/-- The three assignments `p[i] = r; p[i + 1] = g; p[i + 2] = b`. -/
def writeRGB (p : List Nat) (i r g b : Nat) : List Nat :=
  ((p.set i r).set (i + 1) g).set (i + 2) b

/-- A frame of the configured geometry: `width * height * 4` bytes. -/
def IsFrame (width height : Nat) (p : List Nat) : Prop :=
  p.length = width * height * 4 ∧ ∀ b ∈ p, b < 256

instance (width height : Nat) (p : List Nat) : Decidable (IsFrame width height p) := by
  unfold IsFrame; infer_instance

/-- Two's complement wrap of a 64-bit signed result. -/
def wrap64 (n : Int) : Int := (n + 2 ^ 63) % 2 ^ 64 - 2 ^ 63

/-- Two's complement wrap of a 32-bit signed result: `int` arithmetic as the
    i32 instructions of WebAssembly perform it. -/
def wrap32 (n : Int) : Int := (n + 2 ^ 31) % 2 ^ 32 - 2 ^ 31

/-- The conversion of an `int` to `uint8_t`: the value modulo 256. -/
def toUint8 (n : Int) : Nat := (n % 256).toNat

/-! ## VideoTransitions -/

/-- The state of `class VideoTransitions`; `channels` is the constant 4. -/
structure VideoTransitions where
  width : Nat
  height : Nat

namespace VideoTransitions

/-- The member `channels`, set to 4 by the constructor and never changed. -/
def channels : Nat := 4

/-- The helper `clamp(int value)`. -/
def clamp (value : Int) : Nat :=
  if value < 0 then 0 else if value > 255 then 255 else value.toNat

/-- The helper `lerp`: `a + (b - a) * t`. -/
def lerp (a b t : ℚ) : ℚ := F32.add a (F32.mul (F32.sub b a) t)

/-- The helper `easeInOutCubic`. -/
def easeInOutCubic (t : ℚ) : ℚ :=
  if t < 1 / 2 then F32.mul (F32.mul (F32.mul 4 t) t) t
  else F32.sub 1 (F32.div (F32.powf (F32.add (F32.mul (-2) t) 2) 3) 2)

/-- The method `fade`. -/
def fade (T : VideoTransitions) (frame1 frame2 : List Nat) (progress : ℚ) : List Nat :=
  let size := T.width * T.height * channels
  let smoothProgress := easeInOutCubic progress
  forStep size channels (fun i output =>
    writePixel output i
      (clamp (F32.toInt (lerp (frame1.getD i 0) (frame2.getD i 0) smoothProgress)))
      (clamp (F32.toInt (lerp (frame1.getD (i + 1) 0) (frame2.getD (i + 1) 0) smoothProgress)))
      (clamp (F32.toInt (lerp (frame1.getD (i + 2) 0) (frame2.getD (i + 2) 0) smoothProgress)))
      255)
    (List.replicate size 0)

/-- The method `crossfade`. -/
def crossfade (T : VideoTransitions) (frame1 frame2 : List Nat) (progress : ℚ) : List Nat :=
  let size := T.width * T.height * channels
  let alpha1 := F32.sub 1 progress
  let alpha2 := progress
  forStep size channels (fun i output =>
    writePixel output i
      (clamp (F32.toInt (F32.add (F32.mul (frame1.getD i 0) alpha1)
        (F32.mul (frame2.getD i 0) alpha2))))
      (clamp (F32.toInt (F32.add (F32.mul (frame1.getD (i + 1) 0) alpha1)
        (F32.mul (frame2.getD (i + 1) 0) alpha2))))
      (clamp (F32.toInt (F32.add (F32.mul (frame1.getD (i + 2) 0) alpha1)
        (F32.mul (frame2.getD (i + 2) 0) alpha2))))
      255)
    (List.replicate size 0)

/-- The loop nest shared by the wipes and `dissolve`: at pixel `(x, y)` the
    output takes the RGB of `frame2` when `showFrame2 x y` and of `frame1`
    otherwise, and alpha 255. -/
def selectFrames (T : VideoTransitions) (frame1 frame2 : List Nat)
    (showFrame2 : Nat → Nat → Bool) : List Nat :=
  let size := T.width * T.height * channels
  forLoop 0 T.height (fun y output =>
    forLoop 0 T.width (fun x output =>
      let i := (y * T.width + x) * channels
      if showFrame2 x y then
        writePixel output i (frame2.getD i 0) (frame2.getD (i + 1) 0) (frame2.getD (i + 2) 0) 255
      else
        writePixel output i (frame1.getD i 0) (frame1.getD (i + 1) 0) (frame1.getD (i + 2) 0) 255)
      output)
    (List.replicate size 0)

/-- The local `wipePosition` of `wipeLeft`: `static_cast<int>(width * progress)`. -/
def wipeLeftPosition (T : VideoTransitions) (progress : ℚ) : Int :=
  F32.toInt (F32.mul (F32.ofInt T.width) progress)

/-- The method `wipeLeft`. -/
def wipeLeft (T : VideoTransitions) (frame1 frame2 : List Nat) (progress : ℚ) : List Nat :=
  let wipePosition := wipeLeftPosition T progress
  selectFrames T frame1 frame2 (fun x _ => decide ((x : Int) < wipePosition))

/-- The method `wipeRight`. -/
def wipeRight (T : VideoTransitions) (frame1 frame2 : List Nat) (progress : ℚ) : List Nat :=
  let wipePosition := F32.toInt (F32.mul (F32.ofInt T.width) (F32.sub 1 progress))
  selectFrames T frame1 frame2 (fun x _ => decide ((x : Int) ≥ wipePosition))

/-- The method `wipeUp`. -/
def wipeUp (T : VideoTransitions) (frame1 frame2 : List Nat) (progress : ℚ) : List Nat :=
  let wipePosition := F32.toInt (F32.mul (F32.ofInt T.height) progress)
  selectFrames T frame1 frame2 (fun _ y => decide ((y : Int) < wipePosition))

/-- The method `wipeDown`. -/
def wipeDown (T : VideoTransitions) (frame1 frame2 : List Nat) (progress : ℚ) : List Nat :=
  let wipePosition := F32.toInt (F32.mul (F32.ofInt T.height) (F32.sub 1 progress))
  selectFrames T frame1 frame2 (fun _ y => decide ((y : Int) ≥ wipePosition))

/-- The local `offset` of `slideLeft`: `static_cast<int>(width * smoothProgress)`. -/
def slideOffset (T : VideoTransitions) (progress : ℚ) : Int :=
  F32.toInt (F32.mul (F32.ofInt T.width) (easeInOutCubic progress))

/-- The method `slideLeft`. -/
def slideLeft (T : VideoTransitions) (frame1 frame2 : List Nat) (progress : ℚ) : List Nat :=
  let size := T.width * T.height * channels
  let offset := slideOffset T progress
  forLoop 0 T.height (fun y output =>
    forLoop 0 T.width (fun x output =>
      let i := (y * T.width + x) * channels
      let frame1X : Int := (x : Int) + offset
      let frame2X : Int := (x : Int) + offset - (T.width : Int)
      if frame1X < (T.width : Int) ∧ frame1X ≥ 0 then
        let frame1Index := (((y : Int) * (T.width : Int) + frame1X) * (channels : Int)).toNat
        writePixel output i (frame1.getD frame1Index 0) (frame1.getD (frame1Index + 1) 0)
          (frame1.getD (frame1Index + 2) 0) 255
      else if frame2X ≥ 0 ∧ frame2X < (T.width : Int) then
        let frame2Index := (((y : Int) * (T.width : Int) + frame2X) * (channels : Int)).toNat
        writePixel output i (frame2.getD frame2Index 0) (frame2.getD (frame2Index + 1) 0)
          (frame2.getD (frame2Index + 2) 0) 255
      else
        writePixel output i 0 0 0 255)
      output)
    (List.replicate size 0)

/-- The byte `slideLeft` writes for channel `c` of pixel `(x, y)`: the three
    branches of its loop body. -/
def slideSource (T : VideoTransitions) (frame1 frame2 : List Nat) (progress : ℚ)
    (x y c : Nat) : Nat :=
  if (x : Int) + slideOffset T progress < (T.width : Int)
      ∧ (x : Int) + slideOffset T progress ≥ 0 then
    frame1.getD ((((y : Int) * (T.width : Int) + ((x : Int) + slideOffset T progress))
      * (channels : Int)).toNat + c) 0
  else if (x : Int) + slideOffset T progress - (T.width : Int) ≥ 0
      ∧ (x : Int) + slideOffset T progress - (T.width : Int) < (T.width : Int) then
    frame2.getD ((((y : Int) * (T.width : Int)
      + ((x : Int) + slideOffset T progress - (T.width : Int))) * (channels : Int)).toNat + c) 0
  else 0

/-- The helper `easeInOutCubic` with the library function `pow` as a
    parameter; `easeInOutCubic` is its instance at `F32.powf`. -/
def easeInOutCubicWith (pow : ℚ → ℚ → ℚ) (t : ℚ) : ℚ :=
  if t < 1 / 2 then F32.mul (F32.mul (F32.mul 4 t) t) t
  else F32.sub 1 (F32.div (pow (F32.add (F32.mul (-2) t) 2) 3) 2)

/-- The local `offset` of `slideLeft`, `pow` a parameter. -/
def slideOffsetWith (pow : ℚ → ℚ → ℚ) (T : VideoTransitions) (progress : ℚ) : Int :=
  F32.toInt (F32.mul (F32.ofInt T.width) (easeInOutCubicWith pow progress))

/-- The method `slideLeft`, `pow` a parameter; `slideLeft` is its instance at
    `F32.powf`. -/
def slideLeftWith (pow : ℚ → ℚ → ℚ) (T : VideoTransitions) (frame1 frame2 : List Nat)
    (progress : ℚ) : List Nat :=
  let size := T.width * T.height * channels
  let offset := slideOffsetWith pow T progress
  forLoop 0 T.height (fun y output =>
    forLoop 0 T.width (fun x output =>
      let i := (y * T.width + x) * channels
      let frame1X : Int := (x : Int) + offset
      let frame2X : Int := (x : Int) + offset - (T.width : Int)
      if frame1X < (T.width : Int) ∧ frame1X ≥ 0 then
        let frame1Index := (((y : Int) * (T.width : Int) + frame1X) * (channels : Int)).toNat
        writePixel output i (frame1.getD frame1Index 0) (frame1.getD (frame1Index + 1) 0)
          (frame1.getD (frame1Index + 2) 0) 255
      else if frame2X ≥ 0 ∧ frame2X < (T.width : Int) then
        let frame2Index := (((y : Int) * (T.width : Int) + frame2X) * (channels : Int)).toNat
        writePixel output i (frame2.getD frame2Index 0) (frame2.getD (frame2Index + 1) 0)
          (frame2.getD (frame2Index + 2) 0) 255
      else
        writePixel output i 0 0 0 255)
      output)
    (List.replicate size 0)

/-- The byte `slideLeftWith` writes for channel `c` of pixel `(x, y)`: the
    three branches of its loop body. -/
def slideSourceWith (pow : ℚ → ℚ → ℚ) (T : VideoTransitions) (frame1 frame2 : List Nat)
    (progress : ℚ) (x y c : Nat) : Nat :=
  if (x : Int) + slideOffsetWith pow T progress < (T.width : Int)
      ∧ (x : Int) + slideOffsetWith pow T progress ≥ 0 then
    frame1.getD ((((y : Int) * (T.width : Int) + ((x : Int) + slideOffsetWith pow T progress))
      * (channels : Int)).toNat + c) 0
  else if (x : Int) + slideOffsetWith pow T progress - (T.width : Int) ≥ 0
      ∧ (x : Int) + slideOffsetWith pow T progress - (T.width : Int) < (T.width : Int) then
    frame2.getD ((((y : Int) * (T.width : Int)
      + ((x : Int) + slideOffsetWith pow T progress - (T.width : Int))) * (channels : Int)).toNat
        + c) 0
  else 0

/-- The integer `(x * 2654435761 + y * 2246822519) % 1000` of `dissolve`,
    computed in 64-bit signed arithmetic, `%` truncating. -/
def dissolveNumerator (x y : Nat) : Int :=
  Int.tmod (wrap64 (wrap64 ((x : Int) * 2654435761) + wrap64 ((y : Int) * 2246822519))) 1000

/-- The local `pixelThreshold` of `dissolve`. -/
def pixelThreshold (x y : Nat) : ℚ :=
  F32.div (F32.ofInt (dissolveNumerator x y)) 1000

/-- The method `dissolve`. -/
def dissolve (T : VideoTransitions) (frame1 frame2 : List Nat) (progress : ℚ) : List Nat :=
  selectFrames T frame1 frame2 (fun x y => decide (progress ≥ pixelThreshold x y))

/-- The first phase of `fadeToBlack`: `clamp(v * fadeOut)` with
    `fadeOut = 1.0f - (progress * 2.0f)`. -/
def fadeOutChannel (v : Nat) (progress : ℚ) : Nat :=
  clamp (F32.toInt (F32.mul (v : ℚ) (F32.sub 1 (F32.mul progress 2))))

/-- The second phase of `fadeToBlack`: `clamp(v * fadeIn)` with
    `fadeIn = (progress - 0.5f) * 2.0f`. -/
def fadeInChannel (v : Nat) (progress : ℚ) : Nat :=
  clamp (F32.toInt (F32.mul (v : ℚ) (F32.mul (F32.sub progress (1 / 2)) 2)))

/-- The method `fadeToBlack`. -/
def fadeToBlack (T : VideoTransitions) (frame1 frame2 : List Nat) (progress : ℚ) : List Nat :=
  let size := T.width * T.height * channels
  if progress < 1 / 2 then
    forStep size channels (fun i output =>
      writePixel output i (fadeOutChannel (frame1.getD i 0) progress)
        (fadeOutChannel (frame1.getD (i + 1) 0) progress)
        (fadeOutChannel (frame1.getD (i + 2) 0) progress) 255)
      (List.replicate size 0)
  else
    forStep size channels (fun i output =>
      writePixel output i (fadeInChannel (frame2.getD i 0) progress)
        (fadeInChannel (frame2.getD (i + 1) 0) progress)
        (fadeInChannel (frame2.getD (i + 2) 0) progress) 255)
      (List.replicate size 0)

end VideoTransitions

/-! ## VideoFilters -/

/-- The state of `class VideoFilters`. -/
structure VideoFilters where
  width : Nat
  height : Nat

namespace VideoFilters

/-- The helper `clamp(int value)`: `max(0, min(255, value))` as a byte. -/
def clamp (value : Int) : Nat := (max 0 (min 255 value)).toNat

/-- The helper `hsvToRgb`, returning the bytes `(r, g, b)`. -/
def hsvToRgb (h s v : ℚ) : Nat × Nat × Nat :=
  let c := F32.mul v s
  let x := F32.mul c (F32.sub 1 |F32.sub (F32.fmod (F32.div h 60) 2) 1|)
  let m := F32.sub v c
  let rgb1 : ℚ × ℚ × ℚ :=
    if h < 60 then (c, x, 0)
    else if h < 120 then (x, c, 0)
    else if h < 180 then (0, c, x)
    else if h < 240 then (0, x, c)
    else if h < 300 then (x, 0, c)
    else (c, 0, x)
  (clamp (F32.toInt (F32.mul (F32.add rgb1.1 m) 255)),
   clamp (F32.toInt (F32.mul (F32.add rgb1.2.1 m) 255)),
   clamp (F32.toInt (F32.mul (F32.add rgb1.2.2 m) 255)))

/-- The helper `rgbToHsv`, returning `(h, s, v)`. -/
def rgbToHsv (r g b : Nat) : ℚ × ℚ × ℚ :=
  let rf := F32.div (r : ℚ) 255
  let gf := F32.div (g : ℚ) 255
  let bf := F32.div (b : ℚ) 255
  let maxVal := max rf (max gf bf)
  let minVal := min rf (min gf bf)
  let delta := F32.sub maxVal minVal
  let v := maxVal
  let s := if maxVal ≠ 0 then F32.div delta maxVal else 0
  let h :=
    if delta = 0 then 0
    else if maxVal = rf then F32.mul 60 (F32.fmod (F32.div (F32.sub gf bf) delta) 6)
    else if maxVal = gf then F32.mul 60 (F32.add (F32.div (F32.sub bf rf) delta) 2)
    else F32.mul 60 (F32.add (F32.div (F32.sub rf gf) delta) 4)
  let h := if h < 0 then F32.add h 360 else h
  (h, s, v)

/-- The brightness and contrast steps of `colorGrade` on one channel:
    `rf = v + brightnessF * 255`, then
    `rf = ((rf / 255.0f - 0.5f) * contrastF + 0.5f) * 255`. -/
def gradeChannel (v : Nat) (brightnessF contrastF : ℚ) : ℚ :=
  let rf := F32.add (v : ℚ) (F32.mul brightnessF 255)
  F32.mul (F32.add (F32.mul (F32.sub (F32.div rf 255) (1 / 2)) contrastF) (1 / 2)) 255

/-- The method `colorGrade`; the result is the buffer after the call. -/
def colorGrade (F : VideoFilters) (data : List Nat) (brightness contrast saturation hue : ℚ) :
    List Nat :=
  let totalPixels := F.width * F.height * 4
  let brightnessF := F32.div brightness 100
  let contrastF := F32.div (F32.add contrast 100) 100
  let saturationF := F32.div (F32.add saturation 100) 100
  forStep totalPixels 4 (fun i data =>
    let r := data.getD i 0
    let g := data.getD (i + 1) 0
    let b := data.getD (i + 2) 0
    let rf := gradeChannel r brightnessF contrastF
    let gf := gradeChannel g brightnessF contrastF
    let bf := gradeChannel b brightnessF contrastF
    if saturation ≠ 0 ∨ hue ≠ 0 then
      let hsv := rgbToHsv (clamp (F32.toInt rf)) (clamp (F32.toInt gf)) (clamp (F32.toInt bf))
      let h := F32.fmod (F32.add (F32.add hsv.1 hue) 360) 360
      let s := max 0 (min 1 (F32.mul hsv.2.1 saturationF))
      let rgb := hsvToRgb h s hsv.2.2
      writeRGB data i rgb.1 rgb.2.1 rgb.2.2
    else
      writeRGB data i (clamp (F32.toInt rf)) (clamp (F32.toInt gf)) (clamp (F32.toInt bf)))
    data

/-- The sum of channel `c` over the `2 * radius + 1` samples of one pass of
    `blur`, accumulated in an `int`: `at_ d` is the buffer index of the sample
    at displacement `d`. -/
def boxSum (src : List Nat) (radius : Int) (at_ : Int → Nat) (c : Nat) : Int :=
  forInt (-radius) radius (fun d sum => wrap32 (sum + (src.getD (at_ d + c) 0 : Int))) 0

/-- The counter `count` of one pass of `blur`, an `int`. -/
def boxCount (radius : Int) : Int :=
  forInt (-radius) radius (fun _ count => wrap32 (count + 1)) 0

/-- The byte `temp[idx] = sum / count` stores: the quotient of two `int`s,
    truncated toward zero, converted to `uint8_t`. -/
def boxByte (sum count : Int) : Nat := toUint8 (Int.tdiv sum count)

/-- The method `blur`; the result is the buffer after the call. -/
def blur (F : VideoFilters) (data : List Nat) (radius : Int) : List Nat :=
  if radius ≤ 0 then data
  else
    let temp :=
      forLoop 0 F.height (fun y temp =>
        forLoop 0 F.width (fun x temp =>
          let at_ : Int → Nat := fun dx =>
            let nx := max 0 (min ((F.width : Int) - 1) ((x : Int) + dx))
            (((y : Int) * (F.width : Int) + nx) * 4).toNat
          let count := boxCount radius
          let idx := (y * F.width + x) * 4
          writePixel temp idx
            (boxByte (boxSum data radius at_ 0) count) (boxByte (boxSum data radius at_ 1) count)
            (boxByte (boxSum data radius at_ 2) count) (boxByte (boxSum data radius at_ 3) count))
          temp)
        (List.replicate (F.width * F.height * 4) 0)
    forLoop 0 F.height (fun y data =>
      forLoop 0 F.width (fun x data =>
        let at_ : Int → Nat := fun dy =>
          let ny := max 0 (min ((F.height : Int) - 1) ((y : Int) + dy))
          ((ny * (F.width : Int) + (x : Int)) * 4).toNat
        let count := boxCount radius
        let idx := (y * F.width + x) * 4
        writePixel data idx
          (boxByte (boxSum temp radius at_ 0) count) (boxByte (boxSum temp radius at_ 1) count)
          (boxByte (boxSum temp radius at_ 2) count) (boxByte (boxSum temp radius at_ 3) count))
        data)
      data
/-- The method `sharpen`; the result is the buffer after the call. -/
def sharpen (F : VideoFilters) (data : List Nat) (amount : ℚ) : List Nat :=
  if amount ≤ 0 then data
  else
    let original := data.take (F.width * F.height * 4)
    forLoop 1 (F.height - 1) (fun y data =>
      forLoop 1 (F.width - 1) (fun x data =>
        let idx := (y * F.width + x) * 4
        forLoop 0 3 (fun c data =>
          let center : Int := (original.getD (idx + c) 0 : Int) * 5
          let neighbors : Int :=
            (original.getD (((y - 1) * F.width + x) * 4 + c) 0 : Int) +
            (original.getD (((y + 1) * F.width + x) * 4 + c) 0 : Int) +
            (original.getD ((y * F.width + (x - 1)) * 4 + c) 0 : Int) +
            (original.getD ((y * F.width + (x + 1)) * 4 + c) 0 : Int)
          let sharpened : Int := center - neighbors
          let blended : Int :=
            (original.getD (idx + c) 0 : Int) + F32.toInt (F32.mul (F32.ofInt sharpened) amount)
          data.set (idx + c) (clamp blended))
          data)
        data)
      data

/-- The window of `noiseReduction` at `(x, y)`, channel `c`, in the order
    the source pushes the values: rows `dy`, then columns `dx`. -/
def window (original : List Nat) (width : Nat) (strength : Int) (x y c : Nat) : List Nat :=
  forInt (-strength) strength (fun dy values =>
    forInt (-strength) strength (fun dx values =>
      let idx := ((((y : Int) + dy) * (width : Int) + ((x : Int) + dx)) * 4 + (c : Int)).toNat
      values ++ [original.getD idx 0])
      values)
    []

/-- The method `noiseReduction`; the result is the buffer after the call.
    The call `std::sort` is an insertion sort here. -/
def noiseReduction (F : VideoFilters) (data : List Nat) (strength : Int) : List Nat :=
  if strength ≤ 0 then data
  else
    let original := data.take (F.width * F.height * 4)
    let s := strength.toNat
    forLoop s (F.height - s) (fun y data =>
      forLoop s (F.width - s) (fun x data =>
        forLoop 0 3 (fun c data =>
          let values := (window original F.width strength x y c).insertionSort (· ≤ ·)
          let idx := (y * F.width + x) * 4 + c
          data.set idx (values.getD (values.length / 2) 0))
          data)
        data)
      data

end VideoFilters

/-! ## Square roots -/

namespace F32

/-- Integer square root, one bit at a time: `r` holds the bits found so far,
    `b` bits remain to be decided. -/
def isqrtAux : Nat → Nat → Nat → Nat
  | 0, _, r => r
  | b + 1, n, r => isqrtAux b n (if (r + 2 ^ b) ^ 2 ≤ n then r + 2 ^ b else r)

/-- Integer square root: `isqrt n ^ 2 ≤ n < (isqrt n + 1) ^ 2`. -/
def isqrt (n : Nat) : Nat := isqrtAux (natLog2 n / 2 + 1) n 0

/-- The square root of a rational rounded to the nearest value with `p`
    significant bits, ties to even (the exponent is not bounded: the square
    root of a binary32 or binary64 value is never subnormal). Zero for an
    argument that is not positive. -/
def sqrtRound (p : Nat) (q : ℚ) : ℚ :=
  if q ≤ 0 then 0
  else
    let u := pow2 (ilog2 q / 2 - ((p : Int) - 1))
    let x := q / (u * u)
    let m := isqrt ⌊x⌋.toNat
    let mid : ℚ := (m : ℚ) + 1 / 2
    if x < mid * mid then (m : ℚ) * u
    else if mid * mid < x then ((m : ℚ) + 1) * u
    else if m % 2 = 0 then (m : ℚ) * u else ((m : ℚ) + 1) * u

/-- The `float` square root `std::sqrt(float)`, correctly rounded. -/
def sqrt (q : ℚ) : ℚ := sqrtRound 24 q

/-- The `double` square root `std::sqrt(double)`, correctly rounded to
    binary64; `std::sqrt` of an `int` is this one. -/
def sqrt64 (q : ℚ) : ℚ := sqrtRound 53 q

end F32

/-! ## Float arithmetic with overflow

The methods above are given parameters from a bounded range, where no
result of theirs leaves the range of `float`. `applyLUT` takes parameters of
any size; for it the operations below also tell when a result is not finite. -/

namespace F32

/-- The largest finite binary32 value, `(2 ^ 24 - 1) * 2 ^ 104`. -/
def maxFinite : ℚ := (2 ^ 24 - 1) * 2 ^ 104

/-- A rounded result as a `float`: `none` stands for an infinity or a NaN,
    which is what a result beyond `maxFinite` becomes. -/
def fin (q : ℚ) : Option ℚ := if |q| ≤ maxFinite then some q else none

/-- Float addition; an infinity or NaN operand gives an infinity or NaN. -/
def addE (a b : Option ℚ) : Option ℚ :=
  match a, b with
  | some x, some y => fin (round (x + y))
  | _, _ => none

/-- Float subtraction; an infinity or NaN operand gives an infinity or NaN. -/
def subE (a b : Option ℚ) : Option ℚ :=
  match a, b with
  | some x, some y => fin (round (x - y))
  | _, _ => none

/-- Float multiplication; an infinity or NaN operand gives an infinity or NaN
    (also when the other operand is zero). -/
def mulE (a b : Option ℚ) : Option ℚ :=
  match a, b with
  | some x, some y => fin (round (x * y))
  | _, _ => none

/-- Float division by a finite divisor other than zero. -/
def divE (a : Option ℚ) (y : ℚ) : Option ℚ :=
  match a with
  | some x => fin (round (x / y))
  | none => none

/-- The conversion `static_cast<int>`: defined for a finite value whose
    truncation fits a 32-bit `int`, undefined (`none`) otherwise. -/
def toIntE (a : Option ℚ) : Option Int :=
  match a with
  | some x => if -(2 ^ 31) ≤ trunc x ∧ trunc x ≤ 2 ^ 31 - 1 then some (trunc x) else none
  | none => none

/-- A finite value of magnitude at most `2 ^ k`. -/
def FiniteWithin (k : Nat) (a : Option ℚ) : Prop := ∃ x, a = some x ∧ |x| ≤ 2 ^ k

end F32

namespace VideoFilters

/-- The constant `441.67f`. -/
def maxRgbDistance : ℚ := F32.round (44167 / 100)

/-- The `int` sum of squares under the square root in `chromaKey`. -/
def keyDistanceSq (r g b : Nat) (keyR keyG keyB : Int) : Int :=
  ((r : Int) - keyR) * ((r : Int) - keyR) + ((g : Int) - keyG) * ((g : Int) - keyG)
    + ((b : Int) - keyB) * ((b : Int) - keyB)

/-- The local `distance` of `chromaKey`: `std::sqrt` of the `int` sum of
    squares is a `double`, narrowed to `float` by the assignment. -/
def keyDistance (r g b : Nat) (keyR keyG keyB : Int) : ℚ :=
  F32.round (F32.sqrt64 ((keyDistanceSq r g b keyR keyG keyB : Int) : ℚ))

/-- The local `alpha` of `chromaKey` for a pixel at distance `distance`. -/
def keyAlpha (distance toleranceScaled softnessScaled : ℚ) : ℚ :=
  if distance < toleranceScaled then
    if distance < F32.sub toleranceScaled softnessScaled then 0
    else F32.div (F32.sub distance (F32.sub toleranceScaled softnessScaled)) softnessScaled
  else 1

/-- The body of the loop of `chromaKey`, for the pixel at byte offset `i`. -/
def chromaKeyPixel (data : List Nat) (i : Nat) (keyR keyG keyB : Int)
    (toleranceScaled softnessScaled spillSuppression : ℚ) : List Nat :=
  let r := data.getD i 0
  let g := data.getD (i + 1) 0
  let b := data.getD (i + 2) 0
  let distance := keyDistance r g b keyR keyG keyB
  let alpha := keyAlpha distance toleranceScaled softnessScaled
  let data :=
    if spillSuppression > 0 ∧ alpha > F32.round (1 / 10) then
      let spillAmount := F32.mul (F32.sub 1 (F32.div distance maxRgbDistance)) spillSuppression
      if keyG > keyR ∧ keyG > keyB then
        let avgRB := F32.div ((r + b : Nat) : ℚ) 2
        data.set (i + 1) (clamp (F32.toInt
          (F32.add (F32.mul (g : ℚ) (F32.sub 1 spillAmount)) (F32.mul avgRB spillAmount))))
      else if keyB > keyR ∧ keyB > keyG then
        let avgRG := F32.div ((r + g : Nat) : ℚ) 2
        data.set (i + 2) (clamp (F32.toInt
          (F32.add (F32.mul (b : ℚ) (F32.sub 1 spillAmount)) (F32.mul avgRG spillAmount))))
      else data
    else data
  data.set (i + 3) (clamp (F32.toInt (F32.mul alpha 255)))

/-- The method `chromaKey`; the result is the buffer after the call. -/
def chromaKey (F : VideoFilters) (data : List Nat) (keyR keyG keyB : Int)
    (tolerance softness spillSuppression : ℚ) : List Nat :=
  let totalPixels := F.width * F.height * 4
  let toleranceScaled := F32.mul tolerance maxRgbDistance
  let softnessScaled := F32.mul softness maxRgbDistance
  forStep totalPixels 4 (fun i data =>
    chromaKeyPixel data i keyR keyG keyB toleranceScaled softnessScaled spillSuppression) data

/-- The local `distance` of `vignette` at pixel `(x, y)`. -/
def centreDistance (centerX centerY : ℚ) (x y : Nat) : ℚ :=
  let dx := F32.sub (F32.ofInt x) centerX
  let dy := F32.sub (F32.ofInt y) centerY
  F32.sqrt (F32.add (F32.mul dx dx) (F32.mul dy dy))

/-- The local `vignetteFactor` of `vignette` for a pixel at distance `distance`. -/
def vignetteFactor (distance maxDist intensity radius : ℚ) : ℚ :=
  if distance > F32.mul maxDist radius then
    let ratio := F32.div (F32.sub distance (F32.mul maxDist radius))
      (F32.mul maxDist (F32.sub 1 radius))
    F32.sub 1 (F32.mul (min 1 ratio) intensity)
  else 1

/-- The local `centerX` of `vignette`: `width / 2.0f`. -/
def centerX (F : VideoFilters) : ℚ := F32.div (F32.ofInt F.width) 2

/-- The local `centerY` of `vignette`: `height / 2.0f`. -/
def centerY (F : VideoFilters) : ℚ := F32.div (F32.ofInt F.height) 2

/-- The local `maxDist` of `vignette`. -/
def maxDist (F : VideoFilters) : ℚ :=
  F32.sqrt (F32.add (F32.mul F.centerX F.centerX) (F32.mul F.centerY F.centerY))

/-- The method `vignette`; the result is the buffer after the call. -/
def vignette (F : VideoFilters) (data : List Nat) (intensity radius : ℚ) : List Nat :=
  forLoop 0 F.height (fun y data =>
    forLoop 0 F.width (fun x data =>
      let distance := centreDistance F.centerX F.centerY x y
      let factor := vignetteFactor distance F.maxDist intensity radius
      let idx := (y * F.width + x) * 4
      writeRGB data idx
        (clamp (F32.toInt (F32.mul (data.getD idx 0 : ℚ) factor)))
        (clamp (F32.toInt (F32.mul (data.getD (idx + 1) 0 : ℚ) factor)))
        (clamp (F32.toInt (F32.mul (data.getD (idx + 2) 0 : ℚ) factor)))) data) data

/-- The contrast step of `applyLUT`: `((v / 255.0f - 0.5f) * contrastF + 0.5f) * 255`. -/
def lutContrast (v : Option ℚ) (contrastF : ℚ) : Option ℚ :=
  F32.mulE (F32.addE (F32.mulE (F32.subE (F32.divE v 255) (some (1 / 2))) (some contrastF))
    (some (1 / 2))) (some 255)

/-- The saturation step of `applyLUT`: `gray + saturationAdj * (v - gray)`. -/
def lutSaturate (v gray : Option ℚ) (saturationAdj : ℚ) : Option ℚ :=
  F32.addE gray (F32.mulE (some saturationAdj) (F32.subE v gray))

/-- The last step of `applyLUT`:
    `clamp(static_cast<int>(v * intensity + orig * (1 - intensity)))`. -/
def lutBlend (v : Option ℚ) (orig : Nat) (intensity : ℚ) : Option Nat :=
  (F32.toIntE (F32.addE (F32.mulE v (some intensity))
    (F32.mulE (some (orig : ℚ)) (F32.subE (some 1) (some intensity))))).map clamp

/-- The channel values `(r, g, b)` of `applyLUT` after the temperature,
    warmth, contrast and saturation steps, for a pixel with the bytes `origR`,
    `origG`, `origB`. -/
def lutGraded (origR origG origB : Nat) (temperature warmth contrastAdj saturationAdj : ℚ) :
    Option ℚ × Option ℚ × Option ℚ :=
  let r := F32.addE (some (origR : ℚ)) (F32.mulE (some temperature) (some 50))
  let b := F32.subE (some (origB : ℚ)) (F32.mulE (some temperature) (some 50))
  let r := F32.addE r (F32.mulE (some warmth) (some 30))
  let g := F32.addE (some (origG : ℚ)) (F32.mulE (some warmth) (some 15))
  let r := lutContrast r contrastAdj
  let g := lutContrast g contrastAdj
  let b := lutContrast b contrastAdj
  let gray := F32.addE (F32.addE (F32.mulE (some (F32.round (2989 / 10000))) r)
    (F32.mulE (some (F32.round (5870 / 10000))) g))
    (F32.mulE (some (F32.round (1140 / 10000))) b)
  (lutSaturate r gray saturationAdj, lutSaturate g gray saturationAdj,
    lutSaturate b gray saturationAdj)

/-- The body of the loop of `applyLUT`, for the pixel at byte offset `i`:
    `none` when a channel value is not finite, or too large for an `int`, at
    its conversion to `int`, for which the source has no defined result. -/
def lutPixel (data : List Nat) (i : Nat)
    (temperature warmth contrastAdj saturationAdj intensity : ℚ) : Option (List Nat) :=
  let origR := data.getD i 0
  let origG := data.getD (i + 1) 0
  let origB := data.getD (i + 2) 0
  let rgb := lutGraded origR origG origB temperature warmth contrastAdj saturationAdj
  match lutBlend rgb.1 origR intensity, lutBlend rgb.2.1 origG intensity,
      lutBlend rgb.2.2 origB intensity with
  | some r8, some g8, some b8 => some (writeRGB data i r8 g8 b8)
  | _, _, _ => none

/-- The method `applyLUT`; the result is the buffer after the call, or `none`
    when the conversion to `int` has no defined result at some pixel. -/
def applyLUT (F : VideoFilters) (data : List Nat)
    (temperature warmth contrastAdj saturationAdj intensity : ℚ) : Option (List Nat) :=
  let totalPixels := F.width * F.height * 4
  forStep totalPixels 4 (fun i state =>
    match state with
    | none => none
    | some data => lutPixel data i temperature warmth contrastAdj saturationAdj intensity)
    (some data)


/-- The value `sharpen` assigns to channel `c` of the interior pixel `(x, y)`:
    the body of its innermost loop, `original` being the snapshot. -/
def sharpenValue (original : List Nat) (width : Nat) (amount : ℚ) (x y c : Nat) : Nat :=
  let idx := (y * width + x) * 4
  let center : Int := (original.getD (idx + c) 0 : Int) * 5
  let neighbors : Int :=
    (original.getD (((y - 1) * width + x) * 4 + c) 0 : Int) +
    (original.getD (((y + 1) * width + x) * 4 + c) 0 : Int) +
    (original.getD ((y * width + (x - 1)) * 4 + c) 0 : Int) +
    (original.getD ((y * width + (x + 1)) * 4 + c) 0 : Int)
  let sharpened : Int := center - neighbors
  let blended : Int :=
    (original.getD (idx + c) 0 : Int) + F32.toInt (F32.mul (F32.ofInt sharpened) amount)
  clamp blended

end VideoFilters

/-! ## Reference descriptions -/

/-- The horizontal pass of the two-pass box blur, as a formula: the sum over
    `dx` in `[-radius, radius]` of the input at column `x + dx` clamped to
    `[0, width - 1]`, divided by `2 * radius + 1`, rounded down. -/
def blurTempRef (data : List Nat) (width radius x y c : Nat) : Nat :=
  (Finset.sum (Finset.Icc (-(radius : Int)) (radius : Int)) (fun dx =>
    data.getD ((y * width + (max 0 (min ((width : Int) - 1) ((x : Int) + dx))).toNat) * 4 + c) 0))
    / (2 * radius + 1)

/-- The vertical pass of the two-pass box blur, as a formula: the sum over
    `dy` in `[-radius, radius]` of the horizontal result at row `y + dy` clamped
    to `[0, height - 1]`, divided by `2 * radius + 1`, rounded down. -/
def blurRef (data : List Nat) (width height radius x y c : Nat) : Nat :=
  (Finset.sum (Finset.Icc (-(radius : Int)) (radius : Int)) (fun dy =>
    blurTempRef data width radius x
      (max 0 (min ((height : Int) - 1) ((y : Int) + dy))).toNat c))
    / (2 * radius + 1)

/-- The transformer `f` of buffers of the length of `p` writes the byte `V j` at
    every index `j` in `S`, leaves every other byte alone, and needs its
    input to agree with `p` only at the indices in `S`. -/
def LocalWrites (p : List Nat) (f : List Nat → List Nat) (S : Nat → Prop) (V : Nat → Nat) :
    Prop :=
  ∀ t : List Nat, t.length = p.length → (∀ j, S j → t.getD j 0 = p.getD j 0) →
    (f t).length = p.length ∧ (∀ j, ¬ S j → (f t).getD j 0 = t.getD j 0) ∧
      (∀ j, S j → (f t).getD j 0 = V j)

/-- The byte one pass of `blur` stores at radius `r` where each of the
    `2 * r + 1` samples is `v`: the wrapped sum over the wrapped count. -/
def passByte (r v : Nat) : Nat :=
  VideoFilters.boxByte (wrap32 ((2 * (r : Int) + 1) * (v : Int))) (wrap32 (2 * (r : Int) + 1))

namespace F32

theorem pow2_eq (e : Int) : pow2 e = (2 : ℚ) ^ e := by
  unfold pow2
  split
  · next h =>
    obtain ⟨n, rfl⟩ := Int.eq_ofNat_of_zero_le h
    simp [zpow_natCast]
  · next h =>
    obtain ⟨n, hn⟩ := Int.eq_ofNat_of_zero_le (show 0 ≤ -e by omega)
    have he : e = -(n : Int) := by omega
    subst he
    simp [zpow_neg, zpow_natCast]

theorem pow2_pos (e : Int) : 0 < pow2 e := by
  rw [pow2_eq]; exact zpow_pos (by norm_num) e

theorem log2Aux_spec (fuel : Nat) :
    ∀ n, 0 < n → n ≤ fuel → 2 ^ log2Aux fuel n ≤ n ∧ n < 2 ^ (log2Aux fuel n + 1) := by
  induction fuel with
  | zero => intro n h0 h1; omega
  | succ k ih =>
    intro n h0 h1
    unfold log2Aux
    split
    · next h => constructor <;> simp <;> omega
    · next h =>
      have hdiv : 0 < n / 2 := Nat.div_pos (by omega) (by norm_num)
      have hle : n / 2 ≤ k := by omega
      obtain ⟨h2, h3⟩ := ih (n / 2) hdiv hle
      constructor
      · rw [pow_succ]; omega
      · rw [pow_succ]; omega

theorem natLog2_spec (n : Nat) (h : 0 < n) :
    2 ^ natLog2 n ≤ n ∧ n < 2 ^ (natLog2 n + 1) :=
  log2Aux_spec n n h (le_refl n)

theorem ilog2_core (n d a b : Nat) (hd : 0 < d)
    (ha1 : 2 ^ a ≤ n) (ha2 : n < 2 ^ (a + 1)) (hb1 : 2 ^ b ≤ d) (hb2 : d < 2 ^ (b + 1))
    (e : Int) (he : e = if d * 2 ^ a ≤ n * 2 ^ b then (a : Int) - b else (a : Int) - b - 1) :
    (2 : ℚ) ^ e ≤ (n : ℚ) / (d : ℚ) ∧ (n : ℚ) / (d : ℚ) < (2 : ℚ) ^ (e + 1) := by
  have hdq : (0 : ℚ) < (d : ℚ) := by exact_mod_cast hd
  have hbq : (0 : ℚ) < (2 : ℚ) ^ b := by positivity
  have hbq1 : (0 : ℚ) < (2 : ℚ) ^ (b + 1) := by positivity
  have two_ne : (2 : ℚ) ≠ 0 := by norm_num
  split at he
  · next h =>
    have e1 : (2 : ℚ) ^ e = (2 : ℚ) ^ a / (2 : ℚ) ^ b := by
      rw [he, zpow_sub₀ two_ne, zpow_natCast, zpow_natCast]
    have e2 : (2 : ℚ) ^ (e + 1) = (2 : ℚ) ^ (a + 1) / (2 : ℚ) ^ b := by
      have : e + 1 = ((a + 1 : Nat) : Int) - (b : Int) := by rw [he]; push_cast; ring
      rw [this, zpow_sub₀ two_ne, zpow_natCast, zpow_natCast]
    rw [e1, e2]
    constructor
    · rw [div_le_div_iff₀ hbq hdq]
      have : 2 ^ a * d ≤ n * 2 ^ b := by rw [Nat.mul_comm]; exact h
      exact_mod_cast this
    · rw [div_lt_div_iff₀ hdq hbq]
      have : n * 2 ^ b < 2 ^ (a + 1) * d :=
        calc n * 2 ^ b < 2 ^ (a + 1) * 2 ^ b := Nat.mul_lt_mul_of_pos_right ha2 (by positivity)
          _ ≤ 2 ^ (a + 1) * d := Nat.mul_le_mul_left _ hb1
      exact_mod_cast this
  · next h =>
    have e1 : (2 : ℚ) ^ e = (2 : ℚ) ^ a / (2 : ℚ) ^ (b + 1) := by
      have : e = (a : Int) - ((b + 1 : Nat) : Int) := by rw [he]; push_cast; ring
      rw [this, zpow_sub₀ two_ne, zpow_natCast, zpow_natCast]
    have e2 : (2 : ℚ) ^ (e + 1) = (2 : ℚ) ^ a / (2 : ℚ) ^ b := by
      have : e + 1 = (a : Int) - (b : Int) := by rw [he]; ring
      rw [this, zpow_sub₀ two_ne, zpow_natCast, zpow_natCast]
    rw [e1, e2]
    constructor
    · rw [div_le_div_iff₀ hbq1 hdq]
      have : 2 ^ a * d ≤ n * 2 ^ (b + 1) :=
        calc 2 ^ a * d ≤ n * d := Nat.mul_le_mul_right _ ha1
          _ ≤ n * 2 ^ (b + 1) := Nat.mul_le_mul_left _ (le_of_lt hb2)
      exact_mod_cast this
    · rw [div_lt_div_iff₀ hdq hbq]
      have : n * 2 ^ b < 2 ^ a * d := by rw [Nat.mul_comm (2 ^ a)]; omega
      exact_mod_cast this

theorem ilog2_spec (q : ℚ) (hq : 0 < q) :
    (2 : ℚ) ^ ilog2 q ≤ q ∧ q < (2 : ℚ) ^ (ilog2 q + 1) := by
  have hnum : 0 < q.num := Rat.num_pos.mpr hq
  have hn : 0 < q.num.natAbs := Int.natAbs_pos.mpr (ne_of_gt hnum)
  have hd : 0 < q.den := q.den_pos
  obtain ⟨ha1, ha2⟩ := natLog2_spec _ hn
  obtain ⟨hb1, hb2⟩ := natLog2_spec _ hd
  have h2 : ((q.num.natAbs : Nat) : ℚ) = (q.num : ℚ) := by
    rw [Nat.cast_natAbs, abs_of_pos hnum]
  have hqe : (q.num.natAbs : ℚ) / (q.den : ℚ) = q := by
    rw [h2]; exact Rat.num_div_den q
  have := ilog2_core q.num.natAbs q.den _ _ hd ha1 ha2 hb1 hb2 (ilog2 q) rfl
  rwa [hqe] at this

theorem ilog2_unique (q : ℚ) (e : Int) (h1 : (2 : ℚ) ^ e ≤ q) (h2 : q < (2 : ℚ) ^ (e + 1)) :
    ilog2 q = e := by
  have hq : 0 < q := lt_of_lt_of_le (zpow_pos (by norm_num) e) h1
  obtain ⟨s1, s2⟩ := ilog2_spec q hq
  have one_lt : (1 : ℚ) < 2 := by norm_num
  have a : e < ilog2 q + 1 := (zpow_lt_zpow_iff_right₀ one_lt).mp (lt_of_le_of_lt h1 s2)
  have b : ilog2 q < e + 1 := (zpow_lt_zpow_iff_right₀ one_lt).mp (lt_of_le_of_lt s1 h2)
  omega

theorem ilog2_mono (a b : ℚ) (ha : 0 < a) (hab : a ≤ b) : ilog2 a ≤ ilog2 b := by
  obtain ⟨a1, _⟩ := ilog2_spec a ha
  obtain ⟨_, b2⟩ := ilog2_spec b (lt_of_lt_of_le ha hab)
  have one_lt : (1 : ℚ) < 2 := by norm_num
  have : ilog2 a < ilog2 b + 1 :=
    (zpow_lt_zpow_iff_right₀ one_lt).mp (lt_of_le_of_lt a1 (lt_of_le_of_lt hab b2))
  omega


theorem floor_le_rne (x : ℚ) : ⌊x⌋ ≤ rne x := by
  unfold rne
  simp only
  split_ifs <;> omega

theorem rne_le_floor_succ (x : ℚ) : rne x ≤ ⌊x⌋ + 1 := by
  unfold rne
  simp only
  split_ifs <;> omega

theorem rne_intCast (m : Int) : rne (m : ℚ) = m := by
  unfold rne
  simp

theorem rne_mono (x y : ℚ) (h : x ≤ y) : rne x ≤ rne y := by
  have hfl : ⌊x⌋ ≤ ⌊y⌋ := Int.floor_mono h
  rcases lt_or_eq_of_le hfl with hlt | heq
  · calc rne x ≤ ⌊x⌋ + 1 := rne_le_floor_succ x
      _ ≤ ⌊y⌋ := hlt
      _ ≤ rne y := floor_le_rne y
  · unfold rne
    simp only
    rw [heq]
    have hxy : x - (⌊y⌋ : ℚ) ≤ y - (⌊y⌋ : ℚ) := by linarith
    split_ifs <;> first | omega | (exfalso; linarith)

theorem le_rne (k : Int) (x : ℚ) (h : (k : ℚ) ≤ x) : k ≤ rne x := by
  have := rne_mono _ _ h
  rwa [rne_intCast] at this

theorem rne_le (k : Int) (x : ℚ) (h : x ≤ (k : ℚ)) : rne x ≤ k := by
  have := rne_mono _ _ h
  rwa [rne_intCast] at this

/-- The spacing of binary32 values around a positive rational. -/
theorem roundPos_eq (q : ℚ) :
    roundPos q = (rne (q / (2 : ℚ) ^ (max (ilog2 q) (-126) - 23)) : ℚ)
      * (2 : ℚ) ^ (max (ilog2 q) (-126) - 23) := by
  unfold roundPos
  simp only [pow2_eq]

theorem roundPos_nonneg (q : ℚ) (hq : 0 ≤ q) : 0 ≤ roundPos q := by
  rw [roundPos_eq]
  have hu : (0 : ℚ) < (2 : ℚ) ^ (max (ilog2 q) (-126) - 23) := zpow_pos (by norm_num) _
  have h0 : (0 : Int) ≤ rne (q / (2 : ℚ) ^ (max (ilog2 q) (-126) - 23)) :=
    le_rne 0 _ (by simpa using div_nonneg hq (le_of_lt hu))
  have : (0 : ℚ) ≤ (rne (q / (2 : ℚ) ^ (max (ilog2 q) (-126) - 23)) : ℚ) := by exact_mod_cast h0
  exact mul_nonneg this (le_of_lt hu)

theorem roundPos_le_pow (q : ℚ) (hq : 0 < q) :
    roundPos q ≤ (2 : ℚ) ^ (max (ilog2 q) (-126) + 1) := by
  rw [roundPos_eq]
  set e := max (ilog2 q) (-126) with he
  have two_ne : (2 : ℚ) ≠ 0 := by norm_num
  have hu : (0 : ℚ) < (2 : ℚ) ^ (e - 23) := zpow_pos (by norm_num) _
  have hlt : q < (2 : ℚ) ^ (e + 1) :=
    lt_of_lt_of_le (ilog2_spec q hq).2
      (zpow_le_zpow_right₀ (by norm_num) (by have := le_max_left (ilog2 q) (-126); omega))
  have hsplit : (2 : ℚ) ^ (e + 1) = ((2 ^ 24 : Int) : ℚ) * (2 : ℚ) ^ (e - 23) := by
    have : e + 1 = 24 + (e - 23) := by ring
    rw [this, zpow_add₀ two_ne]
    norm_num
  have hx : q / (2 : ℚ) ^ (e - 23) ≤ ((2 ^ 24 : Int) : ℚ) := by
    rw [div_le_iff₀ hu, ← hsplit]
    exact le_of_lt hlt
  have hr : rne (q / (2 : ℚ) ^ (e - 23)) ≤ 2 ^ 24 := rne_le _ _ hx
  have hr2 : (rne (q / (2 : ℚ) ^ (e - 23)) : ℚ) ≤ ((2 ^ 24 : Int) : ℚ) := by exact_mod_cast hr
  rw [hsplit]
  exact mul_le_mul_of_nonneg_right hr2 (le_of_lt hu)

theorem pow_le_roundPos (q : ℚ) (hq : 0 < q) (hn : -126 ≤ ilog2 q) :
    (2 : ℚ) ^ (ilog2 q) ≤ roundPos q := by
  rw [roundPos_eq]
  have he : max (ilog2 q) (-126) = ilog2 q := max_eq_left hn
  rw [he]
  have two_ne : (2 : ℚ) ≠ 0 := by norm_num
  have hu : (0 : ℚ) < (2 : ℚ) ^ (ilog2 q - 23) := zpow_pos (by norm_num) _
  have hsplit : (2 : ℚ) ^ (ilog2 q) = ((2 ^ 23 : Int) : ℚ) * (2 : ℚ) ^ (ilog2 q - 23) := by
    have : ilog2 q = 23 + (ilog2 q - 23) := by ring
    nth_rewrite 1 [this]
    rw [zpow_add₀ two_ne]
    norm_num
  have hx : ((2 ^ 23 : Int) : ℚ) ≤ q / (2 : ℚ) ^ (ilog2 q - 23) := by
    rw [le_div_iff₀ hu, ← hsplit]
    exact (ilog2_spec q hq).1
  have hr : 2 ^ 23 ≤ rne (q / (2 : ℚ) ^ (ilog2 q - 23)) := le_rne _ _ hx
  have hr2 : ((2 ^ 23 : Int) : ℚ) ≤ (rne (q / (2 : ℚ) ^ (ilog2 q - 23)) : ℚ) := by
    exact_mod_cast hr
  rw [hsplit]
  exact mul_le_mul_of_nonneg_right hr2 (le_of_lt hu)

theorem roundPos_mono (a b : ℚ) (ha : 0 < a) (hab : a ≤ b) : roundPos a ≤ roundPos b := by
  have hb : 0 < b := lt_of_lt_of_le ha hab
  have hlog : ilog2 a ≤ ilog2 b := ilog2_mono a b ha hab
  have hmax : max (ilog2 a) (-126) ≤ max (ilog2 b) (-126) := max_le_max hlog (le_refl _)
  rcases lt_or_eq_of_le hmax with hlt | heq
  · have hn : -126 ≤ ilog2 b := by
      by_contra hcon
      have h1 : max (ilog2 b) (-126) = -126 := max_eq_right (by omega)
      have h2 := le_max_right (ilog2 a) (-126)
      omega
    have hbe : max (ilog2 b) (-126) = ilog2 b := max_eq_left hn
    calc roundPos a ≤ (2 : ℚ) ^ (max (ilog2 a) (-126) + 1) := roundPos_le_pow a ha
      _ ≤ (2 : ℚ) ^ (ilog2 b) := zpow_le_zpow_right₀ (by norm_num) (by omega)
      _ ≤ roundPos b := pow_le_roundPos b hb hn
  · rw [roundPos_eq, roundPos_eq, heq]
    have hu : (0 : ℚ) < (2 : ℚ) ^ (max (ilog2 b) (-126) - 23) := zpow_pos (by norm_num) _
    have hx : a / (2 : ℚ) ^ (max (ilog2 b) (-126) - 23) ≤ b / (2 : ℚ) ^ (max (ilog2 b) (-126) - 23) :=
      div_le_div_of_nonneg_right hab (le_of_lt hu)
    have hr := rne_mono _ _ hx
    have hr2 : (rne (a / (2 : ℚ) ^ (max (ilog2 b) (-126) - 23)) : ℚ)
        ≤ (rne (b / (2 : ℚ) ^ (max (ilog2 b) (-126) - 23)) : ℚ) := by exact_mod_cast hr
    exact mul_le_mul_of_nonneg_right hr2 (le_of_lt hu)

theorem round_zero : round 0 = 0 := by
  unfold round; simp

theorem round_of_pos (q : ℚ) (hq : 0 < q) : round q = roundPos q := by
  unfold round
  rw [if_neg (ne_of_gt hq), if_neg (not_lt.mpr (le_of_lt hq))]

theorem round_of_neg (q : ℚ) (hq : q < 0) : round q = - roundPos (-q) := by
  unfold round
  rw [if_neg (ne_of_lt hq), if_pos hq]

theorem round_neg (q : ℚ) : round (-q) = - round q := by
  rcases lt_trichotomy q 0 with h | h | h
  · rw [round_of_neg q h, round_of_pos (-q) (by linarith)]; simp
  · subst h; simp [round_zero]
  · rw [round_of_pos q h, round_of_neg (-q) (by linarith)]; simp

theorem round_nonneg (q : ℚ) (hq : 0 ≤ q) : 0 ≤ round q := by
  rcases eq_or_lt_of_le hq with h | h
  · rw [← h, round_zero]
  · rw [round_of_pos q h]; exact roundPos_nonneg q hq

theorem round_nonpos (q : ℚ) (hq : q ≤ 0) : round q ≤ 0 := by
  have := round_nonneg (-q) (by linarith)
  rw [round_neg] at this
  linarith

/-- Rounding to nearest is monotone. -/
theorem round_mono (a b : ℚ) (hab : a ≤ b) : round a ≤ round b := by
  rcases lt_trichotomy b 0 with hb | hb | hb
  · have ha : a < 0 := lt_of_le_of_lt hab hb
    rw [round_of_neg a ha, round_of_neg b hb]
    have := roundPos_mono (-b) (-a) (by linarith) (by linarith)
    linarith
  · subst hb
    rw [round_zero]; exact round_nonpos a hab
  · rcases le_or_lt a 0 with ha | ha
    · exact le_trans (round_nonpos a ha) (round_nonneg b (le_of_lt hb))
    · rw [round_of_pos a ha, round_of_pos b hb]
      exact roundPos_mono a b ha hab

/-- A positive rational on the binary32 grid of its own exponent is a binary32 value. -/
theorem round_eq_self (q : ℚ) (hq : 0 < q) (m : Int)
    (h : q / (2 : ℚ) ^ (max (ilog2 q) (-126) - 23) = (m : ℚ)) : round q = q := by
  rw [round_of_pos q hq, roundPos_eq, h, rne_intCast, ← h]
  have hu : (2 : ℚ) ^ (max (ilog2 q) (-126) - 23) ≠ 0 := ne_of_gt (zpow_pos (by norm_num) _)
  field_simp

/-- Natural numbers up to `2 ^ 24` are binary32 values. -/
theorem round_natCast (n : Nat) (hn : n ≤ 2 ^ 24) : round (n : ℚ) = (n : ℚ) := by
  rcases Nat.eq_zero_or_pos n with h0 | hpos
  · subst h0; simp [round_zero]
  have hq : (0 : ℚ) < (n : ℚ) := by exact_mod_cast hpos
  obtain ⟨s1, s2⟩ := ilog2_spec (n : ℚ) hq
  have one_lt : (1 : ℚ) < 2 := by norm_num
  have two_ne : (2 : ℚ) ≠ 0 := by norm_num
  have h24 : ((2 ^ 24 : Nat) : ℚ) = (2 : ℚ) ^ (24 : Int) := by norm_num
  have hn24 : (n : ℚ) ≤ (2 : ℚ) ^ (24 : Int) := by
    rw [← h24]; exact_mod_cast hn
  have hlo : 0 ≤ ilog2 (n : ℚ) := by
    have h1 : (2 : ℚ) ^ (0 : Int) < (2 : ℚ) ^ (ilog2 (n : ℚ) + 1) := by
      have : (1 : ℚ) ≤ (n : ℚ) := by exact_mod_cast hpos
      calc (2 : ℚ) ^ (0 : Int) = 1 := by norm_num
        _ ≤ (n : ℚ) := this
        _ < _ := s2
    have := (zpow_lt_zpow_iff_right₀ one_lt).mp h1
    omega
  have hhi : ilog2 (n : ℚ) ≤ 24 := by
    have h1 : (2 : ℚ) ^ (ilog2 (n : ℚ)) ≤ (2 : ℚ) ^ (24 : Int) := by
      exact le_trans s1 hn24
    exact (zpow_le_zpow_iff_right₀ one_lt).mp h1
  have hmax : max (ilog2 (n : ℚ)) (-126) = ilog2 (n : ℚ) := max_eq_left (by omega)
  rcases lt_or_eq_of_le hhi with hlt | heq
  · obtain ⟨k, hk⟩ := Int.eq_ofNat_of_zero_le (show 0 ≤ 23 - ilog2 (n : ℚ) by omega)
    apply round_eq_self (n : ℚ) hq ((n : Int) * 2 ^ k)
    rw [hmax]
    have : ilog2 (n : ℚ) - 23 = -(k : Int) := by omega
    rw [this, zpow_neg, zpow_natCast]
    push_cast
    field_simp
  · have hn2 : (n : ℚ) = (2 : ℚ) ^ (24 : Int) := by
      apply le_antisymm
      · exact hn24
      · rw [← heq]; exact s1
    apply round_eq_self (n : ℚ) hq (2 ^ 23)
    rw [hmax, heq, hn2]
    norm_num

/-- Integers of magnitude up to `2 ^ 24` are binary32 values. -/
theorem round_intCast (n : Int) (hn : n.natAbs ≤ 2 ^ 24) : round (n : ℚ) = (n : ℚ) := by
  obtain ⟨k, rfl | rfl⟩ := Int.eq_nat_or_neg n
  · have hk : k ≤ 2 ^ 24 := by simpa using hn
    exact_mod_cast round_natCast k hk
  · have hk : k ≤ 2 ^ 24 := by simpa using hn
    push_cast
    rw [round_neg, round_natCast k hk]

theorem trunc_intCast (n : Int) : trunc (n : ℚ) = n := by
  unfold trunc
  split_ifs with h
  · exact Int.floor_intCast n
  · rw [← Int.cast_neg, Int.floor_intCast]; omega

theorem trunc_mono (a b : ℚ) (hab : a ≤ b) : trunc a ≤ trunc b := by
  unfold trunc
  split_ifs with h1 h2 h2
  · exact Int.floor_mono hab
  · exfalso; linarith
  · have h3 : ⌊-a⌋ ≥ 0 := Int.floor_nonneg.mpr (by linarith)
    have h4 : ⌊b⌋ ≥ 0 := Int.floor_nonneg.mpr h2
    omega
  · have := Int.floor_mono (show -b ≤ -a by linarith)
    omega

theorem trunc_nonneg (a : ℚ) (ha : 0 ≤ a) : 0 ≤ trunc a := by
  unfold trunc
  rw [if_pos ha]
  exact Int.floor_nonneg.mpr ha

end F32

/-! ## Facts about loops and pixel writes -/

theorem forLoop_zero_succ {σ : Type} (n : Nat) (body : Nat → σ → σ) (s : σ) :
    forLoop 0 (n + 1) body s = body n (forLoop 0 n body s) := by
  unfold forLoop
  simp [List.range'_1_concat, List.foldl_append]

theorem forLoop_empty {σ : Type} (lo : Nat) (body : Nat → σ → σ) (s : σ) :
    forLoop lo lo body s = s := by
  unfold forLoop
  simp

theorem forLoop_congr {σ : Type} (lo hi : Nat) (f g : Nat → σ → σ) (s : σ)
    (h : ∀ i, lo ≤ i → i < hi → ∀ t, f i t = g i t) :
    forLoop lo hi f s = forLoop lo hi g s := by
  unfold forLoop
  apply List.foldl_ext
  intro a b hb
  rw [List.mem_range'_1] at hb
  exact h b hb.1 (by omega) a

theorem forLoop_shift {σ : Type} (a n : Nat) (body : Nat → σ → σ) (s : σ) :
    forLoop a (a + n) body s = forLoop 0 n (fun i t => body (a + i) t) s := by
  unfold forLoop
  have h1 : a + n - a = n := by omega
  rw [h1, Nat.sub_zero, List.range'_eq_map_range a n, List.foldl_map, List.range_eq_range']

theorem forLoop_split {σ : Type} (a b : Nat) (body : Nat → σ → σ) (s : σ) :
    forLoop 0 (a + b) body s = forLoop a (a + b) body (forLoop 0 a body s) := by
  unfold forLoop
  have h1 : a + b - a = b := by omega
  have h2 := List.range'_append_1 0 a b
  rw [Nat.zero_add] at h2
  rw [h1, Nat.sub_zero, Nat.sub_zero, ← List.foldl_append, h2, Nat.add_comm b a]

/-- A loop nest over rows and columns is one loop over the pixels in row-major order. -/
theorem forLoop_nested {σ : Type} (w h : Nat) (body : Nat → Nat → σ → σ) (s : σ) :
    forLoop 0 h (fun y t => forLoop 0 w (fun x t => body y x t) t) s
      = forLoop 0 (h * w) (fun k t => body (k / w) (k % w) t) s := by
  induction h with
  | zero => simp [forLoop_empty]
  | succ n ih =>
    rw [forLoop_zero_succ, ih]
    have e : (n + 1) * w = n * w + w := by ring
    rw [e, forLoop_split, forLoop_shift]
    apply forLoop_congr
    intro i _ hi t
    have hw : 0 < w := by omega
    have h1 : (n * w + i) / w = n := by
      rw [Nat.mul_comm, Nat.mul_add_div hw, Nat.div_eq_of_lt hi]; simp
    have h2 : (n * w + i) % w = i := by
      rw [Nat.mul_comm, Nat.mul_add_mod, Nat.mod_eq_of_lt hi]
    rw [h1, h2]

theorem getD_set_eq (p : List Nat) (i j v : Nat) :
    (p.set i v).getD j 0 = if i = j ∧ i < p.length then v else p.getD j 0 := by
  simp only [List.getD_eq_getElem?_getD, List.getElem?_set]
  by_cases h : i = j
  · subst h
    by_cases h2 : i < p.length
    · simp [h2]
    · simp [h2, List.getElem?_eq_none (Nat.le_of_not_lt h2)]
  · simp [h]

theorem length_writePixel (p : List Nat) (i r g b a : Nat) :
    (writePixel p i r g b a).length = p.length := by
  simp [writePixel]

theorem getD_writePixel_other (p : List Nat) (i r g b a j : Nat) (h : j < i ∨ i + 3 < j) :
    (writePixel p i r g b a).getD j 0 = p.getD j 0 := by
  unfold writePixel
  rw [getD_set_eq, getD_set_eq, getD_set_eq, getD_set_eq]
  rw [if_neg (by omega), if_neg (by omega), if_neg (by omega), if_neg (by omega)]

theorem getD_writePixel_self (p : List Nat) (i r g b a : Nat) (h : i + 3 < p.length) :
    (writePixel p i r g b a).getD i 0 = r ∧ (writePixel p i r g b a).getD (i + 1) 0 = g
      ∧ (writePixel p i r g b a).getD (i + 2) 0 = b
      ∧ (writePixel p i r g b a).getD (i + 3) 0 = a := by
  unfold writePixel
  refine ⟨?_, ?_, ?_, ?_⟩
  · rw [getD_set_eq, getD_set_eq, getD_set_eq, getD_set_eq]
    rw [if_neg (by omega), if_neg (by omega), if_neg (by omega), if_pos ⟨rfl, by omega⟩]
  · rw [getD_set_eq, getD_set_eq, getD_set_eq]
    rw [if_neg (by omega), if_neg (by omega), if_pos ⟨rfl, by simp only [List.length_set]; omega⟩]
  · rw [getD_set_eq, getD_set_eq]
    rw [if_neg (by omega), if_pos ⟨rfl, by simp only [List.length_set]; omega⟩]
  · rw [getD_set_eq]
    rw [if_pos ⟨rfl, by simp only [List.length_set]; omega⟩]

/-- A loop that writes pixel `k` at byte offset `k * 4` from data that does not
    depend on the output leaves exactly those values in the buffer. -/
theorem pixelLoop_spec (R G B A : Nat → Nat) (p : List Nat) :
    ∀ n, n * 4 ≤ p.length →
      (forLoop 0 n (fun k out => writePixel out (k * 4) (R k) (G k) (B k) (A k)) p).length
        = p.length ∧
      ∀ k, k < n →
        (forLoop 0 n (fun k out => writePixel out (k * 4) (R k) (G k) (B k) (A k)) p).getD
          (k * 4) 0 = R k ∧
        (forLoop 0 n (fun k out => writePixel out (k * 4) (R k) (G k) (B k) (A k)) p).getD
          (k * 4 + 1) 0 = G k ∧
        (forLoop 0 n (fun k out => writePixel out (k * 4) (R k) (G k) (B k) (A k)) p).getD
          (k * 4 + 2) 0 = B k ∧
        (forLoop 0 n (fun k out => writePixel out (k * 4) (R k) (G k) (B k) (A k)) p).getD
          (k * 4 + 3) 0 = A k := by
  intro n
  induction n with
  | zero => intro _; simp [forLoop_empty]
  | succ m ih =>
    intro hlen
    obtain ⟨hl, hk⟩ := ih (by omega)
    rw [forLoop_zero_succ]
    refine ⟨by rw [length_writePixel, hl], ?_⟩
    intro k hkm
    rcases Nat.lt_or_eq_of_le (Nat.lt_succ_iff.mp hkm) with hlt | heq
    · obtain ⟨h0, h1, h2, h3⟩ := hk k hlt
      rw [getD_writePixel_other _ _ _ _ _ _ _ (by omega),
        getD_writePixel_other _ _ _ _ _ _ _ (by omega),
        getD_writePixel_other _ _ _ _ _ _ _ (by omega),
        getD_writePixel_other _ _ _ _ _ _ _ (by omega)]
      exact ⟨h0, h1, h2, h3⟩
    · subst heq
      exact getD_writePixel_self _ _ _ _ _ _ (by rw [hl]; omega)

/-- The loop `for (i = 0; i < n * 4; i += 4)` writing one pixel per iteration. -/
theorem stepLoop_spec (R G B A : Nat → Nat) (n : Nat) :
    (forStep (n * 4) 4 (fun i out => writePixel out i (R i) (G i) (B i) (A i))
        (List.replicate (n * 4) 0)).length = n * 4 ∧
    ∀ k, k < n →
      (forStep (n * 4) 4 (fun i out => writePixel out i (R i) (G i) (B i) (A i))
        (List.replicate (n * 4) 0)).getD (k * 4) 0 = R (k * 4) ∧
      (forStep (n * 4) 4 (fun i out => writePixel out i (R i) (G i) (B i) (A i))
        (List.replicate (n * 4) 0)).getD (k * 4 + 1) 0 = G (k * 4) ∧
      (forStep (n * 4) 4 (fun i out => writePixel out i (R i) (G i) (B i) (A i))
        (List.replicate (n * 4) 0)).getD (k * 4 + 2) 0 = B (k * 4) ∧
      (forStep (n * 4) 4 (fun i out => writePixel out i (R i) (G i) (B i) (A i))
        (List.replicate (n * 4) 0)).getD (k * 4 + 3) 0 = A (k * 4) := by
  unfold forStep
  have hn : (n * 4 + 4 - 1) / 4 = n := by omega
  rw [hn]
  have h := pixelLoop_spec (fun k => R (k * 4)) (fun k => G (k * 4)) (fun k => B (k * 4))
    (fun k => A (k * 4)) (List.replicate (n * 4) 0) n (by simp)
  simpa using h

/-- The loop nest over `y` and `x` writing the pixel at `(y * w + x) * 4`. -/
theorem nestedLoop_spec (R G B A : Nat → Nat → Nat) (w h : Nat) :
    (forLoop 0 h (fun y out => forLoop 0 w (fun x out =>
        writePixel out ((y * w + x) * 4) (R x y) (G x y) (B x y) (A x y)) out)
        (List.replicate (w * h * 4) 0)).length = w * h * 4 ∧
    ∀ x y, x < w → y < h →
      (forLoop 0 h (fun y out => forLoop 0 w (fun x out =>
        writePixel out ((y * w + x) * 4) (R x y) (G x y) (B x y) (A x y)) out)
        (List.replicate (w * h * 4) 0)).getD ((y * w + x) * 4) 0 = R x y ∧
      (forLoop 0 h (fun y out => forLoop 0 w (fun x out =>
        writePixel out ((y * w + x) * 4) (R x y) (G x y) (B x y) (A x y)) out)
        (List.replicate (w * h * 4) 0)).getD ((y * w + x) * 4 + 1) 0 = G x y ∧
      (forLoop 0 h (fun y out => forLoop 0 w (fun x out =>
        writePixel out ((y * w + x) * 4) (R x y) (G x y) (B x y) (A x y)) out)
        (List.replicate (w * h * 4) 0)).getD ((y * w + x) * 4 + 2) 0 = B x y ∧
      (forLoop 0 h (fun y out => forLoop 0 w (fun x out =>
        writePixel out ((y * w + x) * 4) (R x y) (G x y) (B x y) (A x y)) out)
        (List.replicate (w * h * 4) 0)).getD ((y * w + x) * 4 + 3) 0 = A x y := by
  rw [forLoop_nested w h
    (fun y x out => writePixel out ((y * w + x) * 4) (R x y) (G x y) (B x y) (A x y))]
  have hflat : forLoop 0 (h * w)
      (fun k t => writePixel t ((k / w * w + k % w) * 4) (R (k % w) (k / w)) (G (k % w) (k / w))
        (B (k % w) (k / w)) (A (k % w) (k / w))) (List.replicate (w * h * 4) 0)
      = forLoop 0 (h * w)
      (fun k t => writePixel t (k * 4) (R (k % w) (k / w)) (G (k % w) (k / w))
        (B (k % w) (k / w)) (A (k % w) (k / w))) (List.replicate (w * h * 4) 0) := by
    apply forLoop_congr
    intro i _ _ t
    rw [Nat.div_add_mod']
  rw [hflat]
  obtain ⟨hl, hk⟩ := pixelLoop_spec (fun k => R (k % w) (k / w)) (fun k => G (k % w) (k / w))
    (fun k => B (k % w) (k / w)) (fun k => A (k % w) (k / w)) (List.replicate (w * h * 4) 0)
    (h * w) (by simp; ring_nf; exact le_refl _)
  refine ⟨by simpa using hl, ?_⟩
  intro x y hx hy
  have hlt : y * w + x < h * w := by
    calc y * w + x < y * w + w := by omega
      _ = (y + 1) * w := by ring
      _ ≤ h * w := Nat.mul_le_mul_right w hy
  have h1 : (y * w + x) / w = y := by
    rw [Nat.mul_comm, Nat.mul_add_div (by omega), Nat.div_eq_of_lt hx]; simp
  have h2 : (y * w + x) % w = x := by
    rw [Nat.mul_comm, Nat.mul_add_mod, Nat.mod_eq_of_lt hx]
  have := hk (y * w + x) hlt
  simp only [h1, h2] at this
  exact this

/-- The loop nest writing the RGB bytes `P x y c` and alpha 255 at pixel `(x, y)`. -/
theorem nestedLoop_rgb (P : Nat → Nat → Nat → Nat) (w h x y : Nat) (hx : x < w) (hy : y < h) :
    (∀ c, c < 3 →
      (forLoop 0 h (fun y out => forLoop 0 w (fun x out =>
        writePixel out ((y * w + x) * 4) (P x y 0) (P x y 1) (P x y 2) 255) out)
        (List.replicate (w * h * 4) 0)).getD ((y * w + x) * 4 + c) 0 = P x y c) ∧
    (forLoop 0 h (fun y out => forLoop 0 w (fun x out =>
        writePixel out ((y * w + x) * 4) (P x y 0) (P x y 1) (P x y 2) 255) out)
        (List.replicate (w * h * 4) 0)).getD ((y * w + x) * 4 + 3) 0 = 255 := by
  obtain ⟨h0, h1, h2, h3⟩ := (nestedLoop_spec (fun x y => P x y 0) (fun x y => P x y 1)
    (fun x y => P x y 2) (fun _ _ => 255) w h).2 x y hx hy
  refine ⟨?_, h3⟩
  intro c hc
  interval_cases c
  · exact h0
  · exact h1
  · exact h2

/-- The stepped loop writing the RGB bytes `P i c` and alpha 255 at byte offset `i`. -/
theorem stepLoop_rgb (P : Nat → Nat → Nat) (n k : Nat) (hk : k < n) :
    (∀ c, c < 3 →
      (forStep (n * 4) 4 (fun i out => writePixel out i (P i 0) (P i 1) (P i 2) 255)
        (List.replicate (n * 4) 0)).getD (k * 4 + c) 0 = P (k * 4) c) ∧
    (forStep (n * 4) 4 (fun i out => writePixel out i (P i 0) (P i 1) (P i 2) 255)
        (List.replicate (n * 4) 0)).getD (k * 4 + 3) 0 = 255 := by
  obtain ⟨h0, h1, h2, h3⟩ := (stepLoop_spec (fun i => P i 0) (fun i => P i 1)
    (fun i => P i 2) (fun _ => 255) n).2 k hk
  refine ⟨?_, h3⟩
  intro c hc
  interval_cases c
  · exact h0
  · exact h1
  · exact h2

/-! ## Per-pixel descriptions of the transitions -/

namespace VideoTransitions

/-- The bytes `selectFrames` leaves at pixel `(x, y)`. -/
theorem selectFrames_spec (T : VideoTransitions) (frame1 frame2 : List Nat)
    (showFrame2 : Nat → Nat → Bool) (x y : Nat) (hx : x < T.width) (hy : y < T.height) :
    (∀ c, c < 3 →
      (selectFrames T frame1 frame2 showFrame2).getD ((y * T.width + x) * 4 + c) 0
        = (if showFrame2 x y then frame2 else frame1).getD ((y * T.width + x) * 4 + c) 0) ∧
    (selectFrames T frame1 frame2 showFrame2).getD ((y * T.width + x) * 4 + 3) 0 = 255 := by
  have hbody : selectFrames T frame1 frame2 showFrame2
      = forLoop 0 T.height (fun y out => forLoop 0 T.width (fun x out =>
          writePixel out ((y * T.width + x) * 4)
            ((fun x y c => (if showFrame2 x y then frame2 else frame1).getD
              ((y * T.width + x) * 4 + c) 0) x y 0)
            ((fun x y c => (if showFrame2 x y then frame2 else frame1).getD
              ((y * T.width + x) * 4 + c) 0) x y 1)
            ((fun x y c => (if showFrame2 x y then frame2 else frame1).getD
              ((y * T.width + x) * 4 + c) 0) x y 2)
            255) out)
          (List.replicate (T.width * T.height * 4) 0) := by
    unfold selectFrames
    simp only [channels]
    congr 1
    funext y out
    congr 1
    funext x out
    split <;> rfl
  rw [hbody]
  exact nestedLoop_rgb (fun x y c => (if showFrame2 x y then frame2 else frame1).getD
    ((y * T.width + x) * 4 + c) 0) T.width T.height x y hx hy

/-- The bytes `slideLeft` leaves at pixel `(x, y)`. -/
theorem slideLeft_spec (T : VideoTransitions) (frame1 frame2 : List Nat) (progress : ℚ)
    (x y : Nat) (hx : x < T.width) (hy : y < T.height) :
    (∀ c, c < 3 →
      (slideLeft T frame1 frame2 progress).getD ((y * T.width + x) * 4 + c) 0
        = slideSource T frame1 frame2 progress x y c) ∧
    (slideLeft T frame1 frame2 progress).getD ((y * T.width + x) * 4 + 3) 0 = 255 := by
  have hbody : slideLeft T frame1 frame2 progress
      = forLoop 0 T.height (fun y out => forLoop 0 T.width (fun x out =>
          writePixel out ((y * T.width + x) * 4)
            (slideSource T frame1 frame2 progress x y 0)
            (slideSource T frame1 frame2 progress x y 1)
            (slideSource T frame1 frame2 progress x y 2)
            255) out)
          (List.replicate (T.width * T.height * 4) 0) := by
    unfold slideLeft slideSource
    simp only [channels]
    congr 1
    funext y out
    congr 1
    funext x out
    split
    · rfl
    · split <;> rfl
  rw [hbody]
  exact nestedLoop_rgb (slideSource T frame1 frame2 progress) T.width T.height x y hx hy

/-- The bytes `fade` leaves at pixel `k`. -/
theorem fade_spec (T : VideoTransitions) (frame1 frame2 : List Nat) (progress : ℚ)
    (k : Nat) (hk : k < T.width * T.height) :
    (∀ c, c < 3 →
      (fade T frame1 frame2 progress).getD (k * 4 + c) 0
        = clamp (F32.toInt (lerp (frame1.getD (k * 4 + c) 0) (frame2.getD (k * 4 + c) 0)
            (easeInOutCubic progress)))) ∧
    (fade T frame1 frame2 progress).getD (k * 4 + 3) 0 = 255 :=
  stepLoop_rgb (fun i c => clamp (F32.toInt (lerp (frame1.getD (i + c) 0) (frame2.getD (i + c) 0)
    (easeInOutCubic progress)))) (T.width * T.height) k hk

/-- The bytes `crossfade` leaves at pixel `k`. -/
theorem crossfade_spec (T : VideoTransitions) (frame1 frame2 : List Nat) (progress : ℚ)
    (k : Nat) (hk : k < T.width * T.height) :
    (∀ c, c < 3 →
      (crossfade T frame1 frame2 progress).getD (k * 4 + c) 0
        = clamp (F32.toInt (F32.add (F32.mul (frame1.getD (k * 4 + c) 0) (F32.sub 1 progress))
            (F32.mul (frame2.getD (k * 4 + c) 0) progress)))) ∧
    (crossfade T frame1 frame2 progress).getD (k * 4 + 3) 0 = 255 :=
  stepLoop_rgb (fun i c => clamp (F32.toInt (F32.add
    (F32.mul (frame1.getD (i + c) 0) (F32.sub 1 progress))
    (F32.mul (frame2.getD (i + c) 0) progress)))) (T.width * T.height) k hk

/-- The bytes `fadeToBlack` leaves at pixel `k`. -/
theorem fadeToBlack_spec (T : VideoTransitions) (frame1 frame2 : List Nat) (progress : ℚ)
    (k : Nat) (hk : k < T.width * T.height) :
    (∀ c, c < 3 →
      (fadeToBlack T frame1 frame2 progress).getD (k * 4 + c) 0
        = if progress < 1 / 2 then fadeOutChannel (frame1.getD (k * 4 + c) 0) progress
          else fadeInChannel (frame2.getD (k * 4 + c) 0) progress) ∧
    (fadeToBlack T frame1 frame2 progress).getD (k * 4 + 3) 0 = 255 := by
  unfold fadeToBlack
  simp only
  split
  · exact stepLoop_rgb (fun i c => fadeOutChannel (frame1.getD (i + c) 0) progress)
      (T.width * T.height) k hk
  · exact stepLoop_rgb (fun i c => fadeInChannel (frame2.getD (i + c) 0) progress)
      (T.width * T.height) k hk

/-- Pixel `k` in row-major order is the pixel `(k % width, k / width)`. -/
theorem selectFrames_alpha (T : VideoTransitions) (frame1 frame2 : List Nat)
    (showFrame2 : Nat → Nat → Bool) (k : Nat) (hk : k < T.width * T.height) :
    (selectFrames T frame1 frame2 showFrame2).getD (k * 4 + 3) 0 = 255 := by
  have hw : 0 < T.width := by
    rcases Nat.eq_zero_or_pos T.width with h | h
    · rw [h] at hk; simp at hk
    · exact h
  have hx : k % T.width < T.width := Nat.mod_lt _ hw
  have hy : k / T.width < T.height := (Nat.div_lt_iff_lt_mul hw).mpr (by rwa [Nat.mul_comm] at hk)
  have := (selectFrames_spec T frame1 frame2 showFrame2 _ _ hx hy).2
  rwa [Nat.div_add_mod'] at this

theorem slideLeft_alpha (T : VideoTransitions) (frame1 frame2 : List Nat) (progress : ℚ)
    (k : Nat) (hk : k < T.width * T.height) :
    (slideLeft T frame1 frame2 progress).getD (k * 4 + 3) 0 = 255 := by
  have hw : 0 < T.width := by
    rcases Nat.eq_zero_or_pos T.width with h | h
    · rw [h] at hk; simp at hk
    · exact h
  have hx : k % T.width < T.width := Nat.mod_lt _ hw
  have hy : k / T.width < T.height := (Nat.div_lt_iff_lt_mul hw).mpr (by rwa [Nat.mul_comm] at hk)
  have := (slideLeft_spec T frame1 frame2 progress _ _ hx hy).2
  rwa [Nat.div_add_mod'] at this

end VideoTransitions

/-! ## Properties of the engines

### Alpha of the transitions -/

/-- C1: in the output of each of the nine transitions the alpha byte, at offset
    `4 * k + 3`, of every pixel `k` is 255, whatever the frames (their alpha
    bytes included) and the progress value. -/
theorem C1_transitions_alpha_is_255 (T : VideoTransitions) (frame1 frame2 : List Nat)
    (progress : ℚ) (k : Nat) (hk : k < T.width * T.height) :
    (T.fade frame1 frame2 progress).getD (4 * k + 3) 0 = 255 ∧
    (T.crossfade frame1 frame2 progress).getD (4 * k + 3) 0 = 255 ∧
    (T.wipeLeft frame1 frame2 progress).getD (4 * k + 3) 0 = 255 ∧
    (T.wipeRight frame1 frame2 progress).getD (4 * k + 3) 0 = 255 ∧
    (T.wipeUp frame1 frame2 progress).getD (4 * k + 3) 0 = 255 ∧
    (T.wipeDown frame1 frame2 progress).getD (4 * k + 3) 0 = 255 ∧
    (T.slideLeft frame1 frame2 progress).getD (4 * k + 3) 0 = 255 ∧
    (T.dissolve frame1 frame2 progress).getD (4 * k + 3) 0 = 255 ∧
    (T.fadeToBlack frame1 frame2 progress).getD (4 * k + 3) 0 = 255 := by
  rw [Nat.mul_comm 4 k]
  exact ⟨(VideoTransitions.fade_spec T frame1 frame2 progress k hk).2,
    (VideoTransitions.crossfade_spec T frame1 frame2 progress k hk).2,
    VideoTransitions.selectFrames_alpha T frame1 frame2 _ k hk,
    VideoTransitions.selectFrames_alpha T frame1 frame2 _ k hk,
    VideoTransitions.selectFrames_alpha T frame1 frame2 _ k hk,
    VideoTransitions.selectFrames_alpha T frame1 frame2 _ k hk,
    VideoTransitions.slideLeft_alpha T frame1 frame2 progress k hk,
    VideoTransitions.selectFrames_alpha T frame1 frame2 _ k hk,
    (VideoTransitions.fadeToBlack_spec T frame1 frame2 progress k hk).2⟩

/-- C1, at a 2 x 1 frame, pixel 1, progress one third. -/
theorem C1_transitions_alpha_is_255_witness :
    1 < (VideoTransitions.mk 2 1).width * (VideoTransitions.mk 2 1).height ∧
    ((VideoTransitions.mk 2 1).fade [1, 2, 3, 4, 5, 6, 7, 8] [9, 10, 11, 0, 13, 14, 15, 16]
      (1 / 3)).getD (4 * 1 + 3) 0 = 255 ∧
    ((VideoTransitions.mk 2 1).crossfade [1, 2, 3, 4, 5, 6, 7, 8] [9, 10, 11, 0, 13, 14, 15, 16]
      (1 / 3)).getD (4 * 1 + 3) 0 = 255 ∧
    ((VideoTransitions.mk 2 1).wipeLeft [1, 2, 3, 4, 5, 6, 7, 8] [9, 10, 11, 0, 13, 14, 15, 16]
      (1 / 3)).getD (4 * 1 + 3) 0 = 255 ∧
    ((VideoTransitions.mk 2 1).wipeRight [1, 2, 3, 4, 5, 6, 7, 8] [9, 10, 11, 0, 13, 14, 15, 16]
      (1 / 3)).getD (4 * 1 + 3) 0 = 255 ∧
    ((VideoTransitions.mk 2 1).wipeUp [1, 2, 3, 4, 5, 6, 7, 8] [9, 10, 11, 0, 13, 14, 15, 16]
      (1 / 3)).getD (4 * 1 + 3) 0 = 255 ∧
    ((VideoTransitions.mk 2 1).wipeDown [1, 2, 3, 4, 5, 6, 7, 8] [9, 10, 11, 0, 13, 14, 15, 16]
      (1 / 3)).getD (4 * 1 + 3) 0 = 255 ∧
    ((VideoTransitions.mk 2 1).slideLeft [1, 2, 3, 4, 5, 6, 7, 8] [9, 10, 11, 0, 13, 14, 15, 16]
      (1 / 3)).getD (4 * 1 + 3) 0 = 255 ∧
    ((VideoTransitions.mk 2 1).dissolve [1, 2, 3, 4, 5, 6, 7, 8] [9, 10, 11, 0, 13, 14, 15, 16]
      (1 / 3)).getD (4 * 1 + 3) 0 = 255 ∧
    ((VideoTransitions.mk 2 1).fadeToBlack [1, 2, 3, 4, 5, 6, 7, 8] [9, 10, 11, 0, 13, 14, 15, 16]
      (1 / 3)).getD (4 * 1 + 3) 0 = 255 :=
  ⟨by decide, C1_transitions_alpha_is_255 (VideoTransitions.mk 2 1) [1, 2, 3, 4, 5, 6, 7, 8]
    [9, 10, 11, 0, 13, 14, 15, 16] (1 / 3) 1 (by decide)⟩

/-! ### The progress values 0 and 1 -/

theorem IsFrame.getD_lt {width height : Nat} {p : List Nat} (h : IsFrame width height p)
    (i : Nat) : p.getD i 0 < 256 := by
  rcases Nat.lt_or_ge i p.length with hi | hi
  · rw [List.getD_eq_getElem p 0 hi]
    exact h.2 _ (List.getElem_mem hi)
  · rw [List.getD_eq_default p 0 hi]
    norm_num

namespace VideoTransitions

theorem clamp_toInt_natCast (a : Nat) (ha : a < 256) : clamp (F32.toInt (a : ℚ)) = a := by
  have h : F32.toInt (a : ℚ) = (a : Int) := by
    unfold F32.toInt
    exact_mod_cast F32.trunc_intCast (a : Int)
  rw [h]
  unfold clamp
  rw [if_neg (by omega), if_neg (by omega)]
  simp

theorem easeInOutCubic_zero : easeInOutCubic 0 = 0 := by decide!

theorem easeInOutCubic_one : easeInOutCubic 1 = 1 := by decide!

theorem lerp_zero (a : Nat) (b : ℚ) (ha : a < 256) : lerp (a : ℚ) b 0 = (a : ℚ) := by
  unfold lerp F32.add F32.mul
  rw [mul_zero, F32.round_zero, add_zero]
  exact F32.round_natCast a (by omega)

theorem lerp_one (a b : Nat) (ha : a < 256) (hb : b < 256) : lerp (a : ℚ) (b : ℚ) 1 = (b : ℚ) := by
  unfold lerp F32.add F32.mul F32.sub
  have h1 : ((b : ℚ) - (a : ℚ)) = (((b : Int) - (a : Int) : Int) : ℚ) := by push_cast; ring
  rw [mul_one, h1, F32.round_intCast _ (by omega), F32.round_intCast _ (by omega)]
  push_cast
  rw [add_sub_cancel]
  exact F32.round_natCast b (by omega)

theorem crossfade_zero (a : Nat) (b : ℚ) (ha : a < 256) :
    F32.add (F32.mul (a : ℚ) (F32.sub 1 0)) (F32.mul b 0) = (a : ℚ) := by
  have h1 : F32.sub 1 0 = 1 := by decide!
  rw [h1]
  unfold F32.add F32.mul
  rw [mul_zero, F32.round_zero, mul_one, add_zero, F32.round_natCast a (by omega),
    F32.round_natCast a (by omega)]

theorem crossfade_one (a : ℚ) (b : Nat) (hb : b < 256) :
    F32.add (F32.mul a (F32.sub 1 1)) (F32.mul (b : ℚ) 1) = (b : ℚ) := by
  have h1 : F32.sub 1 1 = 0 := by decide!
  rw [h1]
  unfold F32.add F32.mul
  rw [mul_zero, F32.round_zero, mul_one, zero_add, F32.round_natCast b (by omega),
    F32.round_natCast b (by omega)]

theorem slideOffset_zero (T : VideoTransitions) : slideOffset T 0 = 0 := by
  unfold slideOffset F32.toInt F32.mul
  rw [easeInOutCubic_zero, mul_zero, F32.round_zero]
  exact_mod_cast F32.trunc_intCast 0

theorem slideOffset_one (T : VideoTransitions) (h : F32.ofInt T.width = (T.width : ℚ)) :
    slideOffset T 1 = (T.width : Int) := by
  unfold slideOffset F32.toInt F32.mul
  rw [easeInOutCubic_one, mul_one, h]
  have h2 : F32.round (T.width : ℚ) = (T.width : ℚ) := by
    unfold F32.ofInt at h
    exact_mod_cast h
  rw [h2]
  exact_mod_cast F32.trunc_intCast (T.width : Int)

/-- Pixel `k` in row-major order has column `k % width` and row `k / width`. -/
theorem pixel_coords (T : VideoTransitions) (k : Nat) (hk : k < T.width * T.height) :
    k % T.width < T.width ∧ k / T.width < T.height ∧ k / T.width * T.width + k % T.width = k := by
  have hw : 0 < T.width := by
    rcases Nat.eq_zero_or_pos T.width with h | h
    · rw [h] at hk; simp at hk
    · exact h
  exact ⟨Nat.mod_lt _ hw, (Nat.div_lt_iff_lt_mul hw).mpr (by rwa [Nat.mul_comm] at hk),
    Nat.div_add_mod' k T.width⟩

end VideoTransitions

/-- C2, at the one-pixel buffer `[1, 1, 1, 255]`: with brightness, contrast,
    saturation and hue all 0, `colorGrade` turns the channel value 1 into 0. The
    float round trip `((v / 255 - 0.5) * 1 + 0.5) * 255` gives a value just
    below 1, which the conversion to `int` truncates. Of the 256 channel values,
    63 are changed this way. -/
theorem C2_colorGrade_neutral_not_identity :
    (VideoFilters.mk 1 1).colorGrade [1, 1, 1, 255] 0 0 0 0 = [0, 0, 0, 255] ∧
    F32.div 0 100 = 0 ∧ F32.div (F32.add 0 100) 100 = 1 ∧
    VideoFilters.gradeChannel 1 0 1 = 16777215 / 16777216 ∧
    ((List.range 256).filter (fun v =>
      VideoFilters.clamp (F32.toInt (VideoFilters.gradeChannel v 0 1)) ≠ v)).length = 63 := by
  decide!

/-- C3, at a 2 x 1 frame: at progress 0 `dissolve` shows `frame2` at pixel
    `(0, 0)`, whose threshold is 0, and `frame1` at pixel `(1, 0)`. -/
theorem C3_dissolve_zero_shows_frame2_at_origin :
    (VideoTransitions.mk 2 1).dissolve [10, 20, 30, 40, 50, 60, 70, 80]
      [110, 120, 130, 140, 150, 160, 170, 180] 0 = [110, 120, 130, 255, 50, 60, 70, 255] ∧
    VideoTransitions.pixelThreshold 0 0 = 0 := by
  decide!

/-- C4: at progress 0, `fade`, `crossfade` and `slideLeft` reproduce the R, G and
    B bytes of `frame1` at every pixel `k`. -/
theorem C4_progress_zero_reproduces_frame1 (T : VideoTransitions) (frame1 frame2 : List Nat)
    (h1 : IsFrame T.width T.height frame1)
    (k c : Nat) (hk : k < T.width * T.height) (hc : c < 3) :
    (T.fade frame1 frame2 0).getD (4 * k + c) 0 = frame1.getD (4 * k + c) 0 ∧
    (T.crossfade frame1 frame2 0).getD (4 * k + c) 0 = frame1.getD (4 * k + c) 0 ∧
    (T.slideLeft frame1 frame2 0).getD (4 * k + c) 0 = frame1.getD (4 * k + c) 0 := by
  rw [Nat.mul_comm 4 k]
  refine ⟨?_, ?_, ?_⟩
  · rw [(VideoTransitions.fade_spec T frame1 frame2 0 k hk).1 c hc,
      VideoTransitions.easeInOutCubic_zero, VideoTransitions.lerp_zero _ _ (h1.getD_lt _),
      VideoTransitions.clamp_toInt_natCast _ (h1.getD_lt _)]
  · rw [(VideoTransitions.crossfade_spec T frame1 frame2 0 k hk).1 c hc,
      VideoTransitions.crossfade_zero _ _ (h1.getD_lt _),
      VideoTransitions.clamp_toInt_natCast _ (h1.getD_lt _)]
  · obtain ⟨hx, hy, hxy⟩ := VideoTransitions.pixel_coords T k hk
    have hs := (VideoTransitions.slideLeft_spec T frame1 frame2 0 _ _ hx hy).1 c hc
    rw [hxy] at hs
    rw [hs]
    unfold VideoTransitions.slideSource
    rw [VideoTransitions.slideOffset_zero]
    have hcond : ((k % T.width : Nat) : Int) + 0 < (T.width : Int)
        ∧ ((k % T.width : Nat) : Int) + 0 ≥ 0 := by
      constructor <;> omega
    rw [if_pos hcond]
    have hidx : ((((k / T.width : Nat) : Int) * (T.width : Int) + (((k % T.width : Nat) : Int) + 0))
        * (VideoTransitions.channels : Int)).toNat = k * 4 := by
      have : (((k / T.width : Nat) : Int) * (T.width : Int) + (((k % T.width : Nat) : Int) + 0))
          * (VideoTransitions.channels : Int)
          = (((k / T.width * T.width + k % T.width) * 4 : Nat) : Int) := by
        unfold VideoTransitions.channels
        push_cast
        ring
      rw [this, hxy]
      exact Int.toNat_ofNat _
    rw [hidx]

/-- C4, at a 2 x 1 frame, pixel 1, the green channel. -/
theorem C4_progress_zero_reproduces_frame1_witness :
    IsFrame 2 1 [1, 2, 3, 4, 5, 6, 7, 8] ∧
    ((VideoTransitions.mk 2 1).fade [1, 2, 3, 4, 5, 6, 7, 8] [9, 10, 11, 0, 13, 14, 15, 16]
      0).getD (4 * 1 + 1) 0 = [1, 2, 3, 4, 5, 6, 7, 8].getD (4 * 1 + 1) 0 ∧
    ((VideoTransitions.mk 2 1).crossfade [1, 2, 3, 4, 5, 6, 7, 8] [9, 10, 11, 0, 13, 14, 15, 16]
      0).getD (4 * 1 + 1) 0 = [1, 2, 3, 4, 5, 6, 7, 8].getD (4 * 1 + 1) 0 ∧
    ((VideoTransitions.mk 2 1).slideLeft [1, 2, 3, 4, 5, 6, 7, 8] [9, 10, 11, 0, 13, 14, 15, 16]
      0).getD (4 * 1 + 1) 0 = [1, 2, 3, 4, 5, 6, 7, 8].getD (4 * 1 + 1) 0 :=
  ⟨by decide, C4_progress_zero_reproduces_frame1 (VideoTransitions.mk 2 1) [1, 2, 3, 4, 5, 6, 7, 8]
    [9, 10, 11, 0, 13, 14, 15, 16] (by decide) 1 1 (by decide) (by decide)⟩

namespace VideoTransitions

theorem dissolveNumerator_lt (x y : Nat) : dissolveNumerator x y < 1000 := by
  unfold dissolveNumerator
  exact Int.tmod_lt_of_pos _ (by norm_num)

theorem pixelThreshold_le_one (x y : Nat) : pixelThreshold x y ≤ 1 := by
  unfold pixelThreshold F32.div F32.ofInt
  have hn : ((dissolveNumerator x y : Int) : ℚ) ≤ ((999 : Nat) : ℚ) := by
    have := dissolveNumerator_lt x y
    have h2 : dissolveNumerator x y ≤ 999 := by omega
    exact_mod_cast h2
  have h1 : F32.round ((dissolveNumerator x y : Int) : ℚ) ≤ ((999 : Nat) : ℚ) := by
    have := F32.round_mono _ _ hn
    rwa [F32.round_natCast 999 (by norm_num)] at this
  have h3 : F32.round ((dissolveNumerator x y : Int) : ℚ) / 1000 ≤ ((1 : Nat) : ℚ) := by
    have : ((999 : Nat) : ℚ) = 999 := by norm_num
    rw [this] at h1
    rw [div_le_iff₀ (by norm_num)]
    push_cast
    linarith
  have := F32.round_mono _ _ h3
  rwa [F32.round_natCast 1 (by norm_num), Nat.cast_one] at this

end VideoTransitions

/-- C5, as the claim states it, fails for a frame 16777217 pixels wide: that
    width is not a binary32 value, `width * 1.0f` is 16777216, so `slideLeft` at
    progress 1 has offset 16777216 and takes pixel `(0, 0)` from the last column
    of `frame1`. Here every byte of `frame1` is 1 and every byte of `frame2` is 2. -/
theorem C5_slideLeft_wide_frame_counterexample :
    IsFrame 16777217 1 (List.replicate (16777217 * 1 * 4) 1) ∧
    IsFrame 16777217 1 (List.replicate (16777217 * 1 * 4) 2) ∧
    VideoTransitions.slideOffset (VideoTransitions.mk 16777217 1) 1 = 16777216 ∧
    ((VideoTransitions.mk 16777217 1).slideLeft (List.replicate (16777217 * 1 * 4) 1)
      (List.replicate (16777217 * 1 * 4) 2) 1).getD ((0 * 16777217 + 0) * 4 + 0) 0 = 1 ∧
    (List.replicate (16777217 * 1 * 4) 2).getD ((0 * 16777217 + 0) * 4 + 0) 0 = 2 := by
  have hoff : VideoTransitions.slideOffset (VideoTransitions.mk 16777217 1) 1 = 16777216 := by
    decide!
  refine ⟨⟨List.length_replicate _ _, fun b hb => ?_⟩, ⟨List.length_replicate _ _, fun b hb => ?_⟩,
    hoff, ?_, ?_⟩
  · rw [List.eq_of_mem_replicate hb]; norm_num
  · rw [List.eq_of_mem_replicate hb]; norm_num
  · have hs := (VideoTransitions.slideLeft_spec (VideoTransitions.mk 16777217 1)
      (List.replicate (16777217 * 1 * 4) 1) (List.replicate (16777217 * 1 * 4) 2) 1 0 0
      (by show 0 < 16777217; norm_num) (by show 0 < 1; norm_num)).1 0 (by norm_num)
    rw [hs]
    unfold VideoTransitions.slideSource
    rw [hoff]
    have hcond : ((0 : Nat) : Int) + 16777216 < ((VideoTransitions.mk 16777217 1).width : Int)
        ∧ ((0 : Nat) : Int) + 16777216 ≥ 0 := by
      constructor
      · show ((0 : Nat) : Int) + 16777216 < ((16777217 : Nat) : Int)
        norm_num
      · norm_num
    rw [if_pos hcond]
    rw [List.getD_eq_getElem?_getD, List.getElem?_replicate, if_pos]
    · rfl
    · show _ < 16777217 * 1 * 4
      unfold VideoTransitions.channels
      norm_num
  · rw [List.getD_eq_getElem?_getD, List.getElem?_replicate, if_pos]
    · rfl
    · norm_num

/-- C5, amended: at progress 1, `fade`, `crossfade` and `dissolve` reproduce the
    R, G and B bytes of `frame2` at every pixel `k`, and so does `slideLeft`
    when the width is a binary32 value, as every width up to `2 ^ 24` is; its
    offset is then the width. -/
theorem C5_progress_one_reproduces_frame2 (T : VideoTransitions) (frame1 frame2 : List Nat)
    (h1 : IsFrame T.width T.height frame1) (h2 : IsFrame T.width T.height frame2)
    (k c : Nat) (hk : k < T.width * T.height) (hc : c < 3) :
    (T.fade frame1 frame2 1).getD (4 * k + c) 0 = frame2.getD (4 * k + c) 0 ∧
    (T.crossfade frame1 frame2 1).getD (4 * k + c) 0 = frame2.getD (4 * k + c) 0 ∧
    (T.dissolve frame1 frame2 1).getD (4 * k + c) 0 = frame2.getD (4 * k + c) 0 ∧
    (T.width ≤ 2 ^ 24 → F32.ofInt T.width = (T.width : ℚ)) ∧
    (F32.ofInt T.width = (T.width : ℚ) →
      VideoTransitions.slideOffset T 1 = (T.width : Int) ∧
      (T.slideLeft frame1 frame2 1).getD (4 * k + c) 0 = frame2.getD (4 * k + c) 0) := by
  rw [Nat.mul_comm 4 k]
  obtain ⟨hx, hy, hxy⟩ := VideoTransitions.pixel_coords T k hk
  refine ⟨?_, ?_, ?_, ?_, ?_⟩
  · rw [(VideoTransitions.fade_spec T frame1 frame2 1 k hk).1 c hc,
      VideoTransitions.easeInOutCubic_one,
      VideoTransitions.lerp_one _ _ (h1.getD_lt _) (h2.getD_lt _),
      VideoTransitions.clamp_toInt_natCast _ (h2.getD_lt _)]
  · rw [(VideoTransitions.crossfade_spec T frame1 frame2 1 k hk).1 c hc,
      VideoTransitions.crossfade_one _ _ (h2.getD_lt _),
      VideoTransitions.clamp_toInt_natCast _ (h2.getD_lt _)]
  · have hs := (VideoTransitions.selectFrames_spec T frame1 frame2
      (fun x y => decide ((1 : ℚ) ≥ VideoTransitions.pixelThreshold x y)) _ _ hx hy).1 c hc
    rw [hxy] at hs
    unfold VideoTransitions.dissolve
    rw [hs]
    have : decide ((1 : ℚ) ≥ VideoTransitions.pixelThreshold (k % T.width) (k / T.width)) = true :=
      decide_eq_true (VideoTransitions.pixelThreshold_le_one _ _)
    simp only [this, if_true]
  · intro hw
    unfold F32.ofInt
    exact_mod_cast F32.round_natCast T.width hw
  · intro hw
    have hoff := VideoTransitions.slideOffset_one T hw
    refine ⟨hoff, ?_⟩
    have hs := (VideoTransitions.slideLeft_spec T frame1 frame2 1 _ _ hx hy).1 c hc
    rw [hxy] at hs
    rw [hs]
    unfold VideoTransitions.slideSource
    rw [hoff]
    have hcond1 : ¬ (((k % T.width : Nat) : Int) + (T.width : Int) < (T.width : Int)
        ∧ ((k % T.width : Nat) : Int) + (T.width : Int) ≥ 0) := by omega
    have hcond2 : ((k % T.width : Nat) : Int) + (T.width : Int) - (T.width : Int) ≥ 0
        ∧ ((k % T.width : Nat) : Int) + (T.width : Int) - (T.width : Int) < (T.width : Int) := by
      constructor <;> omega
    rw [if_neg hcond1, if_pos hcond2]
    have hidx : ((((k / T.width : Nat) : Int) * (T.width : Int)
        + (((k % T.width : Nat) : Int) + (T.width : Int) - (T.width : Int)))
        * (VideoTransitions.channels : Int)).toNat = k * 4 := by
      have : (((k / T.width : Nat) : Int) * (T.width : Int)
          + (((k % T.width : Nat) : Int) + (T.width : Int) - (T.width : Int)))
          * (VideoTransitions.channels : Int)
          = (((k / T.width * T.width + k % T.width) * 4 : Nat) : Int) := by
        unfold VideoTransitions.channels
        push_cast
        ring
      rw [this, hxy]
      exact Int.toNat_ofNat _
    rw [hidx]

/-- C5 amended, at a 2 x 1 frame, pixel 1, the green channel. -/
theorem C5_progress_one_reproduces_frame2_witness :
    IsFrame 2 1 [1, 2, 3, 4, 5, 6, 7, 8] ∧ IsFrame 2 1 [9, 10, 11, 0, 13, 14, 15, 16] ∧
    ((VideoTransitions.mk 2 1).fade [1, 2, 3, 4, 5, 6, 7, 8] [9, 10, 11, 0, 13, 14, 15, 16]
      1).getD (4 * 1 + 1) 0 = [9, 10, 11, 0, 13, 14, 15, 16].getD (4 * 1 + 1) 0 ∧
    ((VideoTransitions.mk 2 1).crossfade [1, 2, 3, 4, 5, 6, 7, 8] [9, 10, 11, 0, 13, 14, 15, 16]
      1).getD (4 * 1 + 1) 0 = [9, 10, 11, 0, 13, 14, 15, 16].getD (4 * 1 + 1) 0 ∧
    ((VideoTransitions.mk 2 1).dissolve [1, 2, 3, 4, 5, 6, 7, 8] [9, 10, 11, 0, 13, 14, 15, 16]
      1).getD (4 * 1 + 1) 0 = [9, 10, 11, 0, 13, 14, 15, 16].getD (4 * 1 + 1) 0 ∧
    ((VideoTransitions.mk 2 1).slideLeft [1, 2, 3, 4, 5, 6, 7, 8] [9, 10, 11, 0, 13, 14, 15, 16]
      1).getD (4 * 1 + 1) 0 = [9, 10, 11, 0, 13, 14, 15, 16].getD (4 * 1 + 1) 0 :=
  have h := C5_progress_one_reproduces_frame2 (VideoTransitions.mk 2 1) [1, 2, 3, 4, 5, 6, 7, 8]
    [9, 10, 11, 0, 13, 14, 15, 16] (by decide) (by decide) 1 1 (by decide) (by decide)
  ⟨by decide, by decide, h.1, h.2.1, h.2.2.1,
    (h.2.2.2.2 (h.2.2.2.1 (by decide))).2⟩

/-! ### Filters with a zero parameter -/

/-- C6: `blur` with a radius of 0 or less, `sharpen` with an amount of 0 or
    less and `noiseReduction` with a strength of 0 or less return at once and
    leave the buffer as it was, byte for byte. -/
theorem C6_zero_parameter_noop (F : VideoFilters) (data : List Nat) :
    F.blur data 0 = data ∧ F.sharpen data 0 = data ∧ F.noiseReduction data 0 = data ∧
    (∀ radius : Int, radius ≤ 0 → F.blur data radius = data) ∧
    (∀ amount : ℚ, amount ≤ 0 → F.sharpen data amount = data) ∧
    (∀ strength : Int, strength ≤ 0 → F.noiseReduction data strength = data) := by
  have hb : ∀ radius : Int, radius ≤ 0 → F.blur data radius = data := by
    intro radius h
    unfold VideoFilters.blur
    rw [if_pos h]
  have hs : ∀ amount : ℚ, amount ≤ 0 → F.sharpen data amount = data := by
    intro amount h
    unfold VideoFilters.sharpen
    rw [if_pos h]
  have hn : ∀ strength : Int, strength ≤ 0 → F.noiseReduction data strength = data := by
    intro strength h
    unfold VideoFilters.noiseReduction
    rw [if_pos h]
  exact ⟨hb 0 (le_refl 0), hs 0 (le_refl 0), hn 0 (le_refl 0), hb, hs, hn⟩

/-- C6, at a 1 x 1 buffer, with the parameters 0 and -1 (a sharpen amount of -1/2). -/
theorem C6_zero_parameter_noop_witness :
    (VideoFilters.mk 1 1).blur [7, 8, 9, 10] 0 = [7, 8, 9, 10] ∧
    (VideoFilters.mk 1 1).sharpen [7, 8, 9, 10] 0 = [7, 8, 9, 10] ∧
    (VideoFilters.mk 1 1).noiseReduction [7, 8, 9, 10] 0 = [7, 8, 9, 10] ∧
    (VideoFilters.mk 1 1).blur [7, 8, 9, 10] (-1) = [7, 8, 9, 10] ∧
    (VideoFilters.mk 1 1).sharpen [7, 8, 9, 10] (-1 / 2) = [7, 8, 9, 10] ∧
    (VideoFilters.mk 1 1).noiseReduction [7, 8, 9, 10] (-1) = [7, 8, 9, 10] :=
  have h := C6_zero_parameter_noop (VideoFilters.mk 1 1) [7, 8, 9, 10]
  ⟨h.1, h.2.1, h.2.2.1, h.2.2.2.1 (-1) (by decide), h.2.2.2.2.1 (-1 / 2) (by norm_num),
    h.2.2.2.2.2 (-1) (by decide)⟩

/-! ### The boundary of wipeLeft -/

namespace VideoTransitions

/-- The bytes `wipeLeft` leaves at pixel `(x, y)`. -/
theorem wipeLeft_spec (T : VideoTransitions) (frame1 frame2 : List Nat) (progress : ℚ)
    (x y c : Nat) (hx : x < T.width) (hy : y < T.height) (hc : c < 3) :
    (T.wipeLeft frame1 frame2 progress).getD ((y * T.width + x) * 4 + c) 0
      = if (x : Int) < wipeLeftPosition T progress
        then frame2.getD ((y * T.width + x) * 4 + c) 0
        else frame1.getD ((y * T.width + x) * 4 + c) 0 := by
  unfold wipeLeft
  rw [(selectFrames_spec T frame1 frame2 _ x y hx hy).1 c hc]
  by_cases h : (x : Int) < wipeLeftPosition T progress
  · simp [h]
  · simp [h]

end VideoTransitions

/-- C7: with `boundary` the float product `width * progress` truncated to an
    integer, `wipeLeft` gives every pixel `(x, y)` with `x < boundary` the R, G
    and B bytes of `frame2` and every other pixel those of `frame1`. -/
theorem C7_wipeLeft_boundary (T : VideoTransitions) (frame1 frame2 : List Nat) (progress : ℚ)
    (x y c : Nat) (hx : x < T.width) (hy : y < T.height) (hc : c < 3) :
    (T.wipeLeft frame1 frame2 progress).getD ((y * T.width + x) * 4 + c) 0
      = if (x : Int) < F32.trunc (F32.mul (F32.ofInt T.width) progress)
        then frame2.getD ((y * T.width + x) * 4 + c) 0
        else frame1.getD ((y * T.width + x) * 4 + c) 0 :=
  VideoTransitions.wipeLeft_spec T frame1 frame2 progress x y c hx hy hc

/-- C7, at a 4 x 1 frame and progress one half: the boundary is 2, pixel 1 shows
    `frame2` and pixel 2 shows `frame1`. -/
theorem C7_wipeLeft_boundary_witness :
    F32.trunc (F32.mul (F32.ofInt 4) (1 / 2)) = 2 ∧
    ((VideoTransitions.mk 4 1).wipeLeft (List.replicate 16 10) (List.replicate 16 20)
      (1 / 2)).getD ((0 * 4 + 1) * 4 + 0) 0 = 20 ∧
    ((VideoTransitions.mk 4 1).wipeLeft (List.replicate 16 10) (List.replicate 16 20)
      (1 / 2)).getD ((0 * 4 + 2) * 4 + 0) 0 = 10 :=
  ⟨by decide!,
   (C7_wipeLeft_boundary (VideoTransitions.mk 4 1) (List.replicate 16 10) (List.replicate 16 20)
      (1 / 2) 1 0 0 (by decide) (by decide) (by decide)).trans (by decide!),
   (C7_wipeLeft_boundary (VideoTransitions.mk 4 1) (List.replicate 16 10) (List.replicate 16 20)
      (1 / 2) 2 0 0 (by decide) (by decide) (by decide)).trans (by decide!)⟩

theorem getD_replicate_lt (n v i : Nat) (h : i < n) : (List.replicate n v).getD i 0 = v := by
  rw [List.getD_eq_getElem?_getD, List.getElem?_replicate, if_pos h]
  rfl

namespace VideoTransitions

theorem wipeLeftPosition_mono (T : VideoTransitions) (p q : ℚ) (hpq : p ≤ q) :
    wipeLeftPosition T p ≤ wipeLeftPosition T q := by
  unfold wipeLeftPosition F32.toInt F32.mul
  apply F32.trunc_mono
  apply F32.round_mono
  have hw : 0 ≤ F32.ofInt T.width := by
    unfold F32.ofInt
    exact F32.round_nonneg _ (by exact_mod_cast Int.ofNat_nonneg T.width)
  exact mul_le_mul_of_nonneg_left hpq hw

end VideoTransitions

/-- C8: for `p ≤ q` the boundary column of `wipeLeft` at `p` is at most the one at
    `q`, and a pixel that `wipeLeft` takes from `frame2` at progress `p` (for
    whatever frames it is given) is taken from `frame2` at progress `q` too. -/
theorem C8_wipeLeft_monotone (T : VideoTransitions) (p q : ℚ) (hpq : p ≤ q)
    (x y : Nat) (hx : x < T.width) (hy : y < T.height) :
    VideoTransitions.wipeLeftPosition T p ≤ VideoTransitions.wipeLeftPosition T q ∧
    ((x : Int) < VideoTransitions.wipeLeftPosition T p →
      ∀ frame1 frame2 c, c < 3 →
        (T.wipeLeft frame1 frame2 q).getD ((y * T.width + x) * 4 + c) 0
          = frame2.getD ((y * T.width + x) * 4 + c) 0) ∧
    ((∀ frame1 frame2 c, c < 3 →
        (T.wipeLeft frame1 frame2 p).getD ((y * T.width + x) * 4 + c) 0
          = frame2.getD ((y * T.width + x) * 4 + c) 0) →
      ∀ frame1 frame2 c, c < 3 →
        (T.wipeLeft frame1 frame2 q).getD ((y * T.width + x) * 4 + c) 0
          = frame2.getD ((y * T.width + x) * 4 + c) 0) := by
  have hmono := VideoTransitions.wipeLeftPosition_mono T p q hpq
  have hq : (x : Int) < VideoTransitions.wipeLeftPosition T p →
      ∀ frame1 frame2 c, c < 3 →
        (T.wipeLeft frame1 frame2 q).getD ((y * T.width + x) * 4 + c) 0
          = frame2.getD ((y * T.width + x) * 4 + c) 0 := by
    intro hlt frame1 frame2 c hc
    rw [VideoTransitions.wipeLeft_spec T frame1 frame2 q x y c hx hy hc]
    have : (x : Int) < VideoTransitions.wipeLeftPosition T q := lt_of_lt_of_le hlt hmono
    rw [if_pos this]
  refine ⟨hmono, hq, ?_⟩
  intro hall
  apply hq
  by_contra hge
  have h0 := hall (List.replicate (T.width * T.height * 4) 0)
    (List.replicate (T.width * T.height * 4) 1) 0 (by norm_num)
  rw [VideoTransitions.wipeLeft_spec T _ _ p x y 0 hx hy (by norm_num)] at h0
  rw [if_neg hge] at h0
  have hidx : (y * T.width + x) * 4 + 0 < T.width * T.height * 4 := by
    have : y * T.width + x < T.width * T.height := by
      calc y * T.width + x < y * T.width + T.width := by omega
        _ = T.width * (y + 1) := by ring
        _ ≤ T.width * T.height := Nat.mul_le_mul_left _ hy
    omega
  rw [getD_replicate_lt _ _ _ hidx, getD_replicate_lt _ _ _ hidx] at h0
  exact absurd h0 (by norm_num)

/-- C8, at a 4 x 1 frame with `p` one quarter and `q` one half: the boundaries are
    1 and 2, and pixel 0, taken from `frame2` at `p`, is taken from it at `q`. -/
theorem C8_wipeLeft_monotone_witness :
    (1 / 4 : ℚ) ≤ 1 / 2 ∧
    VideoTransitions.wipeLeftPosition (VideoTransitions.mk 4 1) (1 / 4) = 1 ∧
    VideoTransitions.wipeLeftPosition (VideoTransitions.mk 4 1) (1 / 4)
      ≤ VideoTransitions.wipeLeftPosition (VideoTransitions.mk 4 1) (1 / 2) ∧
    ((VideoTransitions.mk 4 1).wipeLeft (List.replicate 16 10) (List.replicate 16 20)
      (1 / 2)).getD ((0 * 4 + 0) * 4 + 1) 0 = (List.replicate 16 20).getD ((0 * 4 + 0) * 4 + 1) 0 :=
  have h := C8_wipeLeft_monotone (VideoTransitions.mk 4 1) (1 / 4) (1 / 2) (by norm_num) 0 0
    (by decide) (by decide)
  ⟨by norm_num, by decide!, h.1,
    h.2.1 (by decide!) (List.replicate 16 10) (List.replicate 16 20) 1 (by decide)⟩

/-! ### The thresholds of dissolve -/

theorem wrap64_eq (n : Int) (h1 : -(2 ^ 63) ≤ n) (h2 : n < 2 ^ 63) : wrap64 n = n := by
  unfold wrap64
  have h3 : (n + 2 ^ 63) % 2 ^ 64 = n + 2 ^ 63 :=
    Int.emod_eq_of_lt (by omega) (by omega)
  rw [h3]
  ring

/-- C9: for a pixel `(x, y)` of a frame of up to `2 ^ 30` columns and rows (so
    also of 65535 x 65535), the 64-bit arithmetic of `dissolve` does not wrap:
    the numerator of the threshold is `(x * 2654435761 + y * 2246822519) mod 1000`,
    at most 999; the threshold is the float quotient of it by 1000; and the
    output pixel has the R, G and B bytes of `frame2` exactly when
    `progress` is at least the threshold, those of `frame1` otherwise, whatever
    the frames. -/
theorem C9_dissolve_threshold (T : VideoTransitions) (frame1 frame2 : List Nat) (progress : ℚ)
    (x y c : Nat) (hx : x < T.width) (hy : y < T.height) (hc : c < 3)
    (hw : T.width ≤ 2 ^ 30) (hh : T.height ≤ 2 ^ 30) :
    wrap64 (wrap64 ((x : Int) * 2654435761) + wrap64 ((y : Int) * 2246822519))
      = ((x * 2654435761 + y * 2246822519 : Nat) : Int) ∧
    VideoTransitions.dissolveNumerator x y
      = (((x * 2654435761 + y * 2246822519) % 1000 : Nat) : Int) ∧
    (x * 2654435761 + y * 2246822519) % 1000 ≤ 999 ∧
    VideoTransitions.pixelThreshold x y
      = F32.div (((x * 2654435761 + y * 2246822519) % 1000 : Nat) : ℚ) 1000 ∧
    (T.dissolve frame1 frame2 progress).getD ((y * T.width + x) * 4 + c) 0
      = if progress ≥ F32.div (((x * 2654435761 + y * 2246822519) % 1000 : Nat) : ℚ) 1000
        then frame2.getD ((y * T.width + x) * 4 + c) 0
        else frame1.getD ((y * T.width + x) * 4 + c) 0 := by
  have hxb : x < 2 ^ 30 := lt_of_lt_of_le hx hw
  have hyb : y < 2 ^ 30 := lt_of_lt_of_le hy hh
  have hwrap : wrap64 (wrap64 ((x : Int) * 2654435761) + wrap64 ((y : Int) * 2246822519))
      = ((x * 2654435761 + y * 2246822519 : Nat) : Int) := by
    rw [wrap64_eq ((x : Int) * 2654435761) (by norm_num at hxb ⊢; omega)
      (by norm_num at hxb ⊢; omega),
      wrap64_eq ((y : Int) * 2246822519) (by norm_num at hyb ⊢; omega)
      (by norm_num at hyb ⊢; omega),
      wrap64_eq _ (by norm_num at hxb hyb ⊢; omega) (by norm_num at hxb hyb ⊢; omega)]
    push_cast
    ring
  have hnum : VideoTransitions.dissolveNumerator x y
      = (((x * 2654435761 + y * 2246822519) % 1000 : Nat) : Int) := by
    unfold VideoTransitions.dissolveNumerator
    rw [hwrap]
    exact (Int.ofNat_tmod _ 1000).symm
  have hle : (x * 2654435761 + y * 2246822519) % 1000 ≤ 999 := by omega
  have hthr : VideoTransitions.pixelThreshold x y
      = F32.div (((x * 2654435761 + y * 2246822519) % 1000 : Nat) : ℚ) 1000 := by
    unfold VideoTransitions.pixelThreshold F32.ofInt
    rw [hnum]
    have : (((((x * 2654435761 + y * 2246822519) % 1000 : Nat) : Int)) : ℚ)
        = (((x * 2654435761 + y * 2246822519) % 1000 : Nat) : ℚ) := Int.cast_natCast _
    rw [this, F32.round_natCast _ (by omega)]
  refine ⟨hwrap, hnum, hle, hthr, ?_⟩
  unfold VideoTransitions.dissolve
  rw [(VideoTransitions.selectFrames_spec T frame1 frame2 _ x y hx hy).1 c hc, hthr]
  by_cases h : progress ≥ F32.div (((x * 2654435761 + y * 2246822519) % 1000 : Nat) : ℚ) 1000
  · simp [h]
  · simp [h]

/-- C9, at a 2 x 2 frame, pixel `(1, 1)`, whose numerator is 280, at the
    progress values 0.28125 (frame2) and 0.25 (frame1). -/
theorem C9_dissolve_threshold_witness :
    VideoTransitions.dissolveNumerator 1 1 = 280 ∧
    ((VideoTransitions.mk 2 2).dissolve (List.replicate 16 10) (List.replicate 16 20)
      (9 / 32)).getD ((1 * 2 + 1) * 4 + 0) 0 = 20 ∧
    ((VideoTransitions.mk 2 2).dissolve (List.replicate 16 10) (List.replicate 16 20)
      (1 / 4)).getD ((1 * 2 + 1) * 4 + 0) 0 = 10 :=
  ⟨(C9_dissolve_threshold (VideoTransitions.mk 2 2) (List.replicate 16 10)
      (List.replicate 16 20) (9 / 32) 1 1 0 (by decide) (by decide) (by decide)
      (by decide) (by decide)).2.1.trans (by norm_num),
   (C9_dissolve_threshold (VideoTransitions.mk 2 2) (List.replicate 16 10)
      (List.replicate 16 20) (9 / 32) 1 1 0 (by decide) (by decide) (by decide)
      (by decide) (by decide)).2.2.2.2.trans (by decide!),
   (C9_dissolve_threshold (VideoTransitions.mk 2 2) (List.replicate 16 10)
      (List.replicate 16 20) (1 / 4) 1 1 0 (by decide) (by decide) (by decide)
      (by decide) (by decide)).2.2.2.2.trans (by decide!)⟩

/-! ### The midpoint of fadeToBlack -/

namespace VideoTransitions

theorem fadeOutChannel_half (v : Nat) : fadeOutChannel v (1 / 2) = 0 := by
  have h : F32.sub 1 (F32.mul (1 / 2) 2) = 0 := by decide!
  unfold fadeOutChannel
  rw [h]
  unfold F32.mul
  rw [mul_zero, F32.round_zero]
  decide!

theorem fadeInChannel_half (v : Nat) : fadeInChannel v (1 / 2) = 0 := by
  have h : F32.mul (F32.sub (1 / 2) (1 / 2)) 2 = 0 := by decide!
  unfold fadeInChannel
  rw [h]
  unfold F32.mul
  rw [mul_zero, F32.round_zero]
  decide!

end VideoTransitions

/-- C10: at progress one half `fadeToBlack` writes 0 to the R, G and B bytes of
    every pixel, and each of its two phase formulas gives 0 there for every
    channel value: the factor `1 - 0.5 * 2` of the first phase and the factor
    `(0.5 - 0.5) * 2` of the second are both 0. -/
theorem C10_fadeToBlack_midpoint (T : VideoTransitions) (frame1 frame2 : List Nat)
    (k c : Nat) (hk : k < T.width * T.height) (hc : c < 3) :
    (T.fadeToBlack frame1 frame2 (1 / 2)).getD (4 * k + c) 0 = 0 ∧
    F32.sub 1 (F32.mul (1 / 2) 2) = 0 ∧ F32.mul (F32.sub (1 / 2) (1 / 2)) 2 = 0 ∧
    (∀ v : Nat, VideoTransitions.fadeOutChannel v (1 / 2) = 0) ∧
    (∀ v : Nat, VideoTransitions.fadeInChannel v (1 / 2) = 0) := by
  refine ⟨?_, by decide!, by decide!, VideoTransitions.fadeOutChannel_half,
    VideoTransitions.fadeInChannel_half⟩
  rw [Nat.mul_comm 4 k, (VideoTransitions.fadeToBlack_spec T frame1 frame2 (1 / 2) k hk).1 c hc]
  rw [if_neg (lt_irrefl _)]
  exact VideoTransitions.fadeInChannel_half _

/-- C10, at a 2 x 1 frame, pixel 1, the blue channel. -/
theorem C10_fadeToBlack_midpoint_witness :
    1 < (VideoTransitions.mk 2 1).width * (VideoTransitions.mk 2 1).height ∧
    ((VideoTransitions.mk 2 1).fadeToBlack [1, 2, 3, 4, 5, 6, 7, 8]
      [9, 10, 11, 0, 13, 14, 15, 16] (1 / 2)).getD (4 * 1 + 2) 0 = 0 ∧
    VideoTransitions.fadeOutChannel 255 (1 / 2) = 0 ∧
    VideoTransitions.fadeInChannel 255 (1 / 2) = 0 :=
  have h := C10_fadeToBlack_midpoint (VideoTransitions.mk 2 1) [1, 2, 3, 4, 5, 6, 7, 8]
    [9, 10, 11, 0, 13, 14, 15, 16] 1 2 (by decide) (by decide)
  ⟨by decide, h.1, h.2.2.2.1 255, h.2.2.2.2 255⟩

/-! ## Loops of local writes -/

/-! ## Loop invariants and local writes -/

theorem forLoop_succ {σ : Type} (lo n : Nat) (body : Nat → σ → σ) (s : σ) :
    forLoop lo (lo + n + 1) body s = body (lo + n) (forLoop lo (lo + n) body s) := by
  unfold forLoop
  have h1 : lo + n + 1 - lo = n + 1 := by omega
  have h2 : lo + n - lo = n := by omega
  rw [h1, h2, List.range'_1_concat, List.foldl_append]
  rfl

theorem forLoop_of_le {σ : Type} (lo hi : Nat) (h : hi ≤ lo) (body : Nat → σ → σ) (s : σ) :
    forLoop lo hi body s = s := by
  unfold forLoop
  have : hi - lo = 0 := by omega
  rw [this]
  rfl

/-- A property that holds before a loop and is kept by every iteration holds
    after the loop. -/
theorem forLoop_induction {σ : Type} (P : σ → Prop) (lo hi : Nat) (body : Nat → σ → σ) (s : σ)
    (h0 : P s) (hstep : ∀ i, lo ≤ i → i < hi → ∀ t, P t → P (body i t)) :
    P (forLoop lo hi body s) := by
  rcases Nat.lt_or_ge lo hi with hlt | hge
  · obtain ⟨n, rfl⟩ : ∃ n, hi = lo + n := ⟨hi - lo, by omega⟩
    clear hlt
    induction n with
    | zero => rw [forLoop_of_le _ _ (by omega)]; exact h0
    | succ m ih =>
      rw [show lo + (m + 1) = lo + m + 1 by omega, forLoop_succ]
      exact hstep (lo + m) (by omega) (by omega) _
        (ih (fun i h1 h2 t ht => hstep i h1 (by omega) t ht))
  · rw [forLoop_of_le _ _ hge]; exact h0

/-- A loop whose iterations write disjoint sets of indices writes their union. -/
theorem LocalWrites.loop (p : List Nat) (lo hi : Nat) (body : Nat → List Nat → List Nat)
    (S : Nat → Nat → Prop) (V : Nat → Nat)
    (hbody : ∀ i, lo ≤ i → i < hi → LocalWrites p (body i) (S i) V)
    (hdisj : ∀ i i2 j, lo ≤ i → i < hi → lo ≤ i2 → i2 < hi → i ≠ i2 → S i j → ¬ S i2 j) :
    LocalWrites p (forLoop lo hi body) (fun j => ∃ i, lo ≤ i ∧ i < hi ∧ S i j) V := by
  rcases Nat.lt_or_ge lo hi with hlt | hge
  · obtain ⟨n, rfl⟩ : ∃ n, hi = lo + n := ⟨hi - lo, by omega⟩
    clear hlt
    induction n with
    | zero =>
      intro t ht _
      rw [forLoop_of_le _ _ (by omega)]
      refine ⟨ht, fun _ _ => rfl, ?_⟩
      rintro j ⟨i, h1, h2, _⟩
      omega
    | succ m ih =>
      intro t ht hagree
      rw [show lo + (m + 1) = lo + m + 1 by omega, forLoop_succ]
      have ihm := ih (fun i h1 h2 => hbody i h1 (by omega))
        (fun i i2 j a b c d => hdisj i i2 j a (by omega) c (by omega)) t ht
        (fun j ⟨i, h1, h2, h3⟩ => hagree j ⟨i, h1, by omega, h3⟩)
      obtain ⟨hl, hout, hin⟩ := ihm
      have hb := hbody (lo + m) (by omega) (by omega) (forLoop lo (lo + m) body t) hl
        (fun j hj => by
          rw [hout j (fun ⟨i, h1, h2, h3⟩ =>
            hdisj i (lo + m) j h1 (by omega) (by omega) (by omega) (by omega) h3 hj)]
          exact hagree j ⟨lo + m, by omega, by omega, hj⟩)
      obtain ⟨bl, bout, bin⟩ := hb
      refine ⟨bl, ?_, ?_⟩
      · intro j hj
        rw [bout j (fun h => hj ⟨lo + m, by omega, by omega, h⟩)]
        exact hout j (fun ⟨i, h1, h2, h3⟩ => hj ⟨i, h1, by omega, h3⟩)
      · rintro j ⟨i, h1, h2, h3⟩
        by_cases hlast : S (lo + m) j
        · exact bin j hlast
        · rw [bout j hlast]
          have hne : i ≠ lo + m := fun h => hlast (h ▸ h3)
          exact hin j ⟨i, h1, by omega, h3⟩
  · intro t ht _
    rw [forLoop_of_le _ _ hge]
    refine ⟨ht, fun _ _ => rfl, ?_⟩
    rintro j ⟨i, h1, h2, _⟩
    omega

/-- The same transformer described with another, equivalent set of indices. -/
theorem LocalWrites.congr_set (p : List Nat) (f : List Nat → List Nat) (S S2 : Nat → Prop)
    (V : Nat → Nat) (h : LocalWrites p f S V) (hS : ∀ j, S j ↔ S2 j) : LocalWrites p f S2 V := by
  intro t ht hagree
  obtain ⟨a, b, c⟩ := h t ht (fun j hj => hagree j ((hS j).mp hj))
  exact ⟨a, fun j hj => b j (fun h => hj ((hS j).mp h)), fun j hj => c j ((hS j).mpr hj)⟩

/-- One assignment `t[i] = v` inside the buffer. -/
theorem LocalWrites.assign (p : List Nat) (i v : Nat) (V : Nat → Nat) (hi : i < p.length)
    (hV : V i = v) : LocalWrites p (fun t => t.set i v) (fun j => j = i) V := by
  intro t ht _
  refine ⟨by rw [List.length_set, ht], ?_, ?_⟩
  · intro j hj
    rw [getD_set_eq, if_neg (fun h => hj h.1.symm)]
  · intro j hj
    subst hj
    rw [getD_set_eq, if_pos ⟨rfl, by omega⟩, hV]

/-- Row-major pixel coordinates are unique. -/
theorem pixel_index_inj (w x y x2 y2 : Nat) (hx : x < w) (hx2 : x2 < w)
    (h : y * w + x = y2 * w + x2) : y = y2 ∧ x = x2 := by
  have hw : 0 < w := by omega
  have h1 : (y * w + x) / w = y := by
    rw [Nat.mul_comm, Nat.mul_add_div hw, Nat.div_eq_of_lt hx]; simp
  have h2 : (y2 * w + x2) / w = y2 := by
    rw [Nat.mul_comm, Nat.mul_add_div hw, Nat.div_eq_of_lt hx2]; simp
  have hy : y = y2 := by rw [← h1, ← h2, h]
  subst hy
  exact ⟨rfl, by omega⟩

theorem pixel_index_lt (w h x y : Nat) (hx : x < w) (hy : y < h) : y * w + x < w * h := by
  calc y * w + x < y * w + w := by omega
    _ = w * (y + 1) := by ring
    _ ≤ w * h := Nat.mul_le_mul_left _ hy

theorem getD_take_lt (p : List Nat) (n i : Nat) (h : i < n) :
    (p.take n).getD i 0 = p.getD i 0 := by
  simp only [List.getD_eq_getElem?_getD]
  rw [List.getElem?_take_of_lt h]

theorem getD_writeRGB_other (p : List Nat) (i r g b j : Nat) (h : j < i ∨ i + 2 < j) :
    (writeRGB p i r g b).getD j 0 = p.getD j 0 := by
  unfold writeRGB
  rw [getD_set_eq, getD_set_eq, getD_set_eq]
  rw [if_neg (by omega), if_neg (by omega), if_neg (by omega)]

theorem length_writeRGB (p : List Nat) (i r g b : Nat) :
    (writeRGB p i r g b).length = p.length := by
  simp [writeRGB]

theorem getD_set_ne (p : List Nat) (i j v : Nat) (h : i ≠ j) :
    (p.set i v).getD j 0 = p.getD j 0 := by
  rw [getD_set_eq, if_neg (fun hh => h hh.1)]

/-- A byte that no iteration changes is the same after the loop. -/
theorem forLoop_keeps_byte (j v : Nat) (lo hi : Nat) (body : Nat → List Nat → List Nat)
    (s : List Nat) (h0 : s.getD j 0 = v)
    (hstep : ∀ i, lo ≤ i → i < hi → ∀ t : List Nat, t.getD j 0 = v → (body i t).getD j 0 = v) :
    (forLoop lo hi body s).getD j 0 = v :=
  forLoop_induction (fun t : List Nat => t.getD j 0 = v) lo hi body s h0 hstep

/-! ### Alpha under the filters -/

namespace VideoFilters

theorem sharpen_alpha (F : VideoFilters) (data : List Nat) (amount : ℚ) (k : Nat) :
    (F.sharpen data amount).getD (4 * k + 3) 0 = data.getD (4 * k + 3) 0 := by
  unfold sharpen
  split
  · rfl
  · simp only
    apply forLoop_keeps_byte
    · rfl
    · intro y _ _ t ht
      apply forLoop_keeps_byte
      · exact ht
      · intro x _ _ t ht
        apply forLoop_keeps_byte
        · exact ht
        · intro c _ hc t ht
          show (t.set _ _).getD _ 0 = _
          rw [getD_set_ne _ _ _ _ (by omega)]
          exact ht

theorem vignette_alpha (F : VideoFilters) (data : List Nat) (intensity radius : ℚ) (k : Nat) :
    (F.vignette data intensity radius).getD (4 * k + 3) 0 = data.getD (4 * k + 3) 0 := by
  unfold vignette
  simp only
  apply forLoop_keeps_byte
  · rfl
  · intro y _ _ t ht
    apply forLoop_keeps_byte
    · exact ht
    · intro x _ _ t ht
      show (writeRGB _ _ _ _ _).getD _ 0 = _
      rw [getD_writeRGB_other _ _ _ _ _ _ (by omega)]
      exact ht

theorem noiseReduction_alpha (F : VideoFilters) (data : List Nat) (strength : Int) (k : Nat) :
    (F.noiseReduction data strength).getD (4 * k + 3) 0 = data.getD (4 * k + 3) 0 := by
  unfold noiseReduction
  split
  · rfl
  · simp only
    apply forLoop_keeps_byte
    · rfl
    · intro y _ _ t ht
      apply forLoop_keeps_byte
      · exact ht
      · intro x _ _ t ht
        apply forLoop_keeps_byte
        · exact ht
        · intro c _ hc t ht
          show (t.set _ _).getD _ 0 = _
          rw [getD_set_ne _ _ _ _ (by omega)]
          exact ht

end VideoFilters

/-- C13: `sharpen`, `vignette` and `noiseReduction` leave the alpha byte, at
    offset `4 * k + 3`, of every pixel `k` as it was, for every buffer, every
    geometry and every value of their parameters. -/
theorem C13_filters_keep_alpha (F : VideoFilters) (data : List Nat) (amount intensity radius : ℚ)
    (strength : Int) (k : Nat) :
    (F.sharpen data amount).getD (4 * k + 3) 0 = data.getD (4 * k + 3) 0 ∧
    (F.vignette data intensity radius).getD (4 * k + 3) 0 = data.getD (4 * k + 3) 0 ∧
    (F.noiseReduction data strength).getD (4 * k + 3) 0 = data.getD (4 * k + 3) 0 :=
  ⟨VideoFilters.sharpen_alpha F data amount k, VideoFilters.vignette_alpha F data intensity radius k,
    VideoFilters.noiseReduction_alpha F data strength k⟩

theorem pixel_decode (w x y c : Nat) (hx : x < w) (hc : c < 4) :
    ((y * w + x) * 4 + c) % 4 = c ∧ (((y * w + x) * 4 + c) / 4) % w = x
      ∧ (((y * w + x) * 4 + c) / 4) / w = y := by
  have hw : 0 < w := by omega
  have h4 : ((y * w + x) * 4 + c) / 4 = y * w + x := by omega
  refine ⟨by omega, ?_, ?_⟩
  · rw [h4, Nat.mul_comm, Nat.mul_add_mod, Nat.mod_eq_of_lt hx]
  · rw [h4, Nat.mul_comm, Nat.mul_add_div hw, Nat.div_eq_of_lt hx]; simp

/-- The loop nest of `sharpen` and `noiseReduction`: rows `ylo .. yhi - 1`,
    columns `xlo .. xhi - 1`, channels 0 to 2, each byte assigned a value that
    does not depend on the buffer being written. -/
theorem tripleLoop_writes (p : List Nat) (w h ylo yhi xlo xhi : Nat)
    (val : Nat → Nat → Nat → Nat) (hy : yhi ≤ h) (hx : xhi ≤ w) (hlen : w * h * 4 ≤ p.length) :
    LocalWrites p
      (forLoop ylo yhi (fun y t => forLoop xlo xhi (fun x t =>
        forLoop 0 3 (fun c t => t.set ((y * w + x) * 4 + c) (val x y c)) t) t))
      (fun j => ∃ y, ylo ≤ y ∧ y < yhi ∧ ∃ x, xlo ≤ x ∧ x < xhi ∧
        ∃ c, 0 ≤ c ∧ c < 3 ∧ j = (y * w + x) * 4 + c)
      (fun j => val ((j / 4) % w) ((j / 4) / w) (j % 4)) := by
  apply LocalWrites.loop
  · intro y hy1 hy2
    apply LocalWrites.loop
    · intro x hx1 hx2
      apply LocalWrites.loop
      · intro c _ hc
        have hxw : x < w := by omega
        have hyh : y < h := by omega
        have hlt := pixel_index_lt w h x y hxw hyh
        obtain ⟨d1, d2, d3⟩ := pixel_decode w x y c hxw (by omega)
        exact LocalWrites.assign p _ _ _ (by omega) (by simp only [d1, d2, d3])
      · intro c c2 j _ _ _ _ hne h1 h2
        omega
    · rintro x x2 j hx1 hx2 hx3 hx4 hne ⟨c, _, hc, h1⟩ ⟨c2, _, hc2, h2⟩
      omega
  · rintro y y2 j hy1 hy2 hy3 hy4 hne ⟨x, _, hx2, c, _, hc, h1⟩ ⟨x2, _, hx4, c2, _, hc2, h2⟩
    have he : y * w + x = y2 * w + x2 := by omega
    exact hne (pixel_index_inj w x y x2 y2 (by omega) (by omega) he).1

/-- The bytes the loop nest of `sharpen` and `noiseReduction` leaves. -/
theorem tripleLoop_getD (p : List Nat) (w h ylo yhi xlo xhi : Nat)
    (val : Nat → Nat → Nat → Nat) (hy : yhi ≤ h) (hx : xhi ≤ w) (hlen : w * h * 4 ≤ p.length)
    (x y c : Nat) (hx1 : xlo ≤ x) (hx2 : x < xhi) (hy1 : ylo ≤ y) (hy2 : y < yhi) (hc : c < 3) :
    (forLoop ylo yhi (fun y t => forLoop xlo xhi (fun x t =>
        forLoop 0 3 (fun c t => t.set ((y * w + x) * 4 + c) (val x y c)) t) t) p).getD
      ((y * w + x) * 4 + c) 0 = val x y c := by
  have h := (tripleLoop_writes p w h ylo yhi xlo xhi val hy hx hlen p rfl (fun _ _ => rfl)).2.2
    ((y * w + x) * 4 + c) ⟨y, hy1, hy2, x, hx1, hx2, c, Nat.zero_le c, hc, rfl⟩
  obtain ⟨d1, d2, d3⟩ := pixel_decode w x y c (by omega) (by omega)
  simp only [d1, d2, d3] at h
  exact h

/-! ### The windowed filters -/

theorem forInt_eq {σ : Type} (lo hi : Int) (body : Int → σ → σ) (s : σ) :
    forInt lo hi body s
      = (List.range (hi + 1 - lo).toNat).foldl (fun acc (k : Nat) => body (lo + (k : Int)) acc) s := by
  unfold forInt
  have : (do let a ← List.range (hi + 1 - lo).toNat; pure (a : Int) : List Int)
      = (List.range (hi + 1 - lo).toNat).map (fun (a : Nat) => (a : Int)) := by
    induction (List.range (hi + 1 - lo).toNat) with
    | nil => rfl
    | cons a t ih => 
      simp only [List.map_cons, ← ih]
      rfl
  rw [this, List.foldl_map]

namespace VideoFilters

/-- What `sharpen` leaves at an interior RGB byte. -/
theorem sharpen_interior (F : VideoFilters) (data : List Nat) (amount : ℚ) (hpos : 0 < amount)
    (hlen : F.width * F.height * 4 ≤ data.length) (x y c : Nat)
    (hx1 : 1 ≤ x) (hx2 : x < F.width - 1) (hy1 : 1 ≤ y) (hy2 : y < F.height - 1) (hc : c < 3) :
    (F.sharpen data amount).getD ((y * F.width + x) * 4 + c) 0
      = sharpenValue (data.take (F.width * F.height * 4)) F.width amount x y c := by
  unfold sharpen
  rw [if_neg (not_le.mpr hpos)]
  exact tripleLoop_getD data F.width F.height 1 (F.height - 1) 1 (F.width - 1)
    (fun x y c => sharpenValue (data.take (F.width * F.height * 4)) F.width amount x y c)
    (Nat.sub_le _ _) (Nat.sub_le _ _) hlen x y c hx1 hx2 hy1 hy2 hc

/-- A byte of a pixel outside the rectangle a triple loop visits is kept. -/
theorem tripleLoop_keeps (p : List Nat) (w ylo yhi xlo xhi : Nat) (hxw : xhi ≤ w)
    (val : Nat → Nat → Nat → Nat) (x y c : Nat) (hx : x < w) (hc : c < 4)
    (hout : ¬ (ylo ≤ y ∧ y < yhi ∧ xlo ≤ x ∧ x < xhi)) :
    (forLoop ylo yhi (fun y t => forLoop xlo xhi (fun x t =>
        forLoop 0 3 (fun c t => t.set ((y * w + x) * 4 + c) (val x y c)) t) t) p).getD
      ((y * w + x) * 4 + c) 0 = p.getD ((y * w + x) * 4 + c) 0 := by
  apply forLoop_keeps_byte _ _ _ _ _ _ rfl
  intro y2 hy1 hy2 t ht
  apply forLoop_keeps_byte _ _ _ _ _ _ ht
  intro x2 hx1 hx2 t ht
  apply forLoop_keeps_byte _ _ _ _ _ _ ht
  intro c2 _ hc2 t ht
  rw [getD_set_ne _ _ _ _ _, ht]
  intro heq
  have h1 : y2 * w + x2 = y * w + x := by omega
  have := pixel_index_inj w x2 y2 x y (by omega) hx h1
  omega

end VideoFilters

/-- C14: the windowed filters leave border pixels alone. `sharpen`, for any
    amount, leaves all four bytes of every pixel with `x = 0`, `x = width - 1`,
    `y = 0` or `y = height - 1` unchanged; `noiseReduction` with strength
    `s ≥ 1` leaves unchanged every pixel with `x < s`, `x ≥ width - s`,
    `y < s` or `y ≥ height - s`, and is a no-op when `2 * s ≥ width` or
    `2 * s ≥ height`. -/
theorem C14_border_pixels_unmodified (F : VideoFilters) (data : List Nat) (amount : ℚ)
    (s x y c : Nat) (hs : 1 ≤ s) (hx : x < F.width) (hy : y < F.height) (hc : c < 4) :
    ((x = 0 ∨ x = F.width - 1 ∨ y = 0 ∨ y = F.height - 1) →
      (F.sharpen data amount).getD ((y * F.width + x) * 4 + c) 0
        = data.getD ((y * F.width + x) * 4 + c) 0) ∧
    ((x < s ∨ F.width - s ≤ x ∨ y < s ∨ F.height - s ≤ y) →
      (F.noiseReduction data (s : Int)).getD ((y * F.width + x) * 4 + c) 0
        = data.getD ((y * F.width + x) * 4 + c) 0) ∧
    ((F.width ≤ 2 * s ∨ F.height ≤ 2 * s) → F.noiseReduction data (s : Int) = data) := by
  refine ⟨?_, ?_, ?_⟩
  · intro hb
    unfold VideoFilters.sharpen
    split
    · rfl
    · exact VideoFilters.tripleLoop_keeps data F.width 1 (F.height - 1) 1 (F.width - 1)
        (Nat.sub_le _ _) _ x y c hx hc (by omega)
  · intro hb
    unfold VideoFilters.noiseReduction
    rw [if_neg (by omega)]
    simp only [Int.toNat_ofNat]
    exact VideoFilters.tripleLoop_keeps data F.width s (F.height - s) s (F.width - s)
      (Nat.sub_le _ _) _ x y c hx hc (by omega)
  · intro hb
    unfold VideoFilters.noiseReduction
    rw [if_neg (by omega)]
    simp only [Int.toNat_ofNat]
    rcases hb with hb | hb
    · apply forLoop_induction (fun t => t = data) _ _ _ _ rfl
      intro i _ _ t ht
      rw [forLoop_of_le _ _ (by omega), ht]
    · exact forLoop_of_le _ _ (by omega) _ _

/-- C14, at a 3 x 3 frame, strength 2, the green byte of pixel `(0, 2)`. -/
theorem C14_border_pixels_unmodified_witness :
    ((VideoFilters.mk 3 3).sharpen (List.replicate 36 7) 1).getD
        ((2 * (VideoFilters.mk 3 3).width + 0) * 4 + 1) 0
      = (List.replicate 36 7).getD ((2 * (VideoFilters.mk 3 3).width + 0) * 4 + 1) 0 ∧
    ((VideoFilters.mk 3 3).noiseReduction (List.replicate 36 7) ((2 : Nat) : Int)).getD
        ((2 * (VideoFilters.mk 3 3).width + 0) * 4 + 1) 0
      = (List.replicate 36 7).getD ((2 * (VideoFilters.mk 3 3).width + 0) * 4 + 1) 0 ∧
    (VideoFilters.mk 3 3).noiseReduction (List.replicate 36 7) ((2 : Nat) : Int)
      = List.replicate 36 7 :=
  have h := C14_border_pixels_unmodified (VideoFilters.mk 3 3) (List.replicate 36 7) 1 2 0 2 1
    (by decide) (by decide) (by decide) (by decide)
  ⟨h.1 (Or.inl rfl), h.2.1 (Or.inl (by decide)), h.2.2 (Or.inl (by decide))⟩

/-- C18: for `amount > 0`, at every interior pixel (`1 ≤ x ≤ width - 2`,
    `1 ≤ y ≤ height - 2`) and each RGB channel, `sharpen` writes
    `clamp (center + trunc (amount * (5 * center - (up + down + left + right))))`,
    all five values being those of the buffer before the call. -/
theorem C18_sharpen_formula (F : VideoFilters) (data : List Nat) (amount : ℚ) (x y c : Nat)
    (hd : IsFrame F.width F.height data) (hpos : 0 < amount)
    (hx1 : 1 ≤ x) (hx2 : x + 2 ≤ F.width) (hy1 : 1 ≤ y) (hy2 : y + 2 ≤ F.height) (hc : c < 3) :
    (F.sharpen data amount).getD ((y * F.width + x) * 4 + c) 0
      = VideoFilters.clamp ((data.getD ((y * F.width + x) * 4 + c) 0 : Int)
          + F32.toInt (F32.mul (F32.ofInt
              (5 * (data.getD ((y * F.width + x) * 4 + c) 0 : Int)
                - ((data.getD (((y - 1) * F.width + x) * 4 + c) 0 : Int)
                  + (data.getD (((y + 1) * F.width + x) * 4 + c) 0 : Int)
                  + (data.getD ((y * F.width + (x - 1)) * 4 + c) 0 : Int)
                  + (data.getD ((y * F.width + (x + 1)) * 4 + c) 0 : Int)))) amount)) := by
  rw [VideoFilters.sharpen_interior F data amount hpos (le_of_eq hd.1.symm) x y c hx1 (by omega)
    hy1 (by omega) hc]
  unfold VideoFilters.sharpenValue
  have h0 := pixel_index_lt F.width F.height x y (by omega) (by omega)
  have h1 := pixel_index_lt F.width F.height x (y - 1) (by omega) (by omega)
  have h2 := pixel_index_lt F.width F.height x (y + 1) (by omega) (by omega)
  have h3 := pixel_index_lt F.width F.height (x - 1) y (by omega) (by omega)
  have h4 := pixel_index_lt F.width F.height (x + 1) y (by omega) (by omega)
  simp only []
  rw [getD_take_lt data _ ((y * F.width + x) * 4 + c) (by omega),
    getD_take_lt data _ (((y - 1) * F.width + x) * 4 + c) (by omega),
    getD_take_lt data _ (((y + 1) * F.width + x) * 4 + c) (by omega),
    getD_take_lt data _ ((y * F.width + (x - 1)) * 4 + c) (by omega),
    getD_take_lt data _ ((y * F.width + (x + 1)) * 4 + c) (by omega)]
  rw [mul_comm (5 : Int)]

/-- C18, at the centre of a 3 x 3 frame with amount one half: the red byte
    `200 + trunc (0.5 * (1000 - 170)) = 615` is clamped to 255. -/
theorem C18_sharpen_formula_witness :
    ((⟨3, 3⟩ : VideoFilters).sharpen
        [10, 20, 30, 255, 40, 50, 60, 255, 70, 80, 90, 255,
         15, 25, 35, 255, 200, 100, 7, 255, 75, 85, 95, 255,
         11, 21, 31, 255, 41, 51, 61, 255, 71, 81, 91, 255] (1 / 2)).getD 16 0 = 255 :=
  (C18_sharpen_formula ⟨3, 3⟩
    [10, 20, 30, 255, 40, 50, 60, 255, 70, 80, 90, 255,
     15, 25, 35, 255, 200, 100, 7, 255, 75, 85, 95, 255,
     11, 21, 31, 255, 41, 51, 61, 255, 71, 81, 91, 255] (1 / 2) 1 1 0
    (by decide) (by decide!) (by decide) (by decide) (by decide) (by decide) (by decide)).trans
    (by decide!)

/-- C15, as the claim states it, fails: on the 3 x 3 frame whose every byte
    is 100, with amount 1, the centre pixel, equal to its four neighbours in
    R, G and B, comes out as 200. The kernel value `5 * 100 - 400 = 100` is
    added to the pixel in full. -/
theorem C15_sharpen_constant_image_counterexample :
    (⟨3, 3⟩ : VideoFilters).sharpen (List.replicate 36 100) 1
      = (List.replicate 16 100 ++ [200, 200, 200] ++ List.replicate 17 100) := by
  decide!

/-- C15, amended: for `amount > 0`, an interior pixel whose value `v` in a
    colour channel equals those of its four neighbours is written as
    `clamp (v + trunc (amount * v))` in that channel: never darker, and
    unchanged exactly when `v = 255` or `trunc (amount * v) = 0`. -/
theorem C15_sharpen_flat_neighbourhood (F : VideoFilters) (data : List Nat) (amount : ℚ)
    (x y c v : Nat) (hd : IsFrame F.width F.height data) (hpos : 0 < amount)
    (hx1 : 1 ≤ x) (hx2 : x + 2 ≤ F.width) (hy1 : 1 ≤ y) (hy2 : y + 2 ≤ F.height) (hc : c < 3)
    (hv : data.getD ((y * F.width + x) * 4 + c) 0 = v)
    (hup : data.getD (((y - 1) * F.width + x) * 4 + c) 0 = v)
    (hdown : data.getD (((y + 1) * F.width + x) * 4 + c) 0 = v)
    (hleft : data.getD ((y * F.width + (x - 1)) * 4 + c) 0 = v)
    (hright : data.getD ((y * F.width + (x + 1)) * 4 + c) 0 = v) :
    (F.sharpen data amount).getD ((y * F.width + x) * 4 + c) 0
      = VideoFilters.clamp ((v : Int) + F32.toInt (F32.mul (F32.ofInt (v : Int)) amount)) ∧
    v ≤ (F.sharpen data amount).getD ((y * F.width + x) * 4 + c) 0 ∧
    ((F.sharpen data amount).getD ((y * F.width + x) * 4 + c) 0 = v ↔
      v = 255 ∨ F32.toInt (F32.mul (F32.ofInt (v : Int)) amount) = 0) := by
  have hval : (F.sharpen data amount).getD ((y * F.width + x) * 4 + c) 0
      = VideoFilters.clamp ((v : Int) + F32.toInt (F32.mul (F32.ofInt (v : Int)) amount)) := by
    rw [VideoFilters.sharpen_interior F data amount hpos (le_of_eq hd.1.symm) x y c hx1 (by omega)
      hy1 (by omega) hc]
    unfold VideoFilters.sharpenValue
    have h0 := pixel_index_lt F.width F.height x y (by omega) (by omega)
    have h1 := pixel_index_lt F.width F.height x (y - 1) (by omega) (by omega)
    have h2 := pixel_index_lt F.width F.height x (y + 1) (by omega) (by omega)
    have h3 := pixel_index_lt F.width F.height (x - 1) y (by omega) (by omega)
    have h4 := pixel_index_lt F.width F.height (x + 1) y (by omega) (by omega)
    simp only []
    rw [getD_take_lt data _ ((y * F.width + x) * 4 + c) (by omega),
      getD_take_lt data _ (((y - 1) * F.width + x) * 4 + c) (by omega),
      getD_take_lt data _ (((y + 1) * F.width + x) * 4 + c) (by omega),
      getD_take_lt data _ ((y * F.width + (x - 1)) * 4 + c) (by omega),
      getD_take_lt data _ ((y * F.width + (x + 1)) * 4 + c) (by omega),
      hv, hup, hdown, hleft, hright]
    have e : (v : Int) * 5 - ((v : Int) + (v : Int) + (v : Int) + (v : Int)) = (v : Int) := by
      ring
    rw [e]
  have hv255 : v < 256 := by rw [← hv]; exact hd.getD_lt _
  have hk : 0 ≤ F32.toInt (F32.mul (F32.ofInt (v : Int)) amount) := by
    unfold F32.toInt F32.mul F32.ofInt
    exact F32.trunc_nonneg _ (F32.round_nonneg _
      (mul_nonneg (F32.round_nonneg _ (by positivity)) (le_of_lt hpos)))
  rw [hval]
  unfold VideoFilters.clamp
  refine ⟨rfl, by omega, ?_⟩
  constructor
  · intro h; omega
  · intro h; omega

/-- C15, at the centre of the 3 x 3 frame whose every byte is 100, amount 1:
    the red byte becomes `clamp (100 + 100) = 200`. -/
theorem C15_sharpen_flat_neighbourhood_witness :
    ((⟨3, 3⟩ : VideoFilters).sharpen (List.replicate 36 100) 1).getD
        ((1 * (⟨3, 3⟩ : VideoFilters).width + 1) * 4 + 0) 0 = 200 :=
  (C15_sharpen_flat_neighbourhood ⟨3, 3⟩ (List.replicate 36 100) 1 1 1 0 100
    (by decide) (by norm_num) (by decide) (by decide) (by decide) (by decide) (by decide)
    (by decide) (by decide) (by decide) (by decide) (by decide)).1.trans (by decide!)

/-! ### The box blur -/

/-- The loop nest over all pixels on any buffer of the frame's size. -/
theorem nestedLoop_on (R G B A : Nat → Nat → Nat) (w h : Nat) (p : List Nat)
    (hp : p.length = w * h * 4) :
    (forLoop 0 h (fun y out => forLoop 0 w (fun x out =>
        writePixel out ((y * w + x) * 4) (R x y) (G x y) (B x y) (A x y)) out) p).length
      = w * h * 4 ∧
    ∀ x y, x < w → y < h →
      (forLoop 0 h (fun y out => forLoop 0 w (fun x out =>
        writePixel out ((y * w + x) * 4) (R x y) (G x y) (B x y) (A x y)) out) p).getD
          ((y * w + x) * 4) 0 = R x y ∧
      (forLoop 0 h (fun y out => forLoop 0 w (fun x out =>
        writePixel out ((y * w + x) * 4) (R x y) (G x y) (B x y) (A x y)) out) p).getD
          ((y * w + x) * 4 + 1) 0 = G x y ∧
      (forLoop 0 h (fun y out => forLoop 0 w (fun x out =>
        writePixel out ((y * w + x) * 4) (R x y) (G x y) (B x y) (A x y)) out) p).getD
          ((y * w + x) * 4 + 2) 0 = B x y ∧
      (forLoop 0 h (fun y out => forLoop 0 w (fun x out =>
        writePixel out ((y * w + x) * 4) (R x y) (G x y) (B x y) (A x y)) out) p).getD
          ((y * w + x) * 4 + 3) 0 = A x y := by
  rw [forLoop_nested w h
    (fun y x out => writePixel out ((y * w + x) * 4) (R x y) (G x y) (B x y) (A x y))]
  have hflat : forLoop 0 (h * w)
      (fun k t => writePixel t ((k / w * w + k % w) * 4) (R (k % w) (k / w)) (G (k % w) (k / w))
        (B (k % w) (k / w)) (A (k % w) (k / w))) p
      = forLoop 0 (h * w)
      (fun k t => writePixel t (k * 4) (R (k % w) (k / w)) (G (k % w) (k / w))
        (B (k % w) (k / w)) (A (k % w) (k / w))) p := by
    apply forLoop_congr
    intro i _ _ t
    rw [Nat.div_add_mod']
  rw [hflat]
  obtain ⟨hl, hk⟩ := pixelLoop_spec (fun k => R (k % w) (k / w)) (fun k => G (k % w) (k / w))
    (fun k => B (k % w) (k / w)) (fun k => A (k % w) (k / w)) p
    (h * w) (by rw [hp]; ring_nf; exact le_refl _)
  refine ⟨by rw [hl, hp], ?_⟩
  intro x y hx hy
  have hlt : y * w + x < h * w := by
    have := pixel_index_lt w h x y hx hy
    rwa [Nat.mul_comm w h] at this
  obtain ⟨_, h2, h1⟩ := pixel_decode w x y 0 hx (by omega)
  simp only [Nat.add_zero, Nat.mul_div_cancel _ (show 0 < 4 by omega)] at h1 h2
  have := hk (y * w + x) hlt
  simp only [h1, h2] at this
  exact this

theorem foldl_add_eq_sum (f : Nat → Nat) (n : Nat) :
    (List.range n).foldl (fun acc k => acc + f k) 0 = Finset.sum (Finset.range n) f := by
  induction n with
  | zero => rfl
  | succ m ih => rw [List.range_succ, List.foldl_append, ih, Finset.sum_range_succ]; rfl

/-- The accumulation loop over `lo ..= hi` is the sum over that interval. -/
theorem forInt_sum (lo hi : Int) (f : Int → Nat) :
    forInt lo hi (fun d sum => sum + f d) 0 = Finset.sum (Finset.Icc lo hi) f := by
  rw [forInt_eq, foldl_add_eq_sum (fun k => f (lo + (k : Int))), Int.Icc_eq_finset_map,
    Finset.sum_map]
  apply Finset.sum_congr rfl
  intro k _
  simp [add_comm]

namespace VideoFilters

theorem wrap32_of_range (n : Int) (h1 : -2 ^ 31 ≤ n) (h2 : n < 2 ^ 31) : wrap32 n = n := by
  unfold wrap32
  omega

theorem wrap32_add (a b : Int) : wrap32 (wrap32 a + b) = wrap32 (a + b) := by
  unfold wrap32
  omega

/-- An accumulation that wraps at every step ends at the wrapped total. -/
theorem foldl_wrap32 (f : Nat → Int) (n : Nat) :
    (List.range n).foldl (fun acc (k : Nat) => wrap32 (acc + f k)) 0
      = wrap32 (Finset.sum (Finset.range n) f) := by
  induction n with
  | zero => rfl
  | succ m ih =>
    rw [List.range_succ, List.foldl_append, ih, Finset.sum_range_succ]
    exact wrap32_add _ _

/-- The wrapping accumulation loop over `lo ..= hi` ends at the wrapped sum. -/
theorem forInt_wrap32 (lo hi : Int) (f : Int → Int) :
    forInt lo hi (fun d sum => wrap32 (sum + f d)) 0
      = wrap32 (Finset.sum (Finset.Icc lo hi) f) := by
  rw [forInt_eq, foldl_wrap32 (fun k => f (lo + (k : Int))), Int.Icc_eq_finset_map,
    Finset.sum_map]
  congr 1

/-- The accumulator of one pass of `blur`: the sum of the samples, wrapped. -/
theorem boxSum_wrap (src : List Nat) (radius : Int) (at_ : Int → Nat) (c : Nat) :
    boxSum src radius at_ c
      = wrap32 ((Finset.sum (Finset.Icc (-radius) radius)
          (fun d => src.getD (at_ d + c) 0) : Nat) : Int) := by
  unfold boxSum
  rw [forInt_wrap32 (-radius) radius (fun d => (src.getD (at_ d + c) 0 : Int))]
  push_cast
  rfl

/-- The counter of one pass of `blur`: the number of samples, wrapped. -/
theorem boxCount_wrap (r : Nat) : boxCount (r : Int) = wrap32 (2 * (r : Int) + 1) := by
  unfold boxCount
  rw [forInt_wrap32 (-(r : Int)) r (fun _ => 1)]
  rw [Finset.sum_const, Int.card_Icc, nsmul_eq_mul, mul_one]
  congr 1
  have : ((r : Int) + 1 - -(r : Int)).toNat = 2 * r + 1 := by omega
  rw [this]
  push_cast
  ring

/-- Up to radius 4210751 the sum of `2 * r + 1` bytes fits an `int`. -/
theorem boxSum_eq (src : List Nat) (r : Nat) (at_ : Int → Nat) (c : Nat) (hr : r ≤ 4210751)
    (hb : ∀ d, src.getD (at_ d + c) 0 < 256) :
    boxSum src (r : Int) at_ c
      = ((Finset.sum (Finset.Icc (-(r : Int)) (r : Int))
          (fun d => src.getD (at_ d + c) 0) : Nat) : Int) := by
  rw [boxSum_wrap]
  have h1 : Finset.sum (Finset.Icc (-(r : Int)) (r : Int)) (fun d => src.getD (at_ d + c) 0)
      ≤ (Finset.Icc (-(r : Int)) (r : Int)).card • 255 :=
    Finset.sum_le_card_nsmul _ _ _ (fun d _ => by have := hb d; omega)
  have hc : (Finset.Icc (-(r : Int)) (r : Int)).card = 2 * r + 1 := by
    rw [Int.card_Icc]; omega
  rw [hc, smul_eq_mul] at h1
  apply wrap32_of_range
  · have : (0 : Int) ≤ ((Finset.sum (Finset.Icc (-(r : Int)) (r : Int))
        (fun d => src.getD (at_ d + c) 0) : Nat) : Int) := Int.ofNat_nonneg _
    omega
  · have : Finset.sum (Finset.Icc (-(r : Int)) (r : Int)) (fun d => src.getD (at_ d + c) 0)
        < 2 ^ 31 := by omega
    exact_mod_cast this

theorem boxCount_eq (r : Nat) (hr : r ≤ 4210751) : boxCount (r : Int) = ((2 * r + 1 : Nat) : Int) := by
  rw [boxCount_wrap]
  push_cast
  apply wrap32_of_range <;> omega

/-- The byte stored for a sum and a count that are natural numbers with a
    quotient below 256: the quotient rounded down. -/
theorem boxByte_natCast (s n : Nat) (h : s / n < 256) :
    boxByte (s : Int) (n : Int) = s / n := by
  unfold boxByte toUint8
  rw [← Int.ofNat_tdiv]
  have : ((s / n : Nat) : Int) % 256 = ((s / n % 256 : Nat) : Int) := by push_cast; rfl
  rw [this, Int.toNat_ofNat]
  exact Nat.mod_eq_of_lt h

/-- The mean of `2 * r + 1` bytes is a byte. -/
theorem boxAverage_lt (f : Int → Nat) (r : Nat) (hf : ∀ d, f d < 256) :
    Finset.sum (Finset.Icc (-(r : Int)) (r : Int)) f / (2 * r + 1) < 256 := by
  have h1 : Finset.sum (Finset.Icc (-(r : Int)) (r : Int)) f
      ≤ (Finset.Icc (-(r : Int)) (r : Int)).card • 255 :=
    Finset.sum_le_card_nsmul _ _ _ (fun d _ => by have := hf d; omega)
  have hc : (Finset.Icc (-(r : Int)) (r : Int)).card = 2 * r + 1 := by
    rw [Int.card_Icc]; omega
  rw [hc, smul_eq_mul] at h1
  rw [Nat.div_lt_iff_lt_mul (by omega)]
  nlinarith

end VideoFilters

theorem blurTempRef_lt (data : List Nat) (width height radius x y c : Nat)
    (hd : IsFrame width height data) : blurTempRef data width radius x y c < 256 := by
  unfold blurTempRef
  exact VideoFilters.boxAverage_lt _ radius (fun d => hd.getD_lt _)

theorem blurRef_lt (data : List Nat) (width height radius x y c : Nat)
    (hd : IsFrame width height data) : blurRef data width height radius x y c < 256 := by
  unfold blurRef
  exact VideoFilters.boxAverage_lt _ radius
    (fun d => blurTempRef_lt data width height radius x _ c hd)

theorem clampIndex_toNat (a b : Nat) (n : Int) (hn : 0 ≤ n) :
    ((((a : Int) * (b : Int) + n) * 4).toNat) = (a * b + n.toNat) * 4 := by
  obtain ⟨k, rfl⟩ := Int.eq_ofNat_of_zero_le hn
  have : (((a : Int) * (b : Int) + (k : Int)) * 4) = (((a * b + k) * 4 : Nat) : Int) := by
    push_cast; ring
  rw [this]
  exact Int.toNat_ofNat _

theorem clampIndex_toNat2 (b x : Nat) (n : Int) (hn : 0 ≤ n) :
    (((n * (b : Int) + (x : Int)) * 4).toNat) = (n.toNat * b + x) * 4 := by
  obtain ⟨k, rfl⟩ := Int.eq_ofNat_of_zero_le hn
  have : ((((k : Int) * (b : Int) + (x : Int)) * 4)) = (((k * b + x) * 4 : Nat) : Int) := by
    push_cast; ring
  rw [this]
  exact Int.toNat_ofNat _

theorem clamp_coord_lt (n : Nat) (v : Int) (hn : 0 < n) :
    (max 0 (min ((n : Int) - 1) v)).toNat < n := by
  omega


/-! ### Square roots -/

namespace F32

theorem isqrtAux_spec (b : Nat) : ∀ n r : Nat, r ^ 2 ≤ n → n < (r + 2 ^ b) ^ 2 →
    isqrtAux b n r ^ 2 ≤ n ∧ n < (isqrtAux b n r + 1) ^ 2 := by
  induction b with
  | zero =>
    intro n r h1 h2
    exact ⟨h1, by simpa using h2⟩
  | succ k ih =>
    intro n r h1 h2
    unfold isqrtAux
    split
    · next h =>
      apply ih _ _ h
      have : r + 2 ^ k + 2 ^ k = r + 2 ^ (k + 1) := by rw [pow_succ]; ring
      rw [this]; exact h2
    · next h =>
      exact ih _ _ h1 (not_le.mp h)

/-- The integer square root: `isqrt n ^ 2 ≤ n < (isqrt n + 1) ^ 2`. -/
theorem isqrt_spec (n : Nat) : isqrt n ^ 2 ≤ n ∧ n < (isqrt n + 1) ^ 2 := by
  unfold isqrt
  apply isqrtAux_spec _ n 0 (by simp)
  rcases Nat.eq_zero_or_pos n with h | h
  · subst h; positivity
  · obtain ⟨_, h2⟩ := natLog2_spec n h
    have e : (0 + 2 ^ (natLog2 n / 2 + 1)) ^ 2 = 2 ^ (2 * (natLog2 n / 2) + 2) := by
      rw [Nat.zero_add, ← pow_mul]; congr 1; ring
    rw [e]
    exact lt_of_lt_of_le h2 (Nat.pow_le_pow_right (by norm_num) (by omega))

theorem isqrt_mono (a b : Nat) (h : a ≤ b) : isqrt a ≤ isqrt b := by
  obtain ⟨a1, _⟩ := isqrt_spec a
  obtain ⟨_, b2⟩ := isqrt_spec b
  have : isqrt a ^ 2 < (isqrt b + 1) ^ 2 := by omega
  have := lt_of_pow_lt_pow_left₀ 2 (Nat.zero_le _) this
  omega

theorem sqrtRound_nonneg (p : Nat) (q : ℚ) : 0 ≤ sqrtRound p q := by
  unfold sqrtRound
  split
  · exact le_refl 0
  · have hu := pow2_pos (ilog2 q / 2 - ((p : Int) - 1))
    simp only []
    split_ifs <;> positivity

theorem sqrtRound_zero (p : Nat) : sqrtRound p 0 = 0 := by
  unfold sqrtRound
  rw [if_pos (le_refl 0)]

/-- The scaled radicand of `sqrtRound` lies in `[4 ^ (p - 1), 4 ^ p)`. -/
theorem sqrtRound_scaled (p : Nat) (hp : 1 ≤ p) (q : ℚ) (hq : 0 < q) :
    ((2 ^ (p - 1) : Nat) : ℚ) ^ 2
        ≤ q / (pow2 (ilog2 q / 2 - ((p : Int) - 1)) * pow2 (ilog2 q / 2 - ((p : Int) - 1))) ∧
    q / (pow2 (ilog2 q / 2 - ((p : Int) - 1)) * pow2 (ilog2 q / 2 - ((p : Int) - 1)))
        < ((2 ^ p : Nat) : ℚ) ^ 2 := by
  obtain ⟨s1, s2⟩ := ilog2_spec q hq
  have one_le : (1 : ℚ) ≤ 2 := by norm_num
  have two_ne : (2 : ℚ) ≠ 0 := by norm_num
  have hk1 : 2 * (ilog2 q / 2) ≤ ilog2 q := by omega
  have hk2 : ilog2 q + 1 ≤ 2 * (ilog2 q / 2) + 2 := by omega
  have l1 : (2 : ℚ) ^ (2 * (ilog2 q / 2)) ≤ q :=
    le_trans (zpow_le_zpow_right₀ one_le hk1) s1
  have l2 : q < (2 : ℚ) ^ (2 * (ilog2 q / 2) + 2) :=
    lt_of_lt_of_le s2 (zpow_le_zpow_right₀ one_le hk2)
  rw [pow2_eq, ← zpow_add₀ two_ne]
  have hu : (0 : ℚ) < (2 : ℚ) ^ (ilog2 q / 2 - ((p : Int) - 1) + (ilog2 q / 2 - ((p : Int) - 1))) :=
    zpow_pos (by norm_num) _
  have e1 : (((2 ^ (p - 1) : Nat) : ℚ)) ^ 2
      * (2 : ℚ) ^ (ilog2 q / 2 - ((p : Int) - 1) + (ilog2 q / 2 - ((p : Int) - 1)))
      = (2 : ℚ) ^ (2 * (ilog2 q / 2)) := by
    push_cast
    rw [← pow_mul, ← zpow_natCast, ← zpow_add₀ two_ne]
    congr 1
    push_cast [Nat.cast_sub hp]
    ring
  have e2 : (((2 ^ p : Nat) : ℚ)) ^ 2
      * (2 : ℚ) ^ (ilog2 q / 2 - ((p : Int) - 1) + (ilog2 q / 2 - ((p : Int) - 1)))
      = (2 : ℚ) ^ (2 * (ilog2 q / 2) + 2) := by
    push_cast
    rw [← pow_mul, ← zpow_natCast, ← zpow_add₀ two_ne]
    congr 1
    push_cast
    ring
  constructor
  · rw [le_div_iff₀ hu, e1]; exact l1
  · rw [div_lt_iff₀ hu, e2]; exact l2

/-- The integer root of the scaled radicand has exactly `p` bits. -/
theorem sqrtRound_digits (p : Nat) (hp : 1 ≤ p) (q : ℚ) (hq : 0 < q) :
    2 ^ (p - 1) ≤ isqrt ⌊q / (pow2 (ilog2 q / 2 - ((p : Int) - 1))
        * pow2 (ilog2 q / 2 - ((p : Int) - 1)))⌋.toNat ∧
    isqrt ⌊q / (pow2 (ilog2 q / 2 - ((p : Int) - 1))
        * pow2 (ilog2 q / 2 - ((p : Int) - 1)))⌋.toNat + 1 ≤ 2 ^ p := by
  obtain ⟨x1, x2⟩ := sqrtRound_scaled p hp q hq
  set x := q / (pow2 (ilog2 q / 2 - ((p : Int) - 1)) * pow2 (ilog2 q / 2 - ((p : Int) - 1)))
  obtain ⟨m1, m2⟩ := isqrt_spec ⌊x⌋.toNat
  have hx0 : 0 ≤ x := le_trans (by positivity) x1
  have hfl : (0 : Int) ≤ ⌊x⌋ := Int.floor_nonneg.mpr hx0
  have f1 : (2 ^ (p - 1)) ^ 2 ≤ ⌊x⌋.toNat := by
    have : (((2 ^ (p - 1)) ^ 2 : Nat) : Int) ≤ ⌊x⌋ := by
      apply Int.le_floor.mpr
      push_cast
      push_cast at x1
      exact x1
    omega
  have f2 : ⌊x⌋.toNat < (2 ^ p) ^ 2 := by
    have : ⌊x⌋ < (((2 ^ p) ^ 2 : Nat) : Int) := by
      apply Int.floor_lt.mpr
      push_cast
      push_cast at x2
      exact x2
    omega
  constructor
  · have : (2 ^ (p - 1)) ^ 2 < (isqrt ⌊x⌋.toNat + 1) ^ 2 := by omega
    have := lt_of_pow_lt_pow_left₀ 2 (Nat.zero_le _) this
    omega
  · have : isqrt ⌊x⌋.toNat ^ 2 < (2 ^ p) ^ 2 := by omega
    have := lt_of_pow_lt_pow_left₀ 2 (Nat.zero_le _) this
    omega

/-- The rounded root lies between the powers of two around it. -/
theorem sqrtRound_bounds (p : Nat) (hp : 1 ≤ p) (q : ℚ) (hq : 0 < q) :
    (2 : ℚ) ^ (ilog2 q / 2) ≤ sqrtRound p q ∧ sqrtRound p q ≤ (2 : ℚ) ^ (ilog2 q / 2 + 1) := by
  obtain ⟨d1, d2⟩ := sqrtRound_digits p hp q hq
  unfold sqrtRound
  rw [if_neg (not_le.mpr hq)]
  simp only []
  set u := pow2 (ilog2 q / 2 - ((p : Int) - 1)) with hu
  set m := isqrt ⌊q / (u * u)⌋.toNat with hm
  have hupos : 0 < u := pow2_pos _
  have two_ne : (2 : ℚ) ≠ 0 := by norm_num
  have lo : (2 : ℚ) ^ (ilog2 q / 2) = ((2 ^ (p - 1) : Nat) : ℚ) * u := by
    rw [hu, pow2_eq]
    push_cast
    rw [← zpow_natCast, ← zpow_add₀ two_ne]
    congr 1
    push_cast [Nat.cast_sub hp]
    ring
  have hi : (2 : ℚ) ^ (ilog2 q / 2 + 1) = ((2 ^ p : Nat) : ℚ) * u := by
    rw [hu, pow2_eq]
    push_cast
    rw [← zpow_natCast, ← zpow_add₀ two_ne]
    congr 1
    ring
  have c1 : ((2 ^ (p - 1) : Nat) : ℚ) ≤ (m : ℚ) := by exact_mod_cast d1
  have c2 : (m : ℚ) + 1 ≤ ((2 ^ p : Nat) : ℚ) := by exact_mod_cast d2
  rw [lo, hi]
  split_ifs
  · exact ⟨mul_le_mul_of_nonneg_right c1 (le_of_lt hupos),
      mul_le_mul_of_nonneg_right (by linarith) (le_of_lt hupos)⟩
  · exact ⟨mul_le_mul_of_nonneg_right (by linarith) (le_of_lt hupos),
      mul_le_mul_of_nonneg_right c2 (le_of_lt hupos)⟩
  · exact ⟨mul_le_mul_of_nonneg_right c1 (le_of_lt hupos),
      mul_le_mul_of_nonneg_right (by linarith) (le_of_lt hupos)⟩
  · exact ⟨mul_le_mul_of_nonneg_right (by linarith) (le_of_lt hupos),
      mul_le_mul_of_nonneg_right c2 (le_of_lt hupos)⟩

/-- Rounded square roots are monotone. -/
theorem sqrtRound_mono (p : Nat) (hp : 1 ≤ p) (a b : ℚ) (hab : a ≤ b) :
    sqrtRound p a ≤ sqrtRound p b := by
  rcases le_or_lt a 0 with ha | ha
  · have : sqrtRound p a = 0 := by unfold sqrtRound; rw [if_pos ha]
    rw [this]; exact sqrtRound_nonneg p b
  have hb : 0 < b := lt_of_lt_of_le ha hab
  have hlog : ilog2 a ≤ ilog2 b := ilog2_mono a b ha hab
  have hk : ilog2 a / 2 ≤ ilog2 b / 2 := Int.ediv_le_ediv (by norm_num) hlog
  rcases lt_or_eq_of_le hk with hlt | heq
  · obtain ⟨_, a2⟩ := sqrtRound_bounds p hp a ha
    obtain ⟨b1, _⟩ := sqrtRound_bounds p hp b hb
    have : (2 : ℚ) ^ (ilog2 a / 2 + 1) ≤ (2 : ℚ) ^ (ilog2 b / 2) :=
      zpow_le_zpow_right₀ (by norm_num) (by omega)
    linarith
  · unfold sqrtRound
    rw [if_neg (not_le.mpr ha), if_neg (not_le.mpr hb)]
    simp only []
    rw [heq]
    set u := pow2 (ilog2 b / 2 - ((p : Int) - 1)) with hu
    have hupos : 0 < u := pow2_pos _
    have hx : a / (u * u) ≤ b / (u * u) := div_le_div_of_nonneg_right hab (by positivity)
    have hfl : ⌊a / (u * u)⌋.toNat ≤ ⌊b / (u * u)⌋.toNat :=
      Int.toNat_le_toNat (Int.floor_mono hx)
    have hm := isqrt_mono _ _ hfl
    set ma := isqrt ⌊a / (u * u)⌋.toNat
    set mb := isqrt ⌊b / (u * u)⌋.toNat
    rcases lt_or_eq_of_le hm with hmlt | hmeq
    · have c : (ma : ℚ) + 1 ≤ (mb : ℚ) := by exact_mod_cast hmlt
      have r1 : ∀ z : ℚ, (z = (ma : ℚ) * u ∨ z = ((ma : ℚ) + 1) * u) → z ≤ ((ma : ℚ) + 1) * u := by
        intro z hz
        rcases hz with rfl | rfl
        · exact mul_le_mul_of_nonneg_right (by linarith) (le_of_lt hupos)
        · exact le_refl _
      have r2 : ∀ z : ℚ, (z = (mb : ℚ) * u ∨ z = ((mb : ℚ) + 1) * u) → (mb : ℚ) * u ≤ z := by
        intro z hz
        rcases hz with rfl | rfl
        · exact le_refl _
        · exact mul_le_mul_of_nonneg_right (by linarith) (le_of_lt hupos)
      have mid : ((ma : ℚ) + 1) * u ≤ (mb : ℚ) * u :=
        mul_le_mul_of_nonneg_right c (le_of_lt hupos)
      refine le_trans (r1 _ ?_) (le_trans mid (r2 _ ?_))
      · split_ifs <;> simp
      · split_ifs <;> simp
    · rw [← hmeq]
      have step : (ma : ℚ) * u ≤ ((ma : ℚ) + 1) * u :=
        mul_le_mul_of_nonneg_right (by linarith) (le_of_lt hupos)
      split_ifs <;> first | exact le_refl _ | exact step | (exfalso; linarith)

theorem sqrt_nonneg (q : ℚ) : 0 ≤ sqrt q := sqrtRound_nonneg 24 q

theorem sqrt_zero : sqrt 0 = 0 := sqrtRound_zero 24

theorem sqrt64_mono (a b : ℚ) (hab : a ≤ b) : sqrt64 a ≤ sqrt64 b :=
  sqrtRound_mono 53 (by norm_num) a b hab

end F32

/-! ### Rounding is idempotent -/

namespace F32

theorem roundPos_round (q : ℚ) (hq : 0 < q) : round (roundPos q) = roundPos q := by
  have two_ne : (2 : ℚ) ≠ 0 := by norm_num
  have one_le : (1 : ℚ) ≤ 2 := by norm_num
  have one_lt : (1 : ℚ) < 2 := by norm_num
  rcases eq_or_lt_of_le (roundPos_nonneg q (le_of_lt hq)) with h0 | hpos
  · rw [← h0, round_zero]
  obtain ⟨_, s2⟩ := ilog2_spec q hq
  set e := max (ilog2 q) (-126) with he
  have hqe : q < (2 : ℚ) ^ (e + 1) :=
    lt_of_lt_of_le s2 (zpow_le_zpow_right₀ one_le (by omega))
  have hu : (0 : ℚ) < (2 : ℚ) ^ (e - 23) := zpow_pos (by norm_num) _
  have hr : roundPos q = (rne (q / (2 : ℚ) ^ (e - 23)) : ℚ) * (2 : ℚ) ^ (e - 23) := roundPos_eq q
  set m := rne (q / (2 : ℚ) ^ (e - 23)) with hm
  have hm24 : m ≤ 2 ^ 24 := by
    apply rne_le
    rw [div_le_iff₀ hu]
    have : ((2 ^ 24 : Int) : ℚ) * (2 : ℚ) ^ (e - 23) = (2 : ℚ) ^ (e + 1) := by
      have c : ((2 ^ 24 : Int) : ℚ) = (2 : ℚ) ^ (24 : Int) := by norm_num
      rw [c, ← zpow_add₀ two_ne]
      congr 1
      ring
    rw [this]
    exact le_of_lt hqe
  obtain ⟨r1, r2⟩ := ilog2_spec (roundPos q) hpos
  set e2 := max (ilog2 (roundPos q)) (-126) with he2
  have hle : roundPos q ≤ (2 : ℚ) ^ (e + 1) := roundPos_le_pow q hq
  have hlog : ilog2 (roundPos q) ≤ e + 1 := by
    by_contra hcon
    have : (2 : ℚ) ^ (e + 1 + 1) ≤ (2 : ℚ) ^ ilog2 (roundPos q) :=
      zpow_le_zpow_right₀ one_le (by omega)
    have h3 : (2 : ℚ) ^ (e + 1) < (2 : ℚ) ^ (e + 1 + 1) :=
      zpow_lt_zpow_right₀ one_lt (by omega)
    linarith
  have he2le : e2 ≤ e + 1 := by omega
  rcases lt_or_eq_of_le he2le with hlt | heq
  · -- same or lower binade: the significand scales by a power of two
    obtain ⟨k, hk⟩ : ∃ k : Nat, e - e2 = (k : Int) := ⟨(e - e2).toNat, by omega⟩
    apply round_eq_self (roundPos q) hpos (m * 2 ^ k)
    rw [← he2, hr, mul_div_assoc, ← zpow_sub₀ two_ne]
    have : e - 23 - (e2 - 23) = (k : Int) := by omega
    rw [this, zpow_natCast]
    push_cast
    ring
  · -- the rounding reached the next power of two
    have hlog2 : ilog2 (roundPos q) = e + 1 := by omega
    have hge : (2 : ℚ) ^ (e + 1) ≤ roundPos q := by rw [← hlog2]; exact r1
    have heq2 : roundPos q = (2 : ℚ) ^ (e + 1) := le_antisymm hle hge
    apply round_eq_self (roundPos q) hpos (2 ^ 23)
    rw [← he2, heq, heq2, ← zpow_sub₀ two_ne]
    have : e + 1 - (e + 1 - 23) = ((23 : Nat) : Int) := by push_cast; ring
    rw [this, zpow_natCast]
    norm_num

/-- A rounded value is a binary32 value: rounding it again changes nothing. -/
theorem round_round (q : ℚ) : round (round q) = round q := by
  rcases lt_trichotomy q 0 with h | h | h
  · rw [round_of_neg q h, round_neg, roundPos_round (-q) (by linarith)]
  · subst h; rw [round_zero, round_zero]
  · rw [round_of_pos q h, roundPos_round q h]

/-- Subtracting a non-negative amount from a binary32 value does not raise it. -/
theorem sub_le_self (a b z : ℚ) (ha : a = round z) (hb : 0 ≤ b) : sub a b ≤ a := by
  unfold sub
  have h1 : round (a - b) ≤ round a := round_mono _ _ (by linarith)
  have h2 : round a = a := by rw [ha, round_round]
  linarith

/-- Halving commutes with rounding, away from the subnormal range. -/
theorem round_half (q : ℚ) (hq : 1 ≤ q) : round (q / 2) = round q / 2 := by
  have two_ne : (2 : ℚ) ≠ 0 := by norm_num
  have hpos : 0 < q := by linarith
  obtain ⟨s1, s2⟩ := ilog2_spec q hpos
  have h1 : ilog2 1 = 0 := ilog2_unique 1 0 (by norm_num) (by norm_num)
  have he : 0 ≤ ilog2 q := by
    have := ilog2_mono 1 q (by norm_num) hq
    omega
  have hlog : ilog2 (q / 2) = ilog2 q - 1 := by
    apply ilog2_unique
    · rw [zpow_sub_one₀ two_ne]
      exact div_le_div_of_nonneg_right s1 (by norm_num)
    · rw [sub_add_cancel, div_lt_iff₀ (by norm_num), ← zpow_add_one₀ two_ne]
      exact s2
  rw [round_of_pos q hpos, round_of_pos (q / 2) (by linarith), roundPos_eq, roundPos_eq, hlog,
    max_eq_left (by omega), max_eq_left (by omega)]
  have hu : (2 : ℚ) ^ (ilog2 q - 1 - 23) = (2 : ℚ) ^ (ilog2 q - 23) / 2 := by
    rw [show ilog2 q - 1 - 23 = ilog2 q - 23 - 1 by ring, zpow_sub_one₀ two_ne]
    rfl
  rw [hu]
  have hne : (2 : ℚ) ^ (ilog2 q - 23) ≠ 0 := ne_of_gt (zpow_pos (by norm_num) _)
  have : q / 2 / ((2 : ℚ) ^ (ilog2 q - 23) / 2) = q / (2 : ℚ) ^ (ilog2 q - 23) := by
    field_simp
  rw [this]
  ring

end F32

/-! ### Loops that rewrite each pixel from its own bytes -/

/-- Two buffers of one length that agree at `j` still do after the same
    assignment. -/
theorem set_agree (t p : List Nat) (i v j : Nat)
    (h : t.length = p.length ∧ t.getD j 0 = p.getD j 0) :
    (t.set i v).length = (p.set i v).length ∧ (t.set i v).getD j 0 = (p.set i v).getD j 0 := by
  refine ⟨by simp [h.1], ?_⟩
  rw [getD_set_eq, getD_set_eq, h.1, h.2]

/-- A loop over pixels whose iteration `k` touches the four bytes of pixel `k`
    only, and computes them from those bytes only, leaves at pixel `k` what
    iteration `k` alone makes of the initial buffer. -/
theorem pixelwise_loop (p : List Nat) (n : Nat) (body : Nat → List Nat → List Nat)
    (hlen : ∀ k t, (body k t).length = t.length)
    (hout : ∀ k t j, ¬ (4 * k ≤ j ∧ j < 4 * k + 4) → (body k t).getD j 0 = t.getD j 0)
    (hloc : ∀ k t, k < n → t.length = p.length →
      (∀ j, 4 * k ≤ j ∧ j < 4 * k + 4 → t.getD j 0 = p.getD j 0) →
      ∀ j, 4 * k ≤ j ∧ j < 4 * k + 4 → (body k t).getD j 0 = (body k p).getD j 0)
    (k : Nat) (hk : k < n) (j : Nat) (hj : 4 * k ≤ j ∧ j < 4 * k + 4) :
    (forLoop 0 n body p).getD j 0 = (body k p).getD j 0 := by
  have hL : LocalWrites p (forLoop 0 n body)
      (fun j => ∃ i, 0 ≤ i ∧ i < n ∧ (4 * i ≤ j ∧ j < 4 * i + 4))
      (fun j => (body (j / 4) p).getD j 0) := by
    apply LocalWrites.loop p 0 n body (fun i j => 4 * i ≤ j ∧ j < 4 * i + 4)
    · intro i _ hi t ht hagree
      refine ⟨by rw [hlen, ht], fun j hj => hout i t j hj, ?_⟩
      intro j hj
      have : j / 4 = i := by omega
      show (body i t).getD j 0 = (body (j / 4) p).getD j 0
      rw [this]
      exact hloc i t hi ht hagree j hj
    · intro i i2 j _ _ _ _ hne h1 h2
      omega
  have h : (forLoop 0 n body p).getD j 0 = (body (j / 4) p).getD j 0 :=
    (hL p rfl (fun _ _ => rfl)).2.2 j ⟨k, Nat.zero_le k, hk, hj⟩
  have e : j / 4 = k := by omega
  rw [e] at h
  exact h

namespace VideoFilters

/-- The body of `vignette` for one pixel. -/
theorem vignette_pixel (F : VideoFilters) (data : List Nat) (intensity radius : ℚ)
    (x y c : Nat) (hx : x < F.width) (hy : y < F.height) (hc : c < 4) :
    (F.vignette data intensity radius).getD ((y * F.width + x) * 4 + c) 0
      = (writeRGB data ((y * F.width + x) * 4)
          (clamp (F32.toInt (F32.mul (data.getD ((y * F.width + x) * 4) 0 : ℚ)
            (vignetteFactor (centreDistance F.centerX F.centerY x y) F.maxDist intensity radius))))
          (clamp (F32.toInt (F32.mul (data.getD ((y * F.width + x) * 4 + 1) 0 : ℚ)
            (vignetteFactor (centreDistance F.centerX F.centerY x y) F.maxDist intensity radius))))
          (clamp (F32.toInt (F32.mul (data.getD ((y * F.width + x) * 4 + 2) 0 : ℚ)
            (vignetteFactor (centreDistance F.centerX F.centerY x y) F.maxDist intensity
              radius))))).getD ((y * F.width + x) * 4 + c) 0 := by
  unfold vignette
  rw [forLoop_nested F.width F.height (fun y x data =>
      writeRGB data ((y * F.width + x) * 4)
        (clamp (F32.toInt (F32.mul (data.getD ((y * F.width + x) * 4) 0 : ℚ)
          (vignetteFactor (centreDistance F.centerX F.centerY x y) F.maxDist intensity radius))))
        (clamp (F32.toInt (F32.mul (data.getD ((y * F.width + x) * 4 + 1) 0 : ℚ)
          (vignetteFactor (centreDistance F.centerX F.centerY x y) F.maxDist intensity radius))))
        (clamp (F32.toInt (F32.mul (data.getD ((y * F.width + x) * 4 + 2) 0 : ℚ)
          (vignetteFactor (centreDistance F.centerX F.centerY x y) F.maxDist intensity radius)))))]
  have hlt : y * F.width + x < F.height * F.width := by
    have := pixel_index_lt F.width F.height x y hx hy
    rwa [Nat.mul_comm F.width F.height] at this
  obtain ⟨_, d2, d1⟩ := pixel_decode F.width x y 0 hx (by omega)
  simp only [Nat.add_zero, Nat.mul_div_cancel _ (show 0 < 4 by omega)] at d1 d2
  have key := pixelwise_loop data (F.height * F.width) (fun k data =>
      writeRGB data ((k / F.width * F.width + k % F.width) * 4)
        (clamp (F32.toInt (F32.mul (data.getD ((k / F.width * F.width + k % F.width) * 4) 0 : ℚ)
          (vignetteFactor (centreDistance F.centerX F.centerY (k % F.width) (k / F.width))
            F.maxDist intensity radius))))
        (clamp (F32.toInt (F32.mul
          (data.getD ((k / F.width * F.width + k % F.width) * 4 + 1) 0 : ℚ)
          (vignetteFactor (centreDistance F.centerX F.centerY (k % F.width) (k / F.width))
            F.maxDist intensity radius))))
        (clamp (F32.toInt (F32.mul
          (data.getD ((k / F.width * F.width + k % F.width) * 4 + 2) 0 : ℚ)
          (vignetteFactor (centreDistance F.centerX F.centerY (k % F.width) (k / F.width))
            F.maxDist intensity radius)))))
    (fun k t => length_writeRGB _ _ _ _ _)
    (fun k t j hj => by
      have e : k / F.width * F.width + k % F.width = k := Nat.div_add_mod' k F.width
      simp only [e]
      exact getD_writeRGB_other _ _ _ _ _ _ (by omega))
    (fun k t hk ht hagree j hj => by
      have e : k / F.width * F.width + k % F.width = k := Nat.div_add_mod' k F.width
      simp only [e]
      rw [hagree (k * 4) (by omega), hagree (k * 4 + 1) (by omega),
        hagree (k * 4 + 2) (by omega)]
      unfold writeRGB
      exact (set_agree _ _ _ _ _ (set_agree _ _ _ _ _ (set_agree _ _ _ _ _
        ⟨ht, hagree j hj⟩))).2)
    (y * F.width + x) hlt ((y * F.width + x) * 4 + c) (by omega)
  simp only [d1, d2] at key
  exact key

/-- A factor of one leaves a byte as it is. -/
theorem vignette_byte_one (a : Nat) (ha : a < 256) :
    clamp (F32.toInt (F32.mul (a : ℚ) 1)) = a := by
  unfold F32.mul
  rw [mul_one, F32.round_natCast a (by omega)]
  have h : F32.toInt (a : ℚ) = (a : Int) := by
    unfold F32.toInt
    exact_mod_cast F32.trunc_intCast (a : Int)
  rw [h]
  unfold clamp
  omega

/-- A pixel at which the factor is one keeps all four bytes. -/
theorem vignette_unchanged (F : VideoFilters) (data : List Nat) (intensity radius : ℚ)
    (hd : IsFrame F.width F.height data) (x y c : Nat) (hx : x < F.width) (hy : y < F.height)
    (hc : c < 4)
    (hf : vignetteFactor (centreDistance F.centerX F.centerY x y) F.maxDist intensity radius = 1) :
    (F.vignette data intensity radius).getD ((y * F.width + x) * 4 + c) 0
      = data.getD ((y * F.width + x) * 4 + c) 0 := by
  rw [vignette_pixel F data intensity radius x y c hx hy hc, hf]
  rw [vignette_byte_one _ (hd.getD_lt _), vignette_byte_one _ (hd.getD_lt _),
    vignette_byte_one _ (hd.getD_lt _)]
  unfold writeRGB
  rw [getD_set_eq, getD_set_eq, getD_set_eq]
  split_ifs with h1 h2 h3
  · rw [← h1.1]
  · rw [← h2.1]
  · rw [← h3.1]
  · rfl

/-- Half of a dimension, as the code computes it. -/
theorem half_dimension (n : Nat) (hn : n % 2 = 0) (hpos : 0 < n) :
    F32.div (F32.ofInt n) 2 = F32.round (n : ℚ) / 2 ∧
    F32.ofInt ((n / 2 : Nat) : Int) = F32.round (n : ℚ) / 2 := by
  have h2 : (2 : ℚ) ≤ (n : ℚ) := by
    have : 2 ≤ n := by omega
    exact_mod_cast this
  have hr1 : (1 : ℚ) ≤ F32.round (n : ℚ) := by
    have h := F32.round_mono 1 (n : ℚ) (by linarith)
    have e : F32.round 1 = 1 := by decide!
    rw [e] at h
    exact h
  constructor
  · unfold F32.div F32.ofInt
    rw [Int.cast_natCast, F32.round_half _ hr1, F32.round_round]
  · unfold F32.ofInt
    have e : (((n / 2 : Nat) : Int) : ℚ) = (n : ℚ) / 2 := by
      obtain ⟨k, hk⟩ : ∃ k, n = 2 * k := ⟨n / 2, by omega⟩
      rw [hk]; push_cast; simp
    rw [e, F32.round_half _ (by linarith)]

/-- The computed distance of the centre pixel is zero when the dimensions are
    even. -/
theorem centreDistance_centre (F : VideoFilters) (hw : F.width % 2 = 0) (hh : F.height % 2 = 0)
    (hw2 : 0 < F.width) (hh2 : 0 < F.height) :
    centreDistance F.centerX F.centerY (F.width / 2) (F.height / 2) = 0 := by
  obtain ⟨x1, x2⟩ := half_dimension F.width hw hw2
  obtain ⟨y1, y2⟩ := half_dimension F.height hh hh2
  unfold centreDistance centerX centerY
  simp only []
  rw [x1, x2, y1, y2]
  unfold F32.sub F32.add F32.mul
  simp only [sub_self, F32.round_zero, mul_zero, add_zero]
  exact F32.sqrt_zero

theorem maxDist_nonneg (F : VideoFilters) : 0 ≤ F.maxDist := by
  unfold maxDist
  exact F32.sqrt_nonneg _

end VideoFilters

/-- C12: `vignette` leaves unchanged every pixel whose computed distance from
    the frame centre `(width / 2, height / 2)` is at most the computed
    `maxDist * radius`, with `maxDist = sqrt ((width/2)^2 + (height/2)^2)`,
    whatever the intensity and radius; and for even width and height and a
    radius that is not negative the centre pixel `(width / 2, height / 2)`,
    at distance 0, keeps its R, G, B and A bytes. -/
theorem C12_vignette_inner_pixels (F : VideoFilters) (data : List Nat) (intensity radius : ℚ)
    (x y c : Nat) (hd : IsFrame F.width F.height data) (hx : x < F.width) (hy : y < F.height)
    (hc : c < 4) :
    (VideoFilters.centreDistance F.centerX F.centerY x y ≤ F32.mul F.maxDist radius →
      (F.vignette data intensity radius).getD ((y * F.width + x) * 4 + c) 0
        = data.getD ((y * F.width + x) * 4 + c) 0) ∧
    (F.width % 2 = 0 → F.height % 2 = 0 → 0 ≤ radius →
      VideoFilters.centreDistance F.centerX F.centerY (F.width / 2) (F.height / 2) = 0 ∧
      (F.vignette data intensity radius).getD
          ((F.height / 2 * F.width + F.width / 2) * 4 + c) 0
        = data.getD ((F.height / 2 * F.width + F.width / 2) * 4 + c) 0) := by
  constructor
  · intro hle
    apply VideoFilters.vignette_unchanged F data intensity radius hd x y c hx hy hc
    unfold VideoFilters.vignetteFactor
    rw [if_neg (not_lt.mpr hle)]
  · intro hw hh hr
    have h0 := VideoFilters.centreDistance_centre F hw hh (by omega) (by omega)
    refine ⟨h0, ?_⟩
    apply VideoFilters.vignette_unchanged F data intensity radius hd _ _ c (by omega) (by omega) hc
    unfold VideoFilters.vignetteFactor
    rw [h0, if_neg]
    unfold F32.mul
    exact not_lt.mpr (F32.round_nonneg _ (mul_nonneg (VideoFilters.maxDist_nonneg F) hr))

/-- C12, at a 4 x 2 frame with radius one half: pixel `(2, 1)` is the centre
    pixel and lies within the inner region. -/
theorem C12_vignette_inner_pixels_witness :
    IsFrame 4 2 (List.replicate 32 200) ∧
    VideoFilters.centreDistance (VideoFilters.mk 4 2).centerX (VideoFilters.mk 4 2).centerY 2 1
      ≤ F32.mul (VideoFilters.mk 4 2).maxDist (1 / 2) ∧
    ((VideoFilters.mk 4 2).vignette (List.replicate 32 200) 1 (1 / 2)).getD
        ((1 * (VideoFilters.mk 4 2).width + 2) * 4 + 0) 0
      = (List.replicate 32 200).getD ((1 * (VideoFilters.mk 4 2).width + 2) * 4 + 0) 0 ∧
    ((VideoFilters.mk 4 2).vignette (List.replicate 32 200) 1 (1 / 2)).getD
        (((VideoFilters.mk 4 2).height / 2 * (VideoFilters.mk 4 2).width
          + (VideoFilters.mk 4 2).width / 2) * 4 + 0) 0
      = (List.replicate 32 200).getD
        (((VideoFilters.mk 4 2).height / 2 * (VideoFilters.mk 4 2).width
          + (VideoFilters.mk 4 2).width / 2) * 4 + 0) 0 :=
  have h := C12_vignette_inner_pixels (VideoFilters.mk 4 2) (List.replicate 32 200) 1 (1 / 2)
    2 1 0 (by decide) (by decide) (by decide) (by decide)
  ⟨by decide, by decide!, h.1 (by decide!), (h.2 (by decide) (by decide) (by norm_num)).2⟩

/-! ### The chroma key -/

namespace VideoFilters

theorem chromaKeyPixel_length (t : List Nat) (i : Nat) (keyR keyG keyB : Int) (T S sp : ℚ) :
    (chromaKeyPixel t i keyR keyG keyB T S sp).length = t.length := by
  unfold chromaKeyPixel
  simp only []
  split_ifs <;> simp

theorem chromaKeyPixel_other (t : List Nat) (i : Nat) (keyR keyG keyB : Int) (T S sp : ℚ)
    (j : Nat) (hj : ¬ (i ≤ j ∧ j < i + 4)) :
    (chromaKeyPixel t i keyR keyG keyB T S sp).getD j 0 = t.getD j 0 := by
  unfold chromaKeyPixel
  simp only []
  split_ifs
  · rw [getD_set_ne _ _ _ _ (by omega), getD_set_ne _ _ _ _ (by omega)]
  · rw [getD_set_ne _ _ _ _ (by omega), getD_set_ne _ _ _ _ (by omega)]
  · rw [getD_set_ne _ _ _ _ (by omega)]
  · rw [getD_set_ne _ _ _ _ (by omega)]

theorem chromaKeyPixel_local (t p : List Nat) (i : Nat) (keyR keyG keyB : Int) (T S sp : ℚ)
    (hlen : t.length = p.length)
    (hagree : ∀ j, i ≤ j ∧ j < i + 4 → t.getD j 0 = p.getD j 0)
    (j : Nat) (hj : i ≤ j ∧ j < i + 4) :
    (chromaKeyPixel t i keyR keyG keyB T S sp).getD j 0
      = (chromaKeyPixel p i keyR keyG keyB T S sp).getD j 0 := by
  unfold chromaKeyPixel
  simp only []
  rw [hagree i (by omega), hagree (i + 1) (by omega), hagree (i + 2) (by omega)]
  split_ifs
  · exact (set_agree _ _ _ _ _ (set_agree _ _ _ _ _ ⟨hlen, hagree j hj⟩)).2
  · exact (set_agree _ _ _ _ _ (set_agree _ _ _ _ _ ⟨hlen, hagree j hj⟩)).2
  · exact (set_agree _ _ _ _ _ ⟨hlen, hagree j hj⟩).2
  · exact (set_agree _ _ _ _ _ ⟨hlen, hagree j hj⟩).2

/-- The alpha byte the loop body writes. -/
theorem chromaKeyPixel_alpha (p : List Nat) (i : Nat) (keyR keyG keyB : Int) (T S sp : ℚ)
    (hi : i + 3 < p.length) :
    (chromaKeyPixel p i keyR keyG keyB T S sp).getD (i + 3) 0
      = clamp (F32.toInt (F32.mul (keyAlpha (keyDistance (p.getD i 0) (p.getD (i + 1) 0)
          (p.getD (i + 2) 0) keyR keyG keyB) T S) 255)) := by
  unfold chromaKeyPixel
  simp only []
  rw [getD_set_eq, if_pos]
  refine ⟨rfl, ?_⟩
  split_ifs <;> first | (simp only [List.length_set]; omega) | omega

/-- The alpha byte of pixel `k` after `chromaKey`, from the bytes of pixel `k`
    before the call. -/
theorem chromaKey_alpha (F : VideoFilters) (data : List Nat) (keyR keyG keyB : Int)
    (tolerance softness sp : ℚ) (k : Nat) (hlen : data.length = F.width * F.height * 4)
    (hk : k < F.width * F.height) :
    (F.chromaKey data keyR keyG keyB tolerance softness sp).getD (4 * k + 3) 0
      = clamp (F32.toInt (F32.mul (keyAlpha (keyDistance (data.getD (4 * k) 0)
          (data.getD (4 * k + 1) 0) (data.getD (4 * k + 2) 0) keyR keyG keyB)
          (F32.mul tolerance maxRgbDistance) (F32.mul softness maxRgbDistance)) 255)) := by
  unfold chromaKey forStep
  simp only []
  have hn : (F.width * F.height * 4 + 4 - 1) / 4 = F.width * F.height := by omega
  rw [hn]
  rw [pixelwise_loop data (F.width * F.height) (fun k acc => chromaKeyPixel acc (k * 4) keyR keyG
      keyB (F32.mul tolerance maxRgbDistance) (F32.mul softness maxRgbDistance) sp)
    (fun k t => chromaKeyPixel_length _ _ _ _ _ _ _ _)
    (fun k t j hj => chromaKeyPixel_other _ _ _ _ _ _ _ _ j (by omega))
    (fun k t _ ht hagree j hj => chromaKeyPixel_local t data (k * 4) _ _ _ _ _ _ ht
      (fun j hj => hagree j (by omega)) j (by omega))
    k hk (4 * k + 3) (by omega)]
  have e : 4 * k = k * 4 := by ring
  rw [e]
  exact chromaKeyPixel_alpha data (k * 4) _ _ _ _ _ _ (by omega)

theorem alpha_byte_zero : clamp (F32.toInt (F32.mul 0 255)) = 0 := by decide!

theorem alpha_byte_one : clamp (F32.toInt (F32.mul 1 255)) = 255 := by decide!

theorem maxRgbDistance_pos : 0 < maxRgbDistance := by decide!

/-- The scaled softness is not negative when the softness is not. -/
theorem softnessScaled_nonneg (softness : ℚ) (hs : 0 ≤ softness) :
    0 ≤ F32.mul softness maxRgbDistance := by
  unfold F32.mul
  exact F32.round_nonneg _ (mul_nonneg hs (le_of_lt maxRgbDistance_pos))

/-- The computed distance grows with the sum of squares. -/
theorem keyDistance_mono (a b : Int) (h : a ≤ b) :
    F32.round (F32.sqrt64 (a : ℚ)) ≤ F32.round (F32.sqrt64 (b : ℚ)) :=
  F32.round_mono _ _ (F32.sqrt64_mono _ _ (by exact_mod_cast h))

theorem keyDistanceSq_self (r g b : Nat) : keyDistanceSq r g b r g b = 0 := by
  unfold keyDistanceSq
  simp

end VideoFilters

/-- C11: the alpha policy of `chromaKey`. With `T = tolerance * 441.67` and
    `S = softness * 441.67` as the code computes them, and `d` the computed
    distance of pixel `k` from the key colour, the alpha byte of pixel `k`
    becomes 0 when `d < T - S`, 255 when `d ≥ T`, and the truncation of
    `(d - (T - S)) / S * 255` (passed through `clamp`) otherwise. With
    tolerance `0.2f` and softness `0.1f` a pixel equal to the key colour gets
    alpha 0 and a pixel farther than `0.2 * 441.67` from it gets alpha 255,
    whether the distance is the exact one or the computed one. -/
theorem C11_chromaKey_alpha_policy (F : VideoFilters) (data : List Nat) (keyR keyG keyB : Int)
    (tolerance softness spill : ℚ) (k : Nat) (hd : IsFrame F.width F.height data)
    (hk : k < F.width * F.height) (hs : 0 ≤ softness) :
    (VideoFilters.keyDistance (data.getD (4 * k) 0) (data.getD (4 * k + 1) 0)
          (data.getD (4 * k + 2) 0) keyR keyG keyB
        < F32.sub (F32.mul tolerance VideoFilters.maxRgbDistance)
            (F32.mul softness VideoFilters.maxRgbDistance) →
      (F.chromaKey data keyR keyG keyB tolerance softness spill).getD (4 * k + 3) 0 = 0) ∧
    (F32.mul tolerance VideoFilters.maxRgbDistance
        ≤ VideoFilters.keyDistance (data.getD (4 * k) 0) (data.getD (4 * k + 1) 0)
          (data.getD (4 * k + 2) 0) keyR keyG keyB →
      (F.chromaKey data keyR keyG keyB tolerance softness spill).getD (4 * k + 3) 0 = 255) ∧
    (F32.sub (F32.mul tolerance VideoFilters.maxRgbDistance)
          (F32.mul softness VideoFilters.maxRgbDistance)
        ≤ VideoFilters.keyDistance (data.getD (4 * k) 0) (data.getD (4 * k + 1) 0)
          (data.getD (4 * k + 2) 0) keyR keyG keyB →
      VideoFilters.keyDistance (data.getD (4 * k) 0) (data.getD (4 * k + 1) 0)
          (data.getD (4 * k + 2) 0) keyR keyG keyB
        < F32.mul tolerance VideoFilters.maxRgbDistance →
      (F.chromaKey data keyR keyG keyB tolerance softness spill).getD (4 * k + 3) 0
        = VideoFilters.clamp (F32.toInt (F32.mul (F32.div
            (F32.sub (VideoFilters.keyDistance (data.getD (4 * k) 0) (data.getD (4 * k + 1) 0)
                (data.getD (4 * k + 2) 0) keyR keyG keyB)
              (F32.sub (F32.mul tolerance VideoFilters.maxRgbDistance)
                (F32.mul softness VideoFilters.maxRgbDistance)))
            (F32.mul softness VideoFilters.maxRgbDistance)) 255))) ∧
    (((data.getD (4 * k) 0 : Nat) : Int) = keyR → ((data.getD (4 * k + 1) 0 : Nat) : Int) = keyG →
      ((data.getD (4 * k + 2) 0 : Nat) : Int) = keyB →
      (F.chromaKey data keyR keyG keyB (F32.round (1 / 5)) (F32.round (1 / 10)) spill).getD
        (4 * k + 3) 0 = 0) ∧
    ((2 / 10 * (44167 / 100) : ℚ) ^ 2
        < ((VideoFilters.keyDistanceSq (data.getD (4 * k) 0) (data.getD (4 * k + 1) 0)
          (data.getD (4 * k + 2) 0) keyR keyG keyB : Int) : ℚ) →
      (F.chromaKey data keyR keyG keyB (F32.round (1 / 5)) (F32.round (1 / 10)) spill).getD
        (4 * k + 3) 0 = 255) ∧
    ((2 / 10 * (44167 / 100) : ℚ)
        < VideoFilters.keyDistance (data.getD (4 * k) 0) (data.getD (4 * k + 1) 0)
          (data.getD (4 * k + 2) 0) keyR keyG keyB →
      (F.chromaKey data keyR keyG keyB (F32.round (1 / 5)) (F32.round (1 / 10)) spill).getD
        (4 * k + 3) 0 = 255) := by
  have hT : F32.mul (F32.round (1 / 5)) VideoFilters.maxRgbDistance = 11578115 / 131072 := by
    decide!
  have hTS : F32.sub (F32.mul (F32.round (1 / 5)) VideoFilters.maxRgbDistance)
      (F32.mul (F32.round (1 / 10)) VideoFilters.maxRgbDistance) = 11578115 / 262144 := by
    decide!
  have hfar : F32.round (F32.sqrt64 ((7803 : Int) : ℚ)) = 723637 / 8192 := by decide!
  have hnear : F32.round (F32.sqrt64 ((7802 : Int) : ℚ)) = 5788725 / 65536 := by decide!
  have hfar2 : ∀ n : Int, 7803 ≤ n →
      (11578115 / 131072 : ℚ) ≤ F32.round (F32.sqrt64 (n : ℚ)) := by
    intro n hn
    have := VideoFilters.keyDistance_mono 7803 n hn
    rw [hfar] at this
    refine le_trans ?_ this
    norm_num
  refine ⟨?_, ?_, ?_, ?_, ?_, ?_⟩
  · intro h
    rw [VideoFilters.chromaKey_alpha F data keyR keyG keyB tolerance softness spill k hd.1 hk]
    have hle := F32.sub_le_self (F32.mul tolerance VideoFilters.maxRgbDistance)
      (F32.mul softness VideoFilters.maxRgbDistance) (tolerance * VideoFilters.maxRgbDistance) rfl
      (VideoFilters.softnessScaled_nonneg softness hs)
    unfold VideoFilters.keyAlpha
    rw [if_pos (lt_of_lt_of_le h hle), if_pos h]
    exact VideoFilters.alpha_byte_zero
  · intro h
    rw [VideoFilters.chromaKey_alpha F data keyR keyG keyB tolerance softness spill k hd.1 hk]
    unfold VideoFilters.keyAlpha
    rw [if_neg (not_lt.mpr h)]
    exact VideoFilters.alpha_byte_one
  · intro h1 h2
    rw [VideoFilters.chromaKey_alpha F data keyR keyG keyB tolerance softness spill k hd.1 hk]
    unfold VideoFilters.keyAlpha
    rw [if_pos h2, if_neg (not_lt.mpr h1)]
  · intro e1 e2 e3
    rw [VideoFilters.chromaKey_alpha F data keyR keyG keyB _ _ spill k hd.1 hk]
    have hd0 : VideoFilters.keyDistance (data.getD (4 * k) 0) (data.getD (4 * k + 1) 0)
        (data.getD (4 * k + 2) 0) keyR keyG keyB = 0 := by
      rw [← e1, ← e2, ← e3]
      unfold VideoFilters.keyDistance
      rw [VideoFilters.keyDistanceSq_self]
      decide!
    unfold VideoFilters.keyAlpha
    rw [hd0, hTS, hT, if_pos (by norm_num), if_pos (by norm_num)]
    exact VideoFilters.alpha_byte_zero
  · intro h
    rw [VideoFilters.chromaKey_alpha F data keyR keyG keyB _ _ spill k hd.1 hk]
    have hn : (7803 : Int) ≤ VideoFilters.keyDistanceSq (data.getD (4 * k) 0)
        (data.getD (4 * k + 1) 0) (data.getD (4 * k + 2) 0) keyR keyG keyB := by
      by_contra hcon
      have h2 : VideoFilters.keyDistanceSq (data.getD (4 * k) 0)
        (data.getD (4 * k + 1) 0) (data.getD (4 * k + 2) 0) keyR keyG keyB ≤ 7802 := by omega
      have h3 : ((VideoFilters.keyDistanceSq (data.getD (4 * k) 0)
        (data.getD (4 * k + 1) 0) (data.getD (4 * k + 2) 0) keyR keyG keyB : Int) : ℚ)
          ≤ ((7802 : Int) : ℚ) := by exact_mod_cast h2
      norm_num at h h3
      linarith
    unfold VideoFilters.keyAlpha VideoFilters.keyDistance
    rw [hT, if_neg (not_lt.mpr (hfar2 _ hn))]
    exact VideoFilters.alpha_byte_one
  · intro h
    rw [VideoFilters.chromaKey_alpha F data keyR keyG keyB _ _ spill k hd.1 hk]
    have hn : (7803 : Int) ≤ VideoFilters.keyDistanceSq (data.getD (4 * k) 0)
        (data.getD (4 * k + 1) 0) (data.getD (4 * k + 2) 0) keyR keyG keyB := by
      by_contra hcon
      have h2 : VideoFilters.keyDistanceSq (data.getD (4 * k) 0)
        (data.getD (4 * k + 1) 0) (data.getD (4 * k + 2) 0) keyR keyG keyB ≤ 7802 := by omega
      have h3 := VideoFilters.keyDistance_mono _ 7802 h2
      rw [hnear] at h3
      unfold VideoFilters.keyDistance at h
      have h4 : (5788725 / 65536 : ℚ) < 2 / 10 * (44167 / 100) := by norm_num
      linarith
    unfold VideoFilters.keyAlpha VideoFilters.keyDistance
    rw [hT, if_neg (not_lt.mpr (hfar2 _ hn))]
    exact VideoFilters.alpha_byte_one

/-- C11, at a 2 x 1 frame with key colour green, tolerance `0.2f` and softness
    `0.1f`: pixel 0 is the key colour, pixel 1 is red. -/
theorem C11_chromaKey_alpha_policy_witness :
    IsFrame 2 1 [0, 255, 0, 255, 255, 0, 0, 255] ∧ (0 : ℚ) ≤ F32.round (1 / 10) ∧
    ((VideoFilters.mk 2 1).chromaKey [0, 255, 0, 255, 255, 0, 0, 255] 0 255 0
      (F32.round (1 / 5)) (F32.round (1 / 10)) 0).getD (4 * 0 + 3) 0 = 0 ∧
    ((VideoFilters.mk 2 1).chromaKey [0, 255, 0, 255, 255, 0, 0, 255] 0 255 0
      (F32.round (1 / 5)) (F32.round (1 / 10)) 0).getD (4 * 1 + 3) 0 = 255 :=
  ⟨by decide, by decide!,
    (C11_chromaKey_alpha_policy (VideoFilters.mk 2 1) [0, 255, 0, 255, 255, 0, 0, 255] 0 255 0
      (F32.round (1 / 5)) (F32.round (1 / 10)) 0 0 (by decide) (by decide)
      (by decide!)).2.2.2.1 (by decide) (by decide) (by decide),
    (C11_chromaKey_alpha_policy (VideoFilters.mk 2 1) [0, 255, 0, 255, 255, 0, 0, 255] 0 255 0
      (F32.round (1 / 5)) (F32.round (1 / 10)) 0 1 (by decide) (by decide)
      (by decide!)).2.2.2.2.1 (by decide!)⟩

/-! ### LUT grading at intensity zero -/

namespace F32

theorem round_two_pow (k : Nat) : round ((2 : ℚ) ^ k) = (2 : ℚ) ^ k := by
  have two_ne : (2 : ℚ) ≠ 0 := by norm_num
  have hpos : (0 : ℚ) < (2 : ℚ) ^ k := by positivity
  have hlog : ilog2 ((2 : ℚ) ^ k) = (k : Int) := by
    apply ilog2_unique
    · rw [zpow_natCast]
    · rw [← zpow_natCast]
      exact zpow_lt_zpow_right₀ (by norm_num) (by omega)
  apply round_eq_self _ hpos (2 ^ 23)
  rw [hlog, max_eq_left (by omega), ← zpow_natCast, ← zpow_sub₀ two_ne]
  have : (k : Int) - ((k : Int) - 23) = ((23 : Nat) : Int) := by push_cast; ring
  rw [this, zpow_natCast]
  norm_num

/-- Rounding keeps a value within a power of two. -/
theorem abs_round_le (q : ℚ) (k : Nat) (h : |q| ≤ (2 : ℚ) ^ k) : |round q| ≤ (2 : ℚ) ^ k := by
  rw [abs_le] at h ⊢
  constructor
  · have := round_mono _ _ h.1
    rw [round_neg, round_two_pow] at this
    exact this
  · have := round_mono _ _ h.2
    rw [round_two_pow] at this
    exact this

theorem two_pow_le_maxFinite (k : Nat) (hk : k ≤ 127) : (2 : ℚ) ^ k ≤ maxFinite := by
  have h1 : (2 : ℚ) ^ k ≤ (2 : ℚ) ^ 127 := pow_le_pow_right₀ (by norm_num) hk
  have h2 : (2 : ℚ) ^ 127 ≤ maxFinite := by unfold maxFinite; norm_num
  exact le_trans h1 h2

/-- A rounded result within `2 ^ k`, `k ≤ 127`, is finite. -/
theorem finiteWithin_round (q : ℚ) (k : Nat) (hk : k ≤ 127) (h : |q| ≤ (2 : ℚ) ^ k) :
    FiniteWithin k (fin (round q)) := by
  have hr := abs_round_le q k h
  refine ⟨round q, ?_, hr⟩
  unfold fin
  rw [if_pos (le_trans hr (two_pow_le_maxFinite k hk))]

theorem FiniteWithin.const (k : Nat) (x : ℚ) (h : |x| ≤ (2 : ℚ) ^ k) : FiniteWithin k (some x) :=
  ⟨x, rfl, h⟩

theorem FiniteWithin.addE (i j k : Nat) (a b : Option ℚ) (hi : i < k) (hj : j < k)
    (hk : k ≤ 127) (ha : FiniteWithin i a) (hb : FiniteWithin j b) :
    FiniteWithin k (F32.addE a b) := by
  obtain ⟨x, rfl, hx⟩ := ha
  obtain ⟨y, rfl, hy⟩ := hb
  apply finiteWithin_round _ k hk
  have h1 : (2 : ℚ) ^ i ≤ (2 : ℚ) ^ (k - 1) := pow_le_pow_right₀ (by norm_num) (by omega)
  have h2 : (2 : ℚ) ^ j ≤ (2 : ℚ) ^ (k - 1) := pow_le_pow_right₀ (by norm_num) (by omega)
  have h3 : (2 : ℚ) ^ k = 2 * (2 : ℚ) ^ (k - 1) := by
    rw [← pow_succ']; congr 1; omega
  calc |x + y| ≤ |x| + |y| := abs_add x y
    _ ≤ (2 : ℚ) ^ k := by linarith

theorem FiniteWithin.subE (i j k : Nat) (a b : Option ℚ) (hi : i < k) (hj : j < k)
    (hk : k ≤ 127) (ha : FiniteWithin i a) (hb : FiniteWithin j b) :
    FiniteWithin k (F32.subE a b) := by
  obtain ⟨x, rfl, hx⟩ := ha
  obtain ⟨y, rfl, hy⟩ := hb
  apply finiteWithin_round _ k hk
  have h1 : (2 : ℚ) ^ i ≤ (2 : ℚ) ^ (k - 1) := pow_le_pow_right₀ (by norm_num) (by omega)
  have h2 : (2 : ℚ) ^ j ≤ (2 : ℚ) ^ (k - 1) := pow_le_pow_right₀ (by norm_num) (by omega)
  have h3 : (2 : ℚ) ^ k = 2 * (2 : ℚ) ^ (k - 1) := by
    rw [← pow_succ']; congr 1; omega
  calc |x - y| ≤ |x| + |y| := abs_sub x y
    _ ≤ (2 : ℚ) ^ k := by linarith

theorem FiniteWithin.mulE (i j k : Nat) (a b : Option ℚ) (hij : i + j ≤ k)
    (hk : k ≤ 127) (ha : FiniteWithin i a) (hb : FiniteWithin j b) :
    FiniteWithin k (F32.mulE a b) := by
  obtain ⟨x, rfl, hx⟩ := ha
  obtain ⟨y, rfl, hy⟩ := hb
  apply finiteWithin_round _ k hk
  rw [abs_mul]
  calc |x| * |y| ≤ (2 : ℚ) ^ i * (2 : ℚ) ^ j :=
        mul_le_mul hx hy (abs_nonneg y) (by positivity)
    _ = (2 : ℚ) ^ (i + j) := by rw [pow_add]
    _ ≤ (2 : ℚ) ^ k := pow_le_pow_right₀ (by norm_num) hij

theorem FiniteWithin.divE (i : Nat) (a : Option ℚ) (y : ℚ) (hy : 1 ≤ |y|)
    (hi : i ≤ 127) (ha : FiniteWithin i a) : FiniteWithin i (F32.divE a y) := by
  obtain ⟨x, rfl, hx⟩ := ha
  apply finiteWithin_round _ i hi
  rw [abs_div]
  calc |x| / |y| ≤ |x| := div_le_self (abs_nonneg x) hy
    _ ≤ (2 : ℚ) ^ i := hx

end F32

namespace VideoFilters

theorem lutContrast_finite (i : Nat) (v : Option ℚ) (c : ℚ) (hi : 1 ≤ i) (hi2 : i ≤ 40)
    (hv : F32.FiniteWithin i v) (hc : |c| ≤ (2 : ℚ) ^ 20) :
    F32.FiniteWithin (i + 30) (lutContrast v c) := by
  unfold lutContrast
  have h1 := F32.FiniteWithin.divE i v 255 (by norm_num) (by omega) hv
  have h2 := F32.FiniteWithin.subE i 0 (i + 1) _ _ (by omega) (by omega) (by omega) h1
    (F32.FiniteWithin.const 0 (1 / 2) (by norm_num [abs_of_pos]))
  have h3 := F32.FiniteWithin.mulE (i + 1) 20 (i + 21) _ _ (by omega) (by omega) h2
    (F32.FiniteWithin.const 20 c hc)
  have h4 := F32.FiniteWithin.addE (i + 21) 0 (i + 22) _ _ (by omega) (by omega) (by omega) h3
    (F32.FiniteWithin.const 0 (1 / 2) (by norm_num [abs_of_pos]))
  exact F32.FiniteWithin.mulE (i + 22) 8 (i + 30) _ _ (by omega) (by omega) h4
    (F32.FiniteWithin.const 8 255 (by norm_num [abs_of_pos]))

theorem lutSaturate_finite (i : Nat) (v gray : Option ℚ) (s : ℚ) (hi : i ≤ 80)
    (hv : F32.FiniteWithin i v) (hg : F32.FiniteWithin i gray) (hs : |s| ≤ (2 : ℚ) ^ 20) :
    F32.FiniteWithin (i + 22) (lutSaturate v gray s) := by
  unfold lutSaturate
  have h1 := F32.FiniteWithin.subE i i (i + 1) _ _ (by omega) (by omega) (by omega) hv hg
  have h2 := F32.FiniteWithin.mulE 20 (i + 1) (i + 21) _ _ (by omega) (by omega)
    (F32.FiniteWithin.const 20 s hs) h1
  exact F32.FiniteWithin.addE i (i + 21) (i + 22) _ _ (by omega) (by omega) (by omega) hg h2

theorem FiniteWithin.mono (i k : Nat) (a : Option ℚ) (hik : i ≤ k) (ha : F32.FiniteWithin i a) :
    F32.FiniteWithin k a := by
  obtain ⟨x, rfl, hx⟩ := ha
  exact ⟨x, rfl, le_trans hx (pow_le_pow_right₀ (by norm_num) hik)⟩

theorem byte_finite (a : Nat) (ha : a < 256) : F32.FiniteWithin 8 (some (a : ℚ)) := by
  apply F32.FiniteWithin.const
  rw [abs_of_nonneg (by positivity)]
  have : (a : ℚ) ≤ 256 := by exact_mod_cast (le_of_lt ha)
  linarith

/-- Within `2 ^ 20` in every parameter, the graded channel values are finite. -/
theorem lutGraded_finite (oR oG oB : Nat) (t w c s : ℚ) (hR : oR < 256) (hG : oG < 256)
    (hB : oB < 256) (ht : |t| ≤ (2 : ℚ) ^ 20) (hw : |w| ≤ (2 : ℚ) ^ 20)
    (hc : |c| ≤ (2 : ℚ) ^ 20) (hs : |s| ≤ (2 : ℚ) ^ 20) :
    (∃ x, (lutGraded oR oG oB t w c s).1 = some x) ∧
    (∃ x, (lutGraded oR oG oB t w c s).2.1 = some x) ∧
    (∃ x, (lutGraded oR oG oB t w c s).2.2 = some x) := by
  have t50 := F32.FiniteWithin.mulE 20 6 26 _ _ (by omega) (by omega)
    (F32.FiniteWithin.const 20 t ht) (F32.FiniteWithin.const 6 50 (by norm_num [abs_of_pos]))
  have w30 := F32.FiniteWithin.mulE 20 6 26 _ _ (by omega) (by omega)
    (F32.FiniteWithin.const 20 w hw) (F32.FiniteWithin.const 6 30 (by norm_num [abs_of_pos]))
  have w15 := F32.FiniteWithin.mulE 20 6 26 _ _ (by omega) (by omega)
    (F32.FiniteWithin.const 20 w hw) (F32.FiniteWithin.const 6 15 (by norm_num [abs_of_pos]))
  have r1 := F32.FiniteWithin.addE 8 26 27 _ _ (by omega) (by omega) (by omega)
    (byte_finite oR hR) t50
  have b1 := F32.FiniteWithin.subE 8 26 27 _ _ (by omega) (by omega) (by omega)
    (byte_finite oB hB) t50
  have r2 := F32.FiniteWithin.addE 27 26 28 _ _ (by omega) (by omega) (by omega) r1 w30
  have g1 := F32.FiniteWithin.addE 8 26 27 _ _ (by omega) (by omega) (by omega)
    (byte_finite oG hG) w15
  have r3 := lutContrast_finite 28 _ c (by omega) (by omega) r2 hc
  have g3 := FiniteWithin.mono _ 58 _ (by omega) (lutContrast_finite 27 _ c (by omega) (by omega) g1 hc)
  have b3 := FiniteWithin.mono _ 58 _ (by omega) (lutContrast_finite 27 _ c (by omega) (by omega) b1 hc)
  have k1 : |F32.round (2989 / 10000)| ≤ (2 : ℚ) ^ 0 :=
    F32.abs_round_le _ 0 (by norm_num [abs_of_pos])
  have k2 : |F32.round (5870 / 10000)| ≤ (2 : ℚ) ^ 0 :=
    F32.abs_round_le _ 0 (by norm_num [abs_of_pos])
  have k3 : |F32.round (1140 / 10000)| ≤ (2 : ℚ) ^ 0 :=
    F32.abs_round_le _ 0 (by norm_num [abs_of_pos])
  have gr := F32.FiniteWithin.mulE 0 58 58 _ _ (by omega) (by omega)
    (F32.FiniteWithin.const 0 _ k1) r3
  have gg := F32.FiniteWithin.mulE 0 58 58 _ _ (by omega) (by omega)
    (F32.FiniteWithin.const 0 _ k2) g3
  have gb := F32.FiniteWithin.mulE 0 58 58 _ _ (by omega) (by omega)
    (F32.FiniteWithin.const 0 _ k3) b3
  have gray1 := F32.FiniteWithin.addE 58 58 59 _ _ (by omega) (by omega) (by omega) gr gg
  have gray := F32.FiniteWithin.addE 59 58 60 _ _ (by omega) (by omega) (by omega) gray1 gb
  have r4 := lutSaturate_finite 60 _ _ s (by omega) (FiniteWithin.mono _ 60 _ (by omega) r3) gray hs
  have g4 := lutSaturate_finite 60 _ _ s (by omega) (FiniteWithin.mono _ 60 _ (by omega) g3) gray hs
  have b4 := lutSaturate_finite 60 _ _ s (by omega) (FiniteWithin.mono _ 60 _ (by omega) b3) gray hs
  obtain ⟨x, hx, _⟩ := r4
  obtain ⟨y, hy, _⟩ := g4
  obtain ⟨z, hz, _⟩ := b4
  exact ⟨⟨x, hx⟩, ⟨y, hy⟩, ⟨z, hz⟩⟩

/-- At intensity zero the blend of a finite value with a byte is the byte. -/
theorem lutBlend_zero (x : ℚ) (orig : Nat) (ho : orig < 256) :
    lutBlend (some x) orig 0 = some orig := by
  unfold lutBlend F32.mulE F32.subE F32.addE
  have e0 : F32.fin (F32.round (x * 0)) = some 0 := by
    rw [mul_zero, F32.round_zero]; decide!
  have e1 : F32.fin (F32.round (1 - 0)) = some 1 := by decide!
  simp only [e0, e1]
  have ho2 : (orig : ℚ) ≤ 256 := by exact_mod_cast (le_of_lt ho)
  have e2 : F32.fin (F32.round ((orig : ℚ) * 1)) = some (orig : ℚ) := by
    rw [mul_one, F32.round_natCast orig (by omega)]
    unfold F32.fin
    rw [if_pos]
    rw [abs_of_nonneg (by positivity)]
    unfold F32.maxFinite
    norm_num
    linarith
  simp only [e2]
  have e3 : F32.fin (F32.round (0 + (orig : ℚ))) = some (orig : ℚ) := by
    rw [zero_add]
    rw [mul_one] at e2
    exact e2
  simp only [e3]
  have ht : F32.trunc (orig : ℚ) = (orig : Int) := by exact_mod_cast F32.trunc_intCast (orig : Int)
  unfold F32.toIntE
  simp only [ht]
  rw [if_pos (by constructor <;> omega)]
  simp only [Option.map_some']
  congr 1
  unfold clamp
  omega

/-- At intensity zero a blend that has a result has the byte as result. -/
theorem lutBlend_zero_some (v : Option ℚ) (orig r8 : Nat) (ho : orig < 256)
    (h : lutBlend v orig 0 = some r8) : r8 = orig := by
  cases v with
  | none =>
    unfold lutBlend F32.mulE at h
    simp [F32.addE, F32.toIntE] at h
  | some x =>
    rw [lutBlend_zero x orig ho] at h
    exact (Option.some.inj h).symm

theorem writeRGB_self (p : List Nat) (i : Nat) :
    writeRGB p i (p.getD i 0) (p.getD (i + 1) 0) (p.getD (i + 2) 0) = p := by
  have hset : ∀ (q : List Nat) (j : Nat), q.set j (q.getD j 0) = q := by
    intro q j
    apply List.ext_getElem
    · simp
    · intro n h1 h2
      rw [List.getElem_set]
      split
      · next h => subst h; rw [List.getD_eq_getElem q 0 h2]
      · rfl
  unfold writeRGB
  rw [hset p i, hset p (i + 1), hset p (i + 2)]

/-- At intensity zero one pixel's iteration either has no result or leaves
    the buffer as it is. -/
theorem lutPixel_zero (data : List Nat) (i : Nat) (t w c s : ℚ) (hb : ∀ j, data.getD j 0 < 256) :
    lutPixel data i t w c s 0 = none ∨ lutPixel data i t w c s 0 = some data := by
  unfold lutPixel
  simp only []
  split
  · next r8 g8 b8 h1 h2 h3 =>
    right
    rw [lutBlend_zero_some _ _ _ (hb _) h1, lutBlend_zero_some _ _ _ (hb _) h2,
      lutBlend_zero_some _ _ _ (hb _) h3, writeRGB_self]
  · left; rfl

/-- At intensity zero, parameters within `2 ^ 20`: one pixel's iteration
    leaves the buffer as it is. -/
theorem lutPixel_zero_bounded (data : List Nat) (i : Nat) (t w c s : ℚ)
    (hb : ∀ j, data.getD j 0 < 256) (ht : |t| ≤ (2 : ℚ) ^ 20) (hw : |w| ≤ (2 : ℚ) ^ 20)
    (hc : |c| ≤ (2 : ℚ) ^ 20) (hs : |s| ≤ (2 : ℚ) ^ 20) :
    lutPixel data i t w c s 0 = some data := by
  obtain ⟨⟨x, hx⟩, ⟨y, hy⟩, ⟨z, hz⟩⟩ := lutGraded_finite (data.getD i 0) (data.getD (i + 1) 0)
    (data.getD (i + 2) 0) t w c s (hb _) (hb _) (hb _) ht hw hc hs
  unfold lutPixel
  simp only []
  rw [hx, hy, hz, lutBlend_zero x _ (hb _), lutBlend_zero y _ (hb _), lutBlend_zero z _ (hb _)]
  show some (writeRGB data i (data.getD i 0) (data.getD (i + 1) 0) (data.getD (i + 2) 0))
    = some data
  rw [writeRGB_self]

end VideoFilters

/-- C20, as the code has it: at intensity 0 `applyLUT` leaves every byte of a
    frame unchanged whenever the call has a defined result, and it has one
    (the unchanged buffer) whenever temperature, warmth, contrastAdj and
    saturationAdj are at most `2 ^ 20` in magnitude. -/
theorem C20_applyLUT_zero_intensity (F : VideoFilters) (data : List Nat) (t w c s : ℚ)
    (hd : IsFrame F.width F.height data) :
    (∀ out, F.applyLUT data t w c s 0 = some out → out = data) ∧
    (|t| ≤ (2 : ℚ) ^ 20 → |w| ≤ (2 : ℚ) ^ 20 → |c| ≤ (2 : ℚ) ^ 20 → |s| ≤ (2 : ℚ) ^ 20 →
      F.applyLUT data t w c s 0 = some data) := by
  constructor
  · intro out hout
    have hinv : F.applyLUT data t w c s 0 = none ∨ F.applyLUT data t w c s 0 = some data := by
      unfold VideoFilters.applyLUT forStep
      apply forLoop_induction (fun st : Option (List Nat) => st = none ∨ st = some data)
      · right; rfl
      · intro i _ _ st hst
        rcases hst with rfl | rfl
        · left; rfl
        · exact VideoFilters.lutPixel_zero data _ t w c s (fun j => hd.getD_lt j)
    rcases hinv with h | h
    · rw [h] at hout; cases hout
    · rw [h] at hout; exact (Option.some.inj hout).symm
  · intro ht hw hc hs
    unfold VideoFilters.applyLUT forStep
    apply forLoop_induction (fun st : Option (List Nat) => st = some data)
    · rfl
    · intro i _ _ st hst
      subst hst
      exact VideoFilters.lutPixel_zero_bounded data _ t w c s (fun j => hd.getD_lt j) ht hw hc hs

/-- C20, at a 2 x 1 frame with parameters of ordinary size. -/
theorem C20_applyLUT_zero_intensity_witness :
    (⟨2, 1⟩ : VideoFilters).applyLUT [10, 20, 30, 255, 40, 50, 60, 255] (1 / 2) (1 / 4) 2 (3 / 2) 0
      = some [10, 20, 30, 255, 40, 50, 60, 255] :=
  (C20_applyLUT_zero_intensity ⟨2, 1⟩ [10, 20, 30, 255, 40, 50, 60, 255] (1 / 2) (1 / 4) 2 (3 / 2)
    (by decide)).2 (by norm_num [abs_of_pos]) (by norm_num [abs_of_pos])
    (by norm_num [abs_of_pos]) (by norm_num [abs_of_pos])

/-- C20, counterexample: the finite temperature `2 ^ 127` makes
    `temperature * 50` overflow, the red channel is not finite any more, and
    at intensity 0 its blend is a NaN; the conversion to `int` has no defined
    result, so the call does not leave the buffer unchanged. -/
theorem C20_applyLUT_overflow_counterexample :
    IsFrame 1 1 [10, 20, 30, 255] ∧ |(2 : ℚ) ^ 127| ≤ F32.maxFinite ∧
    (⟨1, 1⟩ : VideoFilters).applyLUT [10, 20, 30, 255] (2 ^ 127) 0 1 1 0 = none := by
  refine ⟨by decide, by decide!, by decide!⟩

/-! ### The wipes mirror each other -/

namespace VideoTransitions

/-- Selecting with the frames exchanged and the test negated changes nothing. -/
theorem selectFrames_swap (T : VideoTransitions) (frame1 frame2 : List Nat)
    (test test2 : Nat → Nat → Bool) (h : ∀ x y, test2 x y = ! test x y) :
    selectFrames T frame1 frame2 test = selectFrames T frame2 frame1 test2 := by
  unfold selectFrames
  simp only []
  apply forLoop_congr
  intro y _ _ out
  apply forLoop_congr
  intro x _ _ out
  rw [h x y]
  cases test x y <;> rfl

end VideoTransitions

/-- C22: `wipeRight` is the mirror of `wipeLeft`. For all dimensions, frames
    and progress values `p`, `wipeRight(frame1, frame2, p)` is the same buffer
    as `wipeLeft(frame2, frame1, 1.0f - p)`, the float difference being the
    argument; where `1 - p` is itself a binary32 value it is that argument. -/
theorem C22_wipeRight_mirrors_wipeLeft (T : VideoTransitions) (frame1 frame2 : List Nat)
    (p : ℚ) :
    T.wipeRight frame1 frame2 p = T.wipeLeft frame2 frame1 (F32.sub 1 p) ∧
    (F32.IsF32 (1 - p) → T.wipeRight frame1 frame2 p = T.wipeLeft frame2 frame1 (1 - p)) := by
  have key : T.wipeRight frame1 frame2 p = T.wipeLeft frame2 frame1 (F32.sub 1 p) := by
    unfold VideoTransitions.wipeRight VideoTransitions.wipeLeft VideoTransitions.wipeLeftPosition
    apply VideoTransitions.selectFrames_swap
    intro x y
    by_cases h : (x : Int) < F32.toInt (F32.mul (F32.ofInt T.width) (F32.sub 1 p))
    · simp [h]
    · simp [h, not_lt.mp h]
  refine ⟨key, ?_⟩
  intro hf
  have e : F32.sub 1 p = 1 - p := hf
  rw [key, e]

/-- C22, at a 2 x 1 frame and progress one quarter; `0.75` is a binary32
    value. -/
theorem C22_wipeRight_mirrors_wipeLeft_witness :
    F32.IsF32 (1 - 1 / 4) ∧
    (VideoTransitions.mk 2 1).wipeRight [1, 2, 3, 4, 5, 6, 7, 8] [9, 10, 11, 12, 13, 14, 15, 16]
        (1 / 4)
      = (VideoTransitions.mk 2 1).wipeLeft [9, 10, 11, 12, 13, 14, 15, 16] [1, 2, 3, 4, 5, 6, 7, 8]
        (1 - 1 / 4) :=
  ⟨by decide!, (C22_wipeRight_mirrors_wipeLeft (VideoTransitions.mk 2 1) [1, 2, 3, 4, 5, 6, 7, 8]
    [9, 10, 11, 12, 13, 14, 15, 16] (1 / 4)).2 (by decide!)⟩

/-! ### The ramp of the chroma key never divides by zero -/

namespace VideoFilters

/-- Whenever the ramp branch of the alpha computation is taken, the divisor
    is positive. -/
theorem ramp_divisor_pos (tolerance softness d : ℚ)
    (h1 : d < F32.mul tolerance maxRgbDistance)
    (h2 : ¬ d < F32.sub (F32.mul tolerance maxRgbDistance) (F32.mul softness maxRgbDistance)) :
    0 < F32.mul softness maxRgbDistance ∧ 0 < softness := by
  have hS : 0 < F32.mul softness maxRgbDistance := by
    by_contra hcon
    have hle : F32.mul softness maxRgbDistance ≤ 0 := not_lt.mp hcon
    have hT : F32.round (F32.mul tolerance maxRgbDistance) = F32.mul tolerance maxRgbDistance := by
      unfold F32.mul; exact F32.round_round _
    have : F32.mul tolerance maxRgbDistance
        ≤ F32.sub (F32.mul tolerance maxRgbDistance) (F32.mul softness maxRgbDistance) := by
      have h := F32.round_mono (F32.mul tolerance maxRgbDistance)
        (F32.mul tolerance maxRgbDistance - F32.mul softness maxRgbDistance) (by linarith)
      rw [hT] at h
      exact h
    exact h2 (lt_of_lt_of_le h1 this)
  refine ⟨hS, ?_⟩
  by_contra hcon
  have hle : softness ≤ 0 := not_lt.mp hcon
  have : F32.mul softness maxRgbDistance ≤ 0 := by
    unfold F32.mul
    exact F32.round_nonpos _ (mul_nonpos_of_nonpos_of_nonneg hle (le_of_lt maxRgbDistance_pos))
  linarith

/-- With softness zero the alpha value is 0 or 1. -/
theorem keyAlpha_softness_zero (tolerance d : ℚ) :
    keyAlpha d (F32.mul tolerance maxRgbDistance) (F32.mul 0 maxRgbDistance)
      = if d < F32.mul tolerance maxRgbDistance then 0 else 1 := by
  have hS : F32.mul 0 maxRgbDistance = 0 := by
    unfold F32.mul; rw [zero_mul, F32.round_zero]
  have hT : F32.sub (F32.mul tolerance maxRgbDistance) 0 = F32.mul tolerance maxRgbDistance := by
    unfold F32.sub F32.mul; rw [sub_zero, F32.round_round]
  unfold keyAlpha
  rw [hS, hT]
  split_ifs <;> rfl

end VideoFilters

/-- C24: in `chromaKey` the ramp, which divides by the scaled softness, is
    evaluated only with a positive divisor: whenever a pixel's distance `d`
    takes the ramp branch (`d < T` and not `d < T - S`), `S` and the softness
    are positive, for every tolerance and softness. For softness 0 and every
    tolerance the alpha value is 0 or 1 without a division, and every pixel's
    alpha byte is 0 (when `d < T`) or 255. -/
theorem C24_chromaKey_ramp_divisor (F : VideoFilters) (data : List Nat) (keyR keyG keyB : Int)
    (tolerance softness spill : ℚ) (k : Nat) (hd : IsFrame F.width F.height data)
    (hk : k < F.width * F.height) :
    (VideoFilters.keyDistance (data.getD (4 * k) 0) (data.getD (4 * k + 1) 0)
          (data.getD (4 * k + 2) 0) keyR keyG keyB
        < F32.mul tolerance VideoFilters.maxRgbDistance →
      ¬ VideoFilters.keyDistance (data.getD (4 * k) 0) (data.getD (4 * k + 1) 0)
          (data.getD (4 * k + 2) 0) keyR keyG keyB
        < F32.sub (F32.mul tolerance VideoFilters.maxRgbDistance)
            (F32.mul softness VideoFilters.maxRgbDistance) →
      0 < F32.mul softness VideoFilters.maxRgbDistance ∧ 0 < softness) ∧
    VideoFilters.keyAlpha (VideoFilters.keyDistance (data.getD (4 * k) 0)
        (data.getD (4 * k + 1) 0) (data.getD (4 * k + 2) 0) keyR keyG keyB)
        (F32.mul tolerance VideoFilters.maxRgbDistance) (F32.mul 0 VideoFilters.maxRgbDistance)
      = (if VideoFilters.keyDistance (data.getD (4 * k) 0) (data.getD (4 * k + 1) 0)
          (data.getD (4 * k + 2) 0) keyR keyG keyB
          < F32.mul tolerance VideoFilters.maxRgbDistance then 0 else 1) ∧
    (F.chromaKey data keyR keyG keyB tolerance 0 spill).getD (4 * k + 3) 0
      = (if VideoFilters.keyDistance (data.getD (4 * k) 0) (data.getD (4 * k + 1) 0)
          (data.getD (4 * k + 2) 0) keyR keyG keyB
          < F32.mul tolerance VideoFilters.maxRgbDistance then 0 else 255) := by
  refine ⟨VideoFilters.ramp_divisor_pos tolerance softness _,
    VideoFilters.keyAlpha_softness_zero tolerance _, ?_⟩
  rw [VideoFilters.chromaKey_alpha F data keyR keyG keyB tolerance 0 spill k hd.1 hk,
    VideoFilters.keyAlpha_softness_zero]
  split
  · exact VideoFilters.alpha_byte_zero
  · exact VideoFilters.alpha_byte_one

/-- C24, at a 2 x 1 frame with key colour green and tolerance `0.2f`: with
    softness `0.1f` the red pixel at distance 360.6 is outside the ramp; the
    ramp is entered by the pixel `(0, 180, 0)` at distance 75, and there the
    divisor is positive; with softness 0 the bytes are 0 and 255. -/
theorem C24_chromaKey_ramp_divisor_witness :
    IsFrame 2 1 [0, 180, 0, 255, 255, 0, 0, 255] ∧
    (0 < F32.mul (F32.round (1 / 10)) VideoFilters.maxRgbDistance ∧ (0 : ℚ) < F32.round (1 / 10)) ∧
    ((VideoFilters.mk 2 1).chromaKey [0, 180, 0, 255, 255, 0, 0, 255] 0 255 0
      (F32.round (1 / 5)) 0 0).getD (4 * 0 + 3) 0 = 0 ∧
    ((VideoFilters.mk 2 1).chromaKey [0, 180, 0, 255, 255, 0, 0, 255] 0 255 0
      (F32.round (1 / 5)) 0 0).getD (4 * 1 + 3) 0 = 255 :=
  have h0 := C24_chromaKey_ramp_divisor (VideoFilters.mk 2 1) [0, 180, 0, 255, 255, 0, 0, 255]
    0 255 0 (F32.round (1 / 5)) (F32.round (1 / 10)) 0 0 (by decide) (by decide)
  have h1 := C24_chromaKey_ramp_divisor (VideoFilters.mk 2 1) [0, 180, 0, 255, 255, 0, 0, 255]
    0 255 0 (F32.round (1 / 5)) (F32.round (1 / 10)) 0 1 (by decide) (by decide)
  ⟨by decide, h0.1 (by decide!) (by decide!), h0.2.2.trans (by decide!),
    h1.2.2.trans (by decide!)⟩

/-! ### The box blur stays within the range of its input -/

namespace VideoFilters

/-- The mean of `2 * r + 1` values between `lo` and `hi`, rounded down, lies
    between `lo` and `hi`. -/
theorem boxAverage_bounds (f : Int → Nat) (r lo hi : Nat)
    (hf : ∀ d, lo ≤ f d ∧ f d ≤ hi) :
    lo ≤ Finset.sum (Finset.Icc (-(r : Int)) (r : Int)) f / (2 * r + 1) ∧
    Finset.sum (Finset.Icc (-(r : Int)) (r : Int)) f / (2 * r + 1) ≤ hi := by
  have hc : (Finset.Icc (-(r : Int)) (r : Int)).card = 2 * r + 1 := by
    rw [Int.card_Icc]; omega
  have h1 : (Finset.Icc (-(r : Int)) (r : Int)).card • lo
      ≤ Finset.sum (Finset.Icc (-(r : Int)) (r : Int)) f :=
    Finset.card_nsmul_le_sum _ _ _ (fun d _ => (hf d).1)
  have h2 : Finset.sum (Finset.Icc (-(r : Int)) (r : Int)) f
      ≤ (Finset.Icc (-(r : Int)) (r : Int)).card • hi :=
    Finset.sum_le_card_nsmul _ _ _ (fun d _ => (hf d).2)
  rw [hc, smul_eq_mul] at h1 h2
  constructor
  · rw [Nat.le_div_iff_mul_le (by omega)]
    rw [Nat.mul_comm]; exact h1
  · apply Nat.div_le_of_le_mul
    exact h2

end VideoFilters

/-- The horizontal means lie in the range of their channel. -/
theorem blurTempRef_bounds (data : List Nat) (w h r x y c lo hi : Nat) (hy : y < h)
    (hw : 0 < w)
    (hrange : ∀ x2 y2, x2 < w → y2 < h →
      lo ≤ data.getD ((y2 * w + x2) * 4 + c) 0 ∧ data.getD ((y2 * w + x2) * 4 + c) 0 ≤ hi) :
    lo ≤ blurTempRef data w r x y c ∧ blurTempRef data w r x y c ≤ hi := by
  unfold blurTempRef
  exact VideoFilters.boxAverage_bounds _ r lo hi
    (fun d => hrange _ y (clamp_coord_lt w ((x : Int) + d) hw) hy)

/-- The result of both passes lies in the range of its channel. -/
theorem blurRef_bounds (data : List Nat) (w h r x y c lo hi : Nat) (hx : x < w) (hy : y < h)
    (hrange : ∀ x2 y2, x2 < w → y2 < h →
      lo ≤ data.getD ((y2 * w + x2) * 4 + c) 0 ∧ data.getD ((y2 * w + x2) * 4 + c) 0 ≤ hi) :
    lo ≤ blurRef data w h r x y c ∧ blurRef data w h r x y c ≤ hi := by
  unfold blurRef
  exact VideoFilters.boxAverage_bounds _ r lo hi
    (fun d => blurTempRef_bounds data w h r x _ c lo hi
      (clamp_coord_lt h ((y : Int) + d) (by omega)) (by omega) hrange)

/-- Two buffers of one length with the same bytes are the same buffer. -/
theorem buffer_ext (a b : List Nat) (hlen : a.length = b.length)
    (h : ∀ j, j < b.length → a.getD j 0 = b.getD j 0) : a = b := by
  apply List.ext_getElem hlen
  intro n h1 h2
  have := h n h2
  rwa [List.getD_eq_getElem a 0 h1, List.getD_eq_getElem b 0 h2] at this

/-- A byte offset inside a frame, as pixel coordinates and a channel. -/
theorem offset_decompose (w h j : Nat) (hj : j < w * h * 4) :
    j / 4 % w < w ∧ j / 4 / w < h ∧ j % 4 < 4 ∧ (j / 4 / w * w + j / 4 % w) * 4 + j % 4 = j := by
  have hw : 0 < w := by
    rcases Nat.eq_zero_or_pos w with h0 | h0
    · subst h0; simp at hj
    · exact h0
  have hk : j / 4 < w * h := by omega
  refine ⟨Nat.mod_lt _ hw, ?_, by omega, ?_⟩
  · rw [Nat.div_lt_iff_lt_mul hw, Nat.mul_comm]; exact hk
  · rw [Nat.div_add_mod']; omega

/-! ### The box blur against its reference -/

namespace VideoFilters

/-- The horizontal pass of `blur` as a function of the pixel. -/
theorem blur_horizontal (data : List Nat) (w h r : Nat) (hr : r ≤ 4210751)
    (hd : IsFrame w h data) :
    (forLoop 0 h (fun y temp =>
        forLoop 0 w (fun x temp =>
          let at_ : Int → Nat := fun dx =>
            let nx := max 0 (min ((w : Int) - 1) ((x : Int) + dx))
            (((y : Int) * (w : Int) + nx) * 4).toNat
          let count := boxCount (r : Int)
          let idx := (y * w + x) * 4
          writePixel temp idx
            (boxByte (boxSum data r at_ 0) count) (boxByte (boxSum data r at_ 1) count)
            (boxByte (boxSum data r at_ 2) count) (boxByte (boxSum data r at_ 3) count))
          temp)
        (List.replicate (w * h * 4) 0)).length = w * h * 4 ∧
    ∀ x y c, x < w → y < h → c < 4 →
      (forLoop 0 h (fun y temp =>
        forLoop 0 w (fun x temp =>
          let at_ : Int → Nat := fun dx =>
            let nx := max 0 (min ((w : Int) - 1) ((x : Int) + dx))
            (((y : Int) * (w : Int) + nx) * 4).toNat
          let count := boxCount (r : Int)
          let idx := (y * w + x) * 4
          writePixel temp idx
            (boxByte (boxSum data r at_ 0) count) (boxByte (boxSum data r at_ 1) count)
            (boxByte (boxSum data r at_ 2) count) (boxByte (boxSum data r at_ 3) count))
          temp)
        (List.replicate (w * h * 4) 0)).getD ((y * w + x) * 4 + c) 0
        = blurTempRef data w r x y c := by
  have hval : ∀ x y c : Nat,
      boxByte (boxSum data r (fun dx => (((y : Int) * (w : Int)
        + max 0 (min ((w : Int) - 1) ((x : Int) + dx))) * 4).toNat) c) (boxCount (r : Int))
      = blurTempRef data w r x y c := by
    intro x y c
    rw [boxSum_eq data r _ c hr (fun d => hd.getD_lt _), boxCount_eq r hr]
    have e : Finset.sum (Finset.Icc (-(r : Int)) (r : Int)) (fun d => data.getD
          ((((y : Int) * (w : Int) + max 0 (min ((w : Int) - 1) ((x : Int) + d))) * 4).toNat + c) 0)
          / (2 * r + 1)
        = blurTempRef data w r x y c := by
      unfold blurTempRef
      congr 1
      apply Finset.sum_congr rfl
      intro d _
      beta_reduce
      rw [clampIndex_toNat y w _ (le_max_left _ _)]
    rw [boxByte_natCast _ _ (by rw [e]; exact blurTempRef_lt data w h r x y c hd), e]
  simp only [hval]
  obtain ⟨hl, hk⟩ := nestedLoop_on (fun x y => blurTempRef data w r x y 0)
    (fun x y => blurTempRef data w r x y 1) (fun x y => blurTempRef data w r x y 2)
    (fun x y => blurTempRef data w r x y 3) w h (List.replicate (w * h * 4) 0) (by simp)
  refine ⟨hl, ?_⟩
  intro x y c hx hy hc
  obtain ⟨h0, h1, h2, h3⟩ := hk x y hx hy
  interval_cases c
  · exact h0
  · exact h1
  · exact h2
  · exact h3

/-- The result of `blur` at every byte of every pixel, for a radius up to
    4210751. -/
theorem blur_spec (F : VideoFilters) (data : List Nat) (r : Nat) (hr : 1 ≤ r)
    (hr2 : r ≤ 4210751) (hd : IsFrame F.width F.height data) :
    (F.blur data (r : Int)).length = data.length ∧
    ∀ x y c, x < F.width → y < F.height → c < 4 →
      (F.blur data (r : Int)).getD ((y * F.width + x) * 4 + c) 0
        = blurRef data F.width F.height r x y c := by
  unfold blur
  rw [if_neg (by omega)]
  obtain ⟨tl, tk⟩ := blur_horizontal data F.width F.height r hr2 hd
  simp only []
  generalize (forLoop 0 F.height (fun y temp =>
        forLoop 0 F.width (fun x temp =>
          writePixel temp ((y * F.width + x) * 4)
            (boxByte (boxSum data r (fun dx => (((y : Int) * (F.width : Int)
              + max 0 (min ((F.width : Int) - 1) ((x : Int) + dx))) * 4).toNat) 0)
              (boxCount (r : Int)))
            (boxByte (boxSum data r (fun dx => (((y : Int) * (F.width : Int)
              + max 0 (min ((F.width : Int) - 1) ((x : Int) + dx))) * 4).toNat) 1)
              (boxCount (r : Int)))
            (boxByte (boxSum data r (fun dx => (((y : Int) * (F.width : Int)
              + max 0 (min ((F.width : Int) - 1) ((x : Int) + dx))) * 4).toNat) 2)
              (boxCount (r : Int)))
            (boxByte (boxSum data r (fun dx => (((y : Int) * (F.width : Int)
              + max 0 (min ((F.width : Int) - 1) ((x : Int) + dx))) * 4).toNat) 3)
              (boxCount (r : Int))))
          temp)
        (List.replicate (F.width * F.height * 4) 0)) = temp at tl tk ⊢
  have hval : ∀ x y c : Nat, x < F.width → y < F.height → c < 4 →
      boxByte (boxSum temp r (fun dy => ((max 0 (min ((F.height : Int) - 1) ((y : Int) + dy))
        * (F.width : Int) + (x : Int)) * 4).toNat) c) (boxCount (r : Int))
      = blurRef data F.width F.height r x y c := by
    intro x y c hx hy hc
    have hidx : ∀ d : Int, temp.getD (((max 0 (min ((F.height : Int) - 1) ((y : Int) + d))
        * (F.width : Int) + (x : Int)) * 4).toNat + c) 0
        = blurTempRef data F.width r x
            (max 0 (min ((F.height : Int) - 1) ((y : Int) + d))).toNat c := by
      intro d
      rw [clampIndex_toNat2 F.width x _ (le_max_left _ _)]
      exact tk x _ c hx (clamp_coord_lt F.height _ (by omega)) hc
    rw [boxSum_eq temp r _ c hr2
      (fun d => by rw [hidx d]; exact blurTempRef_lt data F.width F.height r x _ c hd),
      boxCount_eq r hr2]
    have e : Finset.sum (Finset.Icc (-(r : Int)) (r : Int)) (fun d => temp.getD
          (((max 0 (min ((F.height : Int) - 1) ((y : Int) + d))
            * (F.width : Int) + (x : Int)) * 4).toNat + c) 0) / (2 * r + 1)
        = blurRef data F.width F.height r x y c := by
      unfold blurRef
      congr 1
      apply Finset.sum_congr rfl
      intro d _
      exact hidx d
    rw [boxByte_natCast _ _ (by rw [e]; exact blurRef_lt data F.width F.height r x y c hd), e]
  have hloop : forLoop 0 F.height (fun y buf =>
      forLoop 0 F.width (fun x buf =>
        writePixel buf ((y * F.width + x) * 4)
          (boxByte (boxSum temp r (fun dy => ((max 0 (min ((F.height : Int) - 1) ((y : Int) + dy))
            * (F.width : Int) + (x : Int)) * 4).toNat) 0) (boxCount (r : Int)))
          (boxByte (boxSum temp r (fun dy => ((max 0 (min ((F.height : Int) - 1) ((y : Int) + dy))
            * (F.width : Int) + (x : Int)) * 4).toNat) 1) (boxCount (r : Int)))
          (boxByte (boxSum temp r (fun dy => ((max 0 (min ((F.height : Int) - 1) ((y : Int) + dy))
            * (F.width : Int) + (x : Int)) * 4).toNat) 2) (boxCount (r : Int)))
          (boxByte (boxSum temp r (fun dy => ((max 0 (min ((F.height : Int) - 1) ((y : Int) + dy))
            * (F.width : Int) + (x : Int)) * 4).toNat) 3) (boxCount (r : Int))))
        buf) data
      = forLoop 0 F.height (fun y buf =>
      forLoop 0 F.width (fun x buf =>
        writePixel buf ((y * F.width + x) * 4)
          (blurRef data F.width F.height r x y 0) (blurRef data F.width F.height r x y 1)
          (blurRef data F.width F.height r x y 2) (blurRef data F.width F.height r x y 3))
        buf) data := by
    apply forLoop_congr
    intro y _ hy t
    apply forLoop_congr
    intro x _ hx t
    rw [hval x y 0 hx hy (by omega), hval x y 1 hx hy (by omega), hval x y 2 hx hy (by omega),
      hval x y 3 hx hy (by omega)]
  rw [hloop]
  obtain ⟨hl, hk⟩ := nestedLoop_on (fun x y => blurRef data F.width F.height r x y 0)
    (fun x y => blurRef data F.width F.height r x y 1)
    (fun x y => blurRef data F.width F.height r x y 2)
    (fun x y => blurRef data F.width F.height r x y 3) F.width F.height data hd.1
  refine ⟨by rw [hl, hd.1], ?_⟩
  intro x y c hx hy hc
  obtain ⟨h0, h1, h2, h3⟩ := hk x y hx hy
  interval_cases c
  · exact h0
  · exact h1
  · exact h2
  · exact h3


/-- One pass of `blur` over samples that all sit at one index. -/
theorem boxSum_const (src : List Nat) (r : Nat) (at_ : Int → Nat) (c i : Nat)
    (h : ∀ d, at_ d = i) :
    boxSum src (r : Int) at_ c = wrap32 ((2 * (r : Int) + 1) * (src.getD (i + c) 0 : Int)) := by
  rw [boxSum_wrap]
  congr 1
  have : Finset.sum (Finset.Icc (-(r : Int)) (r : Int)) (fun d => src.getD (at_ d + c) 0)
      = Finset.sum (Finset.Icc (-(r : Int)) (r : Int)) (fun _ => src.getD (i + c) 0) :=
    Finset.sum_congr rfl (fun d _ => by rw [h d])
  rw [this, Finset.sum_const, Int.card_Icc, smul_eq_mul]
  have : ((r : Int) + 1 - -(r : Int)).toNat = 2 * r + 1 := by omega
  rw [this]
  push_cast
  ring

/-- On a frame of one pixel every sample of either pass is that pixel. -/
theorem blur_one_pixel (a0 a1 a2 a3 r : Nat) (hr : 1 ≤ r) :
    (VideoFilters.mk 1 1).blur [a0, a1, a2, a3] (r : Int)
      = [passByte r (passByte r a0), passByte r (passByte r a1), passByte r (passByte r a2),
          passByte r (passByte r a3)] := by
  unfold blur
  rw [if_neg (by omega)]
  have hat : ∀ d : Int, ((((0 : Nat) : Int) * ((1 : Nat) : Int)
      + max 0 (min (((1 : Nat) : Int) - 1) (((0 : Nat) : Int) + d))) * 4).toNat = 0 := by
    intro d; omega
  have hat2 : ∀ d : Int, ((max 0 (min (((1 : Nat) : Int) - 1) (((0 : Nat) : Int) + d))
      * ((1 : Nat) : Int) + ((0 : Nat) : Int)) * 4).toNat = 0 := by
    intro d; omega
  have h1 : ∀ (src : List Nat) (c : Nat), boxByte (boxSum src (r : Int) (fun dx =>
      ((((0 : Nat) : Int) * ((1 : Nat) : Int)
        + max 0 (min (((1 : Nat) : Int) - 1) (((0 : Nat) : Int) + dx))) * 4).toNat) c)
        (boxCount (r : Int)) = passByte r (src.getD c 0) := by
    intro src c
    rw [boxSum_const src r _ c 0 hat, boxCount_wrap, Nat.zero_add]
    rfl
  have h2 : ∀ (src : List Nat) (c : Nat), boxByte (boxSum src (r : Int) (fun dy =>
      ((max 0 (min (((1 : Nat) : Int) - 1) (((0 : Nat) : Int) + dy))
        * ((1 : Nat) : Int) + ((0 : Nat) : Int)) * 4).toNat) c)
        (boxCount (r : Int)) = passByte r (src.getD c 0) := by
    intro src c
    rw [boxSum_const src r _ c 0 hat2, boxCount_wrap, Nat.zero_add]
    rfl
  have hone : ∀ (body : Nat → List Nat → List Nat) (s : List Nat),
      forLoop 0 1 body s = body 0 s := fun _ _ => rfl
  simp only [hone]
  rw [h1 [a0, a1, a2, a3] 0, h1 [a0, a1, a2, a3] 1, h1 [a0, a1, a2, a3] 2, h1 [a0, a1, a2, a3] 3]
  rw [h2 _ 0, h2 _ 1, h2 _ 2, h2 _ 3]
  have hw : ∀ p0 p1 p2 p3 : Nat,
      writePixel (List.replicate (1 * 1 * 4) 0) ((0 * 1 + 0) * 4) p0 p1 p2 p3 = [p0, p1, p2, p3] :=
    fun _ _ _ _ => rfl
  have hw2 : ∀ p0 p1 p2 p3 : Nat,
      writePixel [a0, a1, a2, a3] ((0 * 1 + 0) * 4) p0 p1 p2 p3 = [p0, p1, p2, p3] :=
    fun _ _ _ _ => rfl
  rw [hw, hw2]
  have g0 : ∀ p0 p1 p2 p3 : Nat, [p0, p1, p2, p3].getD 0 0 = p0 := fun _ _ _ _ => rfl
  have g1 : ∀ p0 p1 p2 p3 : Nat, [p0, p1, p2, p3].getD 1 0 = p1 := fun _ _ _ _ => rfl
  have g2 : ∀ p0 p1 p2 p3 : Nat, [p0, p1, p2, p3].getD 2 0 = p2 := fun _ _ _ _ => rfl
  have g3 : ∀ p0 p1 p2 p3 : Nat, [p0, p1, p2, p3].getD 3 0 = p3 := fun _ _ _ _ => rfl
  simp only [g0, g1, g2, g3]

end VideoFilters


/-- C16, as the claim states it, fails from radius 4210752 on: there
    `255 * (2 * radius + 1)` exceeds the largest `int`, 2147483647. On the
    frame of one white pixel at radius 4210752 each sum of the horizontal pass
    is 2147483775, which the `int` accumulator holds as -2147483521; divided
    by the count 8421505 it is -254 and the byte stored is 2, where the
    two-pass reference has 255. At radius 5000000 the sum 2550000255 is held
    as -1744967041, the quotient by 10000001 is -174 and the byte is 82. -/
theorem C16_blur_large_radius_counterexample :
    IsFrame 1 1 [255, 255, 255, 255] ∧
    (VideoFilters.mk 1 1).blur [255, 255, 255, 255] 4210752 = [2, 2, 2, 2] ∧
    blurRef [255, 255, 255, 255] 1 1 4210752 0 0 0 = 255 ∧
    (VideoFilters.mk 1 1).blur [255, 255, 255, 255] 5000000 = [82, 82, 82, 82] ∧
    blurRef [255, 255, 255, 255] 1 1 5000000 0 0 0 = 255 := by
  have hconst : ∀ x2 y2 : Nat, x2 < 1 → y2 < 1 →
      255 ≤ [255, 255, 255, 255].getD ((y2 * 1 + x2) * 4 + 0) 0
        ∧ [255, 255, 255, 255].getD ((y2 * 1 + x2) * 4 + 0) 0 ≤ 255 := by
    intro x2 y2 h1 h2
    have e1 : x2 = 0 := by omega
    have e2 : y2 = 0 := by omega
    subst e1 e2
    decide
  refine ⟨by decide, ?_, ?_, ?_, ?_⟩
  · have h := VideoFilters.blur_one_pixel 255 255 255 255 4210752 (by decide)
    have e : passByte 4210752 (passByte 4210752 255) = 2 := by decide
    rw [e] at h
    exact h
  · have h := blurRef_bounds [255, 255, 255, 255] 1 1 4210752 0 0 0 255 255 (by decide)
      (by decide) hconst
    omega
  · have h := VideoFilters.blur_one_pixel 255 255 255 255 5000000 (by decide)
    have e : passByte 5000000 (passByte 5000000 255) = 82 := by decide
    rw [e] at h
    exact h
  · have h := blurRef_bounds [255, 255, 255, 255] 1 1 5000000 0 0 0 255 255 (by decide)
      (by decide) hconst
    omega

/-- C16, amended: for `1 ≤ radius ≤ 4210751` on a frame of the configured
    size, `blur` equals the two-pass reference `blurRef` (horizontal means with
    the column clamped to `[0, width - 1]`, then vertical means of those with
    the row clamped to `[0, height - 1]`, floor division by `2 * radius + 1`)
    at every pixel and all four channels; the buffer keeps its length, and
    every index read in either pass and the index written lie inside the
    buffer. -/
theorem C16_blur_two_pass (F : VideoFilters) (data : List Nat) (r x y c : Nat) (hr : 1 ≤ r)
    (hr2 : r ≤ 4210751)
    (hd : IsFrame F.width F.height data) (hx : x < F.width) (hy : y < F.height) (hc : c < 4) :
    (F.blur data (r : Int)).getD ((y * F.width + x) * 4 + c) 0
      = blurRef data F.width F.height r x y c ∧
    (F.blur data (r : Int)).length = data.length ∧
    (∀ d : Int, (((y : Int) * (F.width : Int)
      + max 0 (min ((F.width : Int) - 1) ((x : Int) + d))) * 4).toNat + c < data.length) ∧
    (∀ d : Int, ((max 0 (min ((F.height : Int) - 1) ((y : Int) + d)) * (F.width : Int)
      + (x : Int)) * 4).toNat + c < F.width * F.height * 4) ∧
    (y * F.width + x) * 4 + c < data.length := by
  obtain ⟨hl, hk⟩ := VideoFilters.blur_spec F data r hr hr2 hd
  refine ⟨hk x y c hx hy hc, hl, ?_, ?_, ?_⟩
  · intro d
    rw [clampIndex_toNat y F.width _ (le_max_left _ _), hd.1]
    have := pixel_index_lt F.width F.height _ y (clamp_coord_lt F.width ((x : Int) + d) (by omega)) hy
    omega
  · intro d
    rw [clampIndex_toNat2 F.width x _ (le_max_left _ _)]
    have := pixel_index_lt F.width F.height x _ hx (clamp_coord_lt F.height ((y : Int) + d) (by omega))
    omega
  · rw [hd.1]
    have := pixel_index_lt F.width F.height x y hx hy
    omega

/-- C16, at a 2 x 2 frame with radius 1, the blue byte of pixel `(0, 1)`. -/
theorem C16_blur_two_pass_witness :
    ((⟨2, 2⟩ : VideoFilters).blur
        [10, 20, 30, 255, 40, 50, 60, 255, 70, 80, 90, 255, 100, 110, 120, 255] ((1 : Nat) : Int)).getD
        ((1 * (⟨2, 2⟩ : VideoFilters).width + 0) * 4 + 2) 0
      = blurRef [10, 20, 30, 255, 40, 50, 60, 255, 70, 80, 90, 255, 100, 110, 120, 255]
          (⟨2, 2⟩ : VideoFilters).width (⟨2, 2⟩ : VideoFilters).height 1 0 1 2 :=
  (C16_blur_two_pass ⟨2, 2⟩ [10, 20, 30, 255, 40, 50, 60, 255, 70, 80, 90, 255, 100, 110, 120, 255]
    1 0 1 2 (by decide) (by decide) (by decide) (by decide) (by decide) (by decide)).1

/-- C23, as the claim states it, fails from radius 4210752 on. The frame of
    the one pixel `(200, 100, 50, 255)` is of one colour and its alpha channel
    has minimum and maximum 255; at radius 4210752 the sums 1684301000,
    842150500 and 421075250 of the colour channels fit an `int`, the alpha
    sum 2147483775 does not, and `blur` leaves the alpha byte 2. -/
theorem C23_blur_large_radius_counterexample :
    IsFrame 1 1 [200, 100, 50, 255] ∧
    (VideoFilters.mk 1 1).blur [200, 100, 50, 255] 4210752 = [200, 100, 50, 2] ∧
    ¬ (255 ≤ ((VideoFilters.mk 1 1).blur [200, 100, 50, 255] 4210752).getD
        ((0 * (VideoFilters.mk 1 1).width + 0) * 4 + 3) 0) ∧
    (VideoFilters.mk 1 1).blur [200, 100, 50, 255] 4210752 ≠ [200, 100, 50, 255] := by
  have h := VideoFilters.blur_one_pixel 200 100 50 255 4210752 (by decide)
  have e0 : passByte 4210752 (passByte 4210752 200) = 200 := by decide
  have e1 : passByte 4210752 (passByte 4210752 100) = 100 := by decide
  have e2 : passByte 4210752 (passByte 4210752 50) = 50 := by decide
  have e3 : passByte 4210752 (passByte 4210752 255) = 2 := by decide
  rw [e0, e1, e2, e3] at h
  have h2 : (VideoFilters.mk 1 1).blur [200, 100, 50, 255] 4210752 = [200, 100, 50, 2] := h
  refine ⟨by decide, h2, ?_, ?_⟩
  · rw [h2]; decide
  · rw [h2]; decide

/-- C23, amended: for `1 ≤ radius ≤ 4210751`, every byte `blur` writes for
    channel `c` lies between any lower and upper bound of channel `c` over the
    whole input frame, so between its minimum and its maximum; and a frame in
    which every pixel has the colour of pixel 0 is unchanged by `blur`, for
    every radius up to 4210751. -/
theorem C23_blur_within_input_range (F : VideoFilters) (data : List Nat)
    (hd : IsFrame F.width F.height data) :
    (∀ r x y c lo hi : Nat, 1 ≤ r → r ≤ 4210751 → x < F.width → y < F.height → c < 4 →
      (∀ x2, x2 < F.width → ∀ y2, y2 < F.height →
        lo ≤ data.getD ((y2 * F.width + x2) * 4 + c) 0
          ∧ data.getD ((y2 * F.width + x2) * 4 + c) 0 ≤ hi) →
      lo ≤ (F.blur data (r : Int)).getD ((y * F.width + x) * 4 + c) 0 ∧
      (F.blur data (r : Int)).getD ((y * F.width + x) * 4 + c) 0 ≤ hi) ∧
    (∀ radius : Int, radius ≤ 4210751 →
      (∀ x2, x2 < F.width → ∀ y2, y2 < F.height → ∀ c, c < 4 →
        data.getD ((y2 * F.width + x2) * 4 + c) 0 = data.getD c 0) →
      F.blur data radius = data) := by
  have part1 : ∀ r x y c lo hi : Nat, 1 ≤ r → r ≤ 4210751 → x < F.width → y < F.height →
      c < 4 →
      (∀ x2, x2 < F.width → ∀ y2, y2 < F.height →
        lo ≤ data.getD ((y2 * F.width + x2) * 4 + c) 0
          ∧ data.getD ((y2 * F.width + x2) * 4 + c) 0 ≤ hi) →
      lo ≤ (F.blur data (r : Int)).getD ((y * F.width + x) * 4 + c) 0 ∧
      (F.blur data (r : Int)).getD ((y * F.width + x) * 4 + c) 0 ≤ hi := by
    intro r x y c lo hi hr hr2 hx hy hc hrange
    rw [(VideoFilters.blur_spec F data r hr hr2 hd).2 x y c hx hy hc]
    exact blurRef_bounds data F.width F.height r x y c lo hi hx hy
      (fun x2 y2 h1 h2 => hrange x2 h1 y2 h2)
  refine ⟨part1, ?_⟩
  intro radius hmax hconst
  rcases le_or_lt radius 0 with hle | hpos
  · unfold VideoFilters.blur
    rw [if_pos hle]
  · obtain ⟨r, rfl⟩ : ∃ r : Nat, radius = (r : Int) := ⟨radius.toNat, by omega⟩
    have hr : 1 ≤ r := by omega
    have hr2 : r ≤ 4210751 := by omega
    apply buffer_ext _ _ (VideoFilters.blur_spec F data r hr hr2 hd).1
    intro j hj
    rw [hd.1] at hj
    obtain ⟨hx, hy, hc, hdec⟩ := offset_decompose F.width F.height j hj
    have hb := part1 r (j / 4 % F.width) (j / 4 / F.width) (j % 4) (data.getD (j % 4) 0)
      (data.getD (j % 4) 0) hr hr2 hx hy hc
      (fun x2 h1 y2 h2 => by rw [hconst x2 h1 y2 h2 (j % 4) hc]; exact ⟨le_refl _, le_refl _⟩)
    have hj2 := hconst (j / 4 % F.width) hx (j / 4 / F.width) hy (j % 4) hc
    rw [hdec] at hb hj2
    omega

/-- C23, at a 2 x 2 frame with radius 1: the red bytes 10, 40, 70, 100 bound
    the red byte written at pixel `(1, 0)`; and a frame of one colour is
    unchanged. -/
theorem C23_blur_within_input_range_witness :
    IsFrame 2 2 [10, 20, 30, 255, 40, 50, 60, 255, 70, 80, 90, 255, 100, 110, 120, 255] ∧
    (10 ≤ ((VideoFilters.mk 2 2).blur
        [10, 20, 30, 255, 40, 50, 60, 255, 70, 80, 90, 255, 100, 110, 120, 255]
        ((1 : Nat) : Int)).getD ((0 * (VideoFilters.mk 2 2).width + 1) * 4 + 0) 0 ∧
      ((VideoFilters.mk 2 2).blur
        [10, 20, 30, 255, 40, 50, 60, 255, 70, 80, 90, 255, 100, 110, 120, 255]
        ((1 : Nat) : Int)).getD ((0 * (VideoFilters.mk 2 2).width + 1) * 4 + 0) 0 ≤ 100) ∧
    (VideoFilters.mk 2 2).blur
        [10, 20, 30, 255, 10, 20, 30, 255, 10, 20, 30, 255, 10, 20, 30, 255] 1
      = [10, 20, 30, 255, 10, 20, 30, 255, 10, 20, 30, 255, 10, 20, 30, 255] :=
  ⟨by decide,
    (C23_blur_within_input_range (VideoFilters.mk 2 2)
      [10, 20, 30, 255, 40, 50, 60, 255, 70, 80, 90, 255, 100, 110, 120, 255] (by decide)).1
      1 1 0 0 10 100 (by decide) (by decide) (by decide) (by decide) (by decide) (by decide),
    (C23_blur_within_input_range (VideoFilters.mk 2 2)
      [10, 20, 30, 255, 10, 20, 30, 255, 10, 20, 30, 255, 10, 20, 30, 255] (by decide)).2 1
      (by decide) (by decide)⟩

/-! ### The ease curve, for every admitted library function -/

namespace F32

/-- Rounding to the nearest integer moves a number by at most one half. -/
theorem rne_sub_le (y : ℚ) : (rne y : ℚ) - y ≤ 1 / 2 ∧ y - (rne y : ℚ) ≤ 1 / 2 := by
  have h1 := Int.floor_le y
  have h2 := Int.lt_floor_add_one y
  unfold rne
  simp only
  split_ifs with a b c
  · constructor <;> linarith
  · push_cast; constructor <;> linarith
  · constructor <;> linarith
  · push_cast; constructor <;> linarith

/-- The relative error of rounding in the normal range is at most `2 ^ (-24)`. -/
theorem round_rel (x : ℚ) (hx : (2 : ℚ) ^ (-126 : Int) ≤ x) :
    x * (1 - 1 / 2 ^ 24) ≤ round x ∧ round x ≤ x * (1 + 1 / 2 ^ 24) := by
  have hpos : 0 < x := lt_of_lt_of_le (zpow_pos (by norm_num) _) hx
  obtain ⟨s1, s2⟩ := ilog2_spec x hpos
  have one_lt : (1 : ℚ) < 2 := by norm_num
  have he : -126 ≤ ilog2 x := by
    have := (zpow_lt_zpow_iff_right₀ one_lt).mp (lt_of_le_of_lt hx s2)
    omega
  rw [round_of_pos x hpos, roundPos_eq, max_eq_left he]
  have hu : (0 : ℚ) < (2 : ℚ) ^ (ilog2 x - 23) := zpow_pos (by norm_num) _
  obtain ⟨r1, r2⟩ := rne_sub_le (x / (2 : ℚ) ^ (ilog2 x - 23))
  have hsplit : (2 : ℚ) ^ (ilog2 x - 23) = (2 : ℚ) ^ (ilog2 x) / 2 ^ 23 := by
    rw [zpow_sub₀ (by norm_num)]
    norm_num
  have hxu : x / (2 : ℚ) ^ (ilog2 x - 23) * (2 : ℚ) ^ (ilog2 x - 23) = x := by
    field_simp
  have b1 : ((rne (x / (2 : ℚ) ^ (ilog2 x - 23)) : ℚ) - x / (2 : ℚ) ^ (ilog2 x - 23))
      * (2 : ℚ) ^ (ilog2 x - 23) ≤ 1 / 2 * (2 : ℚ) ^ (ilog2 x - 23) :=
    mul_le_mul_of_nonneg_right r1 (le_of_lt hu)
  have b2 : (x / (2 : ℚ) ^ (ilog2 x - 23) - (rne (x / (2 : ℚ) ^ (ilog2 x - 23)) : ℚ))
      * (2 : ℚ) ^ (ilog2 x - 23) ≤ 1 / 2 * (2 : ℚ) ^ (ilog2 x - 23) :=
    mul_le_mul_of_nonneg_right r2 (le_of_lt hu)
  rw [sub_mul, hxu] at b1 b2
  have hh : 1 / 2 * (2 : ℚ) ^ (ilog2 x - 23) ≤ x * (1 / 2 ^ 24) := by
    rw [hsplit]
    have : (2 : ℚ) ^ (ilog2 x) / 2 ^ 23 * (1 / 2) ≤ x / 2 ^ 23 * (1 / 2) := by
      apply mul_le_mul_of_nonneg_right _ (by norm_num)
      exact div_le_div_of_nonneg_right s1 (by norm_num)
    linarith
  constructor <;> linarith

/-- The multiples of `2 ^ (-23)` up to 1 are binary32 values. -/
theorem round_grid (k : Nat) (hk : k ≤ 2 ^ 23) : round ((k : ℚ) / 2 ^ 23) = (k : ℚ) / 2 ^ 23 := by
  rcases Nat.eq_zero_or_pos k with h0 | hpos
  · subst h0; simp [round_zero]
  have hk1 : (1 : ℚ) ≤ (k : ℚ) := by exact_mod_cast hpos
  have hk2 : (k : ℚ) ≤ 2 ^ 23 := by exact_mod_cast hk
  have hq : (0 : ℚ) < (k : ℚ) / 2 ^ 23 := by positivity
  obtain ⟨s1, s2⟩ := ilog2_spec ((k : ℚ) / 2 ^ 23) hq
  have one_lt : (1 : ℚ) < 2 := by norm_num
  have hlo : -23 ≤ ilog2 ((k : ℚ) / 2 ^ 23) := by
    have h1 : (2 : ℚ) ^ (-23 : Int) < (2 : ℚ) ^ (ilog2 ((k : ℚ) / 2 ^ 23) + 1) := by
      refine lt_of_le_of_lt ?_ s2
      rw [zpow_neg]
      rw [le_div_iff₀ (by positivity)]
      norm_num
      linarith
    have := (zpow_lt_zpow_iff_right₀ one_lt).mp h1
    omega
  have hhi : ilog2 ((k : ℚ) / 2 ^ 23) ≤ 0 := by
    have h1 : (2 : ℚ) ^ (ilog2 ((k : ℚ) / 2 ^ 23)) ≤ (2 : ℚ) ^ (0 : Int) := by
      refine le_trans s1 ?_
      rw [div_le_iff₀ (by positivity)]
      norm_num
      linarith
    exact (zpow_le_zpow_iff_right₀ one_lt).mp h1
  obtain ⟨j, hj⟩ := Int.eq_ofNat_of_zero_le (show 0 ≤ - ilog2 ((k : ℚ) / 2 ^ 23) by omega)
  apply round_eq_self _ hq ((k : Int) * 2 ^ j)
  rw [max_eq_left (by omega)]
  have : ilog2 ((k : ℚ) / 2 ^ 23) - 23 = -((j : Int) + 23) := by omega
  rw [this, zpow_neg, zpow_add₀ (by norm_num), zpow_natCast]
  push_cast
  field_simp
  ring

/-- Between 1 and 2 the binary32 values are the multiples of `2 ^ (-23)`. -/
theorem round_unit_binade (q : ℚ) (h1 : 1 ≤ q) (h2 : q ≤ 2) :
    ∃ m : Nat, 2 ^ 23 ≤ m ∧ m ≤ 2 ^ 24 ∧ round q = (m : ℚ) / 2 ^ 23 := by
  rcases eq_or_lt_of_le h2 with heq | hlt
  · refine ⟨2 ^ 24, by norm_num, le_refl _, ?_⟩
    rw [heq]
    have := round_natCast 2 (by norm_num)
    push_cast at this ⊢
    rw [this]; norm_num
  · have he : ilog2 q = 0 := ilog2_unique q 0 (by simpa using h1) (by simpa using hlt)
    rw [round_of_pos q (by linarith), roundPos_eq, he]
    have hm1 : ((2 ^ 23 : Nat) : Int) ≤ rne (q / (2 : ℚ) ^ (max (0 : Int) (-126) - 23)) := by
      apply le_rne
      rw [le_div_iff₀ (zpow_pos (by norm_num) _)]
      norm_num
      linarith
    have hm2 : rne (q / (2 : ℚ) ^ (max (0 : Int) (-126) - 23)) ≤ ((2 ^ 24 : Nat) : Int) := by
      apply rne_le
      rw [div_le_iff₀ (zpow_pos (by norm_num) _)]
      norm_num
      linarith
    obtain ⟨m, hm⟩ := Int.eq_ofNat_of_zero_le
      (show 0 ≤ rne (q / (2 : ℚ) ^ (max (0 : Int) (-126) - 23)) by omega)
    rw [hm] at hm1 hm2 ⊢
    refine ⟨m, by exact_mod_cast hm1, by exact_mod_cast hm2, ?_⟩
    norm_num
    ring

/-- The correctly rounded cube is one of the admitted library functions. -/
theorem powf_faithful : FaithfulPow powf := by
  intro x _ _ f hf
  have e3 : (trunc 3).toNat = 3 := by decide!
  unfold powf
  rw [e3]
  unfold IsF32 at hf
  constructor
  · intro h
    have := round_mono _ _ h
    rwa [hf] at this
  · intro h
    have := round_mono _ _ h
    rwa [hf] at this

/-- An admitted library function is exact where the cube is a binary32 value. -/
theorem FaithfulPow.exact {pow : ℚ → ℚ → ℚ} (hp : FaithfulPow pow) (x : ℚ) (h0 : 0 ≤ x)
    (h1 : x ≤ 1) (hf : IsF32 (x ^ 3)) : pow x 3 = x ^ 3 := by
  obtain ⟨a, b⟩ := hp x h0 h1 (x ^ 3) hf
  exact le_antisymm (b (le_refl _)) (a (le_refl _))

/-- An admitted library function maps `[0, 1]` into `[0, 1]`. -/
theorem FaithfulPow.range {pow : ℚ → ℚ → ℚ} (hp : FaithfulPow pow) (x : ℚ) (h0 : 0 ≤ x)
    (h1 : x ≤ 1) : 0 ≤ pow x 3 ∧ pow x 3 ≤ 1 := by
  have f0 : IsF32 0 := round_zero
  have f1 : IsF32 1 := by decide!
  constructor
  · exact (hp x h0 h1 0 f0).1 (by positivity)
  · exact (hp x h0 h1 1 f1).2 (pow_le_one₀ h0 h1)

end F32

namespace VideoTransitions

/-- The first branch of the ease curve: non-decreasing on `t ≥ 0`. -/
theorem easeFirst_mono (s t : ℚ) (hs : 0 ≤ s) (hst : s ≤ t) :
    F32.mul (F32.mul (F32.mul 4 s) s) s ≤ F32.mul (F32.mul (F32.mul 4 t) t) t := by
  unfold F32.mul
  have h1 : F32.round (4 * s) ≤ F32.round (4 * t) := F32.round_mono _ _ (by linarith)
  have p1 : 0 ≤ F32.round (4 * s) := F32.round_nonneg _ (by linarith)
  have h2 : F32.round (F32.round (4 * s) * s) ≤ F32.round (F32.round (4 * t) * t) :=
    F32.round_mono _ _ (mul_le_mul h1 hst hs (le_trans p1 h1))
  have p2 : 0 ≤ F32.round (F32.round (4 * s) * s) := F32.round_nonneg _ (mul_nonneg p1 hs)
  exact F32.round_mono _ _ (mul_le_mul h2 hst hs (le_trans p2 h2))

/-- The first branch stays within `[0, 1/2]` for `0 ≤ t ≤ 1/2`. -/
theorem easeFirst_range (t : ℚ) (h0 : 0 ≤ t) (h1 : t ≤ 1 / 2) :
    0 ≤ F32.mul (F32.mul (F32.mul 4 t) t) t ∧ F32.mul (F32.mul (F32.mul 4 t) t) t ≤ 1 / 2 := by
  constructor
  · unfold F32.mul
    exact F32.round_nonneg _ (mul_nonneg (F32.round_nonneg _
      (mul_nonneg (F32.round_nonneg _ (by linarith)) h0)) h0)
  · have h := easeFirst_mono t (1 / 2) h0 h1
    have e : F32.mul (F32.mul (F32.mul 4 (1 / 2)) (1 / 2)) (1 / 2) = 1 / 2 := by decide!
    rw [e] at h
    exact h

/-- The argument of `pow` in the second branch: non-increasing, within `[0, 1]`
    for `1/2 ≤ t ≤ 1`. -/
theorem easeArg_anti (s t : ℚ) (hst : s ≤ t) :
    F32.add (F32.mul (-2) t) 2 ≤ F32.add (F32.mul (-2) s) 2 := by
  unfold F32.add F32.mul
  have h1 : F32.round (-2 * t) ≤ F32.round (-2 * s) := F32.round_mono _ _ (by linarith)
  exact F32.round_mono _ _ (by linarith)

theorem easeArg_range (t : ℚ) (h0 : 1 / 2 ≤ t) (h1 : t ≤ 1) :
    0 ≤ F32.add (F32.mul (-2) t) 2 ∧ F32.add (F32.mul (-2) t) 2 ≤ 1 := by
  have a := easeArg_anti t 1 h1
  have b := easeArg_anti (1 / 2) t h0
  have e1 : F32.add (F32.mul (-2) 1) 2 = 0 := by decide!
  have e2 : F32.add (F32.mul (-2) (1 / 2)) 2 = 1 := by decide!
  rw [e1] at a
  rw [e2] at b
  exact ⟨a, b⟩

/-- The argument of `pow` in the second branch is a multiple of `2 ^ (-23)`. -/
theorem easeArg_grid (t : ℚ) (h0 : 1 / 2 ≤ t) (h1 : t ≤ 1) :
    ∃ k : Nat, k ≤ 2 ^ 23 ∧ F32.add (F32.mul (-2) t) 2 = (k : ℚ) / 2 ^ 23 := by
  obtain ⟨m, m1, m2, hm⟩ := F32.round_unit_binade (2 * t) (by linarith) (by linarith)
  refine ⟨2 ^ 24 - m, by omega, ?_⟩
  unfold F32.add F32.mul
  have e : (-2 : ℚ) * t = -(2 * t) := by ring
  rw [e, F32.round_neg, hm]
  have e2 : -((m : ℚ) / 2 ^ 23) + 2 = ((2 ^ 24 - m : Nat) : ℚ) / 2 ^ 23 := by
    rw [Nat.cast_sub m2]
    push_cast
    ring
  rw [e2]
  exact F32.round_grid _ (by omega)

/-- Between the cubes of two neighbours on the grid of `2 ^ (-23)` lies a
    binary32 value. -/
theorem cube_gap (j k : Nat) (hjk : j < k) (hk : k ≤ 2 ^ 23) :
    ∃ f : ℚ, F32.IsF32 f ∧ ((j : ℚ) / 2 ^ 23) ^ 3 ≤ f ∧ f ≤ ((k : ℚ) / 2 ^ 23) ^ 3 := by
  rcases Nat.eq_zero_or_pos j with h0 | hpos
  · subst h0
    exact ⟨0, F32.round_zero, by norm_num, by positivity⟩
  have hj1 : (1 : ℚ) ≤ (j : ℚ) := by exact_mod_cast hpos
  have hjk1 : (j : ℚ) + 1 ≤ (k : ℚ) := by exact_mod_cast hjk
  have hk2 : (k : ℚ) ≤ 2 ^ 23 := by exact_mod_cast hk
  have hx0 : (0 : ℚ) < (j : ℚ) / 2 ^ 23 := by positivity
  have hx3 : (0 : ℚ) < ((j : ℚ) / 2 ^ 23) ^ 3 := by positivity
  have hlow : (1 : ℚ) / 2 ^ 69 ≤ ((j : ℚ) / 2 ^ 23) ^ 3 := by
    have : (1 : ℚ) / 2 ^ 23 ≤ (j : ℚ) / 2 ^ 23 :=
      div_le_div_of_nonneg_right hj1 (by norm_num)
    calc (1 : ℚ) / 2 ^ 69 = (1 / 2 ^ 23) ^ 3 := by norm_num
      _ ≤ ((j : ℚ) / 2 ^ 23) ^ 3 := pow_le_pow_left₀ (by norm_num) this 3
  have hz : (2 : ℚ) ^ (-126 : Int) ≤ ((j : ℚ) / 2 ^ 23) ^ 3 * (1 + 1 / 2 ^ 23) := by
    have : (2 : ℚ) ^ (-126 : Int) ≤ 1 / 2 ^ 69 := by
      rw [zpow_neg]; norm_num
    nlinarith
  obtain ⟨r1, r2⟩ := F32.round_rel _ hz
  refine ⟨F32.round (((j : ℚ) / 2 ^ 23) ^ 3 * (1 + 1 / 2 ^ 23)), F32.round_round _, ?_, ?_⟩
  · refine le_trans ?_ r1
    have : (1 : ℚ) ≤ (1 + 1 / 2 ^ 23) * (1 - 1 / 2 ^ 24) := by norm_num
    calc ((j : ℚ) / 2 ^ 23) ^ 3 = ((j : ℚ) / 2 ^ 23) ^ 3 * 1 := by ring
      _ ≤ ((j : ℚ) / 2 ^ 23) ^ 3 * ((1 + 1 / 2 ^ 23) * (1 - 1 / 2 ^ 24)) :=
        mul_le_mul_of_nonneg_left this (le_of_lt hx3)
      _ = _ := by ring
  · refine le_trans r2 ?_
    have hstep : (j : ℚ) / 2 ^ 23 * (1 + 1 / 2 ^ 23) ≤ (k : ℚ) / 2 ^ 23 := by
      have hj2 : (j : ℚ) / 2 ^ 23 ≤ 1 := by
        rw [div_le_iff₀ (by positivity)]; linarith
      have : (j : ℚ) / 2 ^ 23 + 1 / 2 ^ 23 ≤ (k : ℚ) / 2 ^ 23 := by
        rw [← add_div]; exact div_le_div_of_nonneg_right hjk1 (by norm_num)
      nlinarith
    have hcube := pow_le_pow_left₀ (by positivity) hstep 3
    have hc : (1 + 1 / 2 ^ 23 : ℚ) * (1 + 1 / 2 ^ 24) ≤ (1 + 1 / 2 ^ 23) ^ 3 := by norm_num
    calc ((j : ℚ) / 2 ^ 23) ^ 3 * (1 + 1 / 2 ^ 23) * (1 + 1 / 2 ^ 24)
        = ((j : ℚ) / 2 ^ 23) ^ 3 * ((1 + 1 / 2 ^ 23) * (1 + 1 / 2 ^ 24)) := by ring
      _ ≤ ((j : ℚ) / 2 ^ 23) ^ 3 * (1 + 1 / 2 ^ 23) ^ 3 :=
        mul_le_mul_of_nonneg_left hc (le_of_lt hx3)
      _ = ((j : ℚ) / 2 ^ 23 * (1 + 1 / 2 ^ 23)) ^ 3 := by ring
      _ ≤ _ := hcube

/-- An admitted library function is non-decreasing along the grid of
    `2 ^ (-23)`. -/
theorem pow_grid_mono (pow : ℚ → ℚ → ℚ) (hp : F32.FaithfulPow pow) (j k : Nat) (hjk : j ≤ k)
    (hk : k ≤ 2 ^ 23) : pow ((j : ℚ) / 2 ^ 23) 3 ≤ pow ((k : ℚ) / 2 ^ 23) 3 := by
  rcases Nat.eq_or_lt_of_le hjk with heq | hlt
  · rw [heq]
  obtain ⟨f, hf, f1, f2⟩ := cube_gap j k hlt hk
  have hk2 : (k : ℚ) ≤ 2 ^ 23 := by exact_mod_cast hk
  have hj2 : (j : ℚ) ≤ 2 ^ 23 := le_trans (by exact_mod_cast hjk) hk2
  have a := (hp ((j : ℚ) / 2 ^ 23) (by positivity)
    (by rw [div_le_iff₀ (by positivity)]; linarith) f hf).2 f1
  have b := (hp ((k : ℚ) / 2 ^ 23) (by positivity)
    (by rw [div_le_iff₀ (by positivity)]; linarith) f hf).1 f2
  exact le_trans a b

/-- The second branch of the ease curve is non-decreasing on `[1/2, 1]`,
    whichever admitted library function computes the cube. -/
theorem easeSecond_mono (pow : ℚ → ℚ → ℚ) (hp : F32.FaithfulPow pow) (s t : ℚ)
    (hs : 1 / 2 ≤ s) (hst : s ≤ t) (ht : t ≤ 1) :
    F32.sub 1 (F32.div (pow (F32.add (F32.mul (-2) s) 2) 3) 2)
      ≤ F32.sub 1 (F32.div (pow (F32.add (F32.mul (-2) t) 2) 3) 2) := by
  have ha := easeArg_anti s t hst
  obtain ⟨k, hk, ek⟩ := easeArg_grid s hs (le_trans hst ht)
  obtain ⟨j, hj, ej⟩ := easeArg_grid t (le_trans hs hst) ht
  rw [ek, ej] at ha ⊢
  have hjk : j ≤ k := by
    have : (j : ℚ) ≤ (k : ℚ) := by
      rwa [div_le_div_iff_of_pos_right (by positivity)] at ha
    exact_mod_cast this
  have hpw := pow_grid_mono pow hp j k hjk hk
  unfold F32.sub F32.div
  have h2 : F32.round (pow ((j : ℚ) / 2 ^ 23) 3 / 2) ≤ F32.round (pow ((k : ℚ) / 2 ^ 23) 3 / 2) :=
    F32.round_mono _ _ (by linarith)
  exact F32.round_mono _ _ (by linarith)

/-- The second branch stays within `[1/2, 1]`. -/
theorem easeSecond_range (pow : ℚ → ℚ → ℚ) (hp : F32.FaithfulPow pow) (t : ℚ)
    (h0 : 1 / 2 ≤ t) (h1 : t ≤ 1) :
    1 / 2 ≤ F32.sub 1 (F32.div (pow (F32.add (F32.mul (-2) t) 2) 3) 2) ∧
    F32.sub 1 (F32.div (pow (F32.add (F32.mul (-2) t) 2) 3) 2) ≤ 1 := by
  obtain ⟨r0, r1⟩ := easeArg_range t h0 h1
  obtain ⟨p0, p1⟩ := hp.range _ r0 r1
  unfold F32.sub F32.div
  have a : 0 ≤ F32.round (pow (F32.add (F32.mul (-2) t) 2) 3 / 2) :=
    F32.round_nonneg _ (by linarith)
  have b : F32.round (pow (F32.add (F32.mul (-2) t) 2) 3 / 2) ≤ 1 / 2 := by
    have := F32.round_mono (pow (F32.add (F32.mul (-2) t) 2) 3 / 2) (1 / 2) (by linarith)
    have e : F32.round (1 / 2) = 1 / 2 := by decide!
    rwa [e] at this
  have e1 : F32.round 1 = 1 := by decide!
  have eh : F32.round (1 / 2) = 1 / 2 := by decide!
  constructor
  · have := F32.round_mono (1 / 2) (1 - F32.round (pow (F32.add (F32.mul (-2) t) 2) 3 / 2))
      (by linarith)
    rwa [eh] at this
  · have := F32.round_mono (1 - F32.round (pow (F32.add (F32.mul (-2) t) 2) 3 / 2)) 1
      (by linarith)
    rwa [e1] at this

theorem easeInOutCubicWith_zero (pow : ℚ → ℚ → ℚ) : easeInOutCubicWith pow 0 = 0 := by
  unfold easeInOutCubicWith
  rw [if_pos (by norm_num)]
  decide!

theorem easeInOutCubicWith_half (pow : ℚ → ℚ → ℚ) (hp : F32.FaithfulPow pow) :
    easeInOutCubicWith pow (1 / 2) = 1 / 2 := by
  unfold easeInOutCubicWith
  rw [if_neg (by norm_num)]
  have e : F32.add (F32.mul (-2) (1 / 2)) 2 = 1 := by decide!
  have p : pow 1 3 = 1 := by
    have := hp.exact 1 (by norm_num) (le_refl _) (by decide!)
    rw [this]; norm_num
  rw [e, p]
  decide!

theorem easeInOutCubicWith_one (pow : ℚ → ℚ → ℚ) (hp : F32.FaithfulPow pow) :
    easeInOutCubicWith pow 1 = 1 := by
  unfold easeInOutCubicWith
  rw [if_neg (by norm_num)]
  have e : F32.add (F32.mul (-2) 1) 2 = 0 := by decide!
  have p : pow 0 3 = 0 := by
    have := hp.exact 0 (le_refl _) (by norm_num) (by decide!)
    rw [this]; norm_num
  rw [e, p]
  decide!

theorem easeInOutCubicWith_range (pow : ℚ → ℚ → ℚ) (hp : F32.FaithfulPow pow) (t : ℚ)
    (h0 : 0 ≤ t) (h1 : t ≤ 1) :
    0 ≤ easeInOutCubicWith pow t ∧ easeInOutCubicWith pow t ≤ 1 := by
  unfold easeInOutCubicWith
  split
  · next h =>
    obtain ⟨a, b⟩ := easeFirst_range t h0 (le_of_lt h)
    exact ⟨a, by linarith⟩
  · next h =>
    obtain ⟨a, b⟩ := easeSecond_range pow hp t (not_lt.mp h) h1
    exact ⟨by linarith, b⟩

theorem easeInOutCubicWith_mono (pow : ℚ → ℚ → ℚ) (hp : F32.FaithfulPow pow) (s t : ℚ)
    (h0 : 0 ≤ s) (hst : s ≤ t) (h1 : t ≤ 1) :
    easeInOutCubicWith pow s ≤ easeInOutCubicWith pow t := by
  unfold easeInOutCubicWith
  split
  · next hs =>
    split
    · exact easeFirst_mono s t h0 hst
    · next ht =>
      obtain ⟨_, a⟩ := easeFirst_range s h0 (le_of_lt hs)
      obtain ⟨b, _⟩ := easeSecond_range pow hp t (not_lt.mp ht) h1
      linarith
  · next hs =>
    have hs2 : 1 / 2 ≤ s := not_lt.mp hs
    rw [if_neg (by linarith)]
    exact easeSecond_mono pow hp s t hs2 hst h1

/-- The helper of the source is the instance at the correctly rounded `pow`. -/
theorem easeInOutCubicWith_powf (t : ℚ) : easeInOutCubicWith F32.powf t = easeInOutCubic t := rfl

end VideoTransitions

/-- C19: the ease curve used by `fade` and `slideLeft` is non-decreasing on
    `[0, 1]` (also across the branch switch at `1/2`), maps `[0, 1]` into
    `[0, 1]`, and takes the values 0, 1/2 and 1 at 0, 1/2 and 1, whichever
    library function `pow` within `F32.FaithfulPow` computes the cube of
    its second branch. -/
theorem C19_ease_curve (pow : ℚ → ℚ → ℚ) (hp : F32.FaithfulPow pow) (s t : ℚ) (h0 : 0 ≤ s)
    (hst : s ≤ t) (h1 : t ≤ 1) :
    VideoTransitions.easeInOutCubicWith pow s ≤ VideoTransitions.easeInOutCubicWith pow t ∧
    0 ≤ VideoTransitions.easeInOutCubicWith pow t ∧
    VideoTransitions.easeInOutCubicWith pow t ≤ 1 ∧
    VideoTransitions.easeInOutCubicWith pow 0 = 0 ∧
    VideoTransitions.easeInOutCubicWith pow (1 / 2) = 1 / 2 ∧
    VideoTransitions.easeInOutCubicWith pow 1 = 1 :=
  ⟨VideoTransitions.easeInOutCubicWith_mono pow hp s t h0 hst h1,
    (VideoTransitions.easeInOutCubicWith_range pow hp t (le_trans h0 hst) h1).1,
    (VideoTransitions.easeInOutCubicWith_range pow hp t (le_trans h0 hst) h1).2,
    VideoTransitions.easeInOutCubicWith_zero pow, VideoTransitions.easeInOutCubicWith_half pow hp,
    VideoTransitions.easeInOutCubicWith_one pow hp⟩

/-- C19, with the correctly rounded `pow`, across the branch switch:
    `0.49 ≤ 0.51`. -/
theorem C19_ease_curve_witness :
    VideoTransitions.easeInOutCubicWith F32.powf (49 / 100)
      ≤ VideoTransitions.easeInOutCubicWith F32.powf (51 / 100) ∧
    0 ≤ VideoTransitions.easeInOutCubicWith F32.powf (51 / 100) ∧
    VideoTransitions.easeInOutCubicWith F32.powf (51 / 100) ≤ 1 ∧
    VideoTransitions.easeInOutCubicWith F32.powf 0 = 0 ∧
    VideoTransitions.easeInOutCubicWith F32.powf (1 / 2) = 1 / 2 ∧
    VideoTransitions.easeInOutCubicWith F32.powf 1 = 1 :=
  C19_ease_curve F32.powf F32.powf_faithful (49 / 100) (51 / 100) (by norm_num) (by norm_num)
    (by norm_num)

/-! ### The offset of the slide -/

namespace VideoTransitions

/-- The bytes `slideLeftWith` leaves at pixel `(x, y)`. -/
theorem slideLeftWith_spec (pow : ℚ → ℚ → ℚ) (T : VideoTransitions) (frame1 frame2 : List Nat)
    (progress : ℚ) (x y : Nat) (hx : x < T.width) (hy : y < T.height) :
    (∀ c, c < 3 →
      (slideLeftWith pow T frame1 frame2 progress).getD ((y * T.width + x) * 4 + c) 0
        = slideSourceWith pow T frame1 frame2 progress x y c) ∧
    (slideLeftWith pow T frame1 frame2 progress).getD ((y * T.width + x) * 4 + 3) 0 = 255 := by
  have hbody : slideLeftWith pow T frame1 frame2 progress
      = forLoop 0 T.height (fun y out => forLoop 0 T.width (fun x out =>
          writePixel out ((y * T.width + x) * 4)
            (slideSourceWith pow T frame1 frame2 progress x y 0)
            (slideSourceWith pow T frame1 frame2 progress x y 1)
            (slideSourceWith pow T frame1 frame2 progress x y 2)
            255) out)
          (List.replicate (T.width * T.height * 4) 0) := by
    unfold slideLeftWith slideSourceWith
    simp only [channels]
    congr 1
    funext y out
    congr 1
    funext x out
    split
    · rfl
    · split <;> rfl
  rw [hbody]
  exact nestedLoop_rgb (slideSourceWith pow T frame1 frame2 progress) T.width T.height x y hx hy

/-- The method of the source is the instance at the correctly rounded `pow`. -/
theorem slideLeftWith_powf (T : VideoTransitions) (frame1 frame2 : List Nat) (progress : ℚ) :
    slideLeftWith F32.powf T frame1 frame2 progress = slideLeft T frame1 frame2 progress := rfl

/-- For a width whose conversion to `float` does not round up and a progress
    in `[0, 1]` the offset of `slideLeft` lies between 0 and the width. -/
theorem slideOffsetWith_range (pow : ℚ → ℚ → ℚ) (hpow : F32.FaithfulPow pow)
    (T : VideoTransitions) (p : ℚ) (hw : F32.ofInt (T.width : Int) ≤ (T.width : ℚ))
    (h0 : 0 ≤ p) (h1 : p ≤ 1) :
    0 ≤ slideOffsetWith pow T p ∧ slideOffsetWith pow T p ≤ (T.width : Int) := by
  obtain ⟨e0, e1⟩ := easeInOutCubicWith_range pow hpow p h0 h1
  have hwq : (0 : ℚ) ≤ ((T.width : Int) : ℚ) := by positivity
  have hf0 : 0 ≤ F32.ofInt (T.width : Int) := F32.round_nonneg _ hwq
  have hff : F32.round (F32.ofInt (T.width : Int)) = F32.ofInt (T.width : Int) :=
    F32.round_round _
  unfold slideOffsetWith F32.toInt F32.mul
  constructor
  · exact F32.trunc_nonneg _ (F32.round_nonneg _ (mul_nonneg hf0 e0))
  · have h2 : F32.round (F32.ofInt (T.width : Int) * easeInOutCubicWith pow p)
        ≤ F32.round (F32.ofInt (T.width : Int)) :=
      F32.round_mono _ _ (by nlinarith)
    rw [hff] at h2
    have h3 := F32.trunc_mono _ _ (le_trans h2 hw)
    have h4 : F32.trunc ((T.width : Nat) : ℚ) = (T.width : Int) := by
      exact_mod_cast F32.trunc_intCast (T.width : Int)
    rw [h4] at h3
    exact h3

end VideoTransitions

namespace F32

/-- The conversion of a natural number to `float` is an integer. -/
theorem ofInt_natCast_integral (n : Nat) : ∃ m : Int, ofInt (n : Int) = (m : ℚ) := by
  unfold ofInt
  rcases Nat.lt_or_ge n (2 ^ 24) with hlt | hge
  · exact ⟨n, by rw [Int.cast_natCast]; exact round_natCast n (le_of_lt hlt)⟩
  have hq : (0 : ℚ) < ((n : Int) : ℚ) := by
    have : 0 < n := lt_of_lt_of_le (by norm_num) hge
    exact_mod_cast this
  obtain ⟨s1, s2⟩ := ilog2_spec ((n : Int) : ℚ) hq
  have one_lt : (1 : ℚ) < 2 := by norm_num
  have he : 24 ≤ ilog2 ((n : Int) : ℚ) := by
    have h1 : (2 : ℚ) ^ (24 : Int) < (2 : ℚ) ^ (ilog2 ((n : Int) : ℚ) + 1) := by
      refine lt_of_le_of_lt ?_ s2
      have : ((2 ^ 24 : Nat) : ℚ) ≤ ((n : Int) : ℚ) := by exact_mod_cast hge
      calc (2 : ℚ) ^ (24 : Int) = ((2 ^ 24 : Nat) : ℚ) := by norm_num
        _ ≤ _ := this
    have := (zpow_lt_zpow_iff_right₀ one_lt).mp h1
    omega
  obtain ⟨j, hj⟩ := Int.eq_ofNat_of_zero_le (show 0 ≤ ilog2 ((n : Int) : ℚ) - 23 by omega)
  rw [round_of_pos _ hq, roundPos_eq, max_eq_left (by omega), hj, zpow_natCast]
  exact ⟨rne (((n : Int) : ℚ) / 2 ^ j) * 2 ^ j, by push_cast; ring⟩

end F32

namespace VideoTransitions

/-- Where the conversion of the width to `float` rounds up, the offset of
    `slideLeft` at progress 1 exceeds the width. -/
theorem slideOffsetWith_exceeds (pow : ℚ → ℚ → ℚ) (hpow : F32.FaithfulPow pow)
    (T : VideoTransitions) (hw : (T.width : ℚ) < F32.ofInt (T.width : Int)) :
    (T.width : Int) < slideOffsetWith pow T 1 := by
  obtain ⟨m, hm⟩ := F32.ofInt_natCast_integral T.width
  unfold slideOffsetWith F32.toInt F32.mul
  rw [easeInOutCubicWith_one pow hpow, mul_one]
  have hff : F32.round (F32.ofInt (T.width : Int)) = F32.ofInt (T.width : Int) :=
    F32.round_round _
  rw [hff, hm, F32.trunc_intCast]
  rw [hm] at hw
  exact_mod_cast hw

end VideoTransitions

/-- C21, as the claim states it, fails for a frame 16777219 pixels wide: the
    conversion of that width to `float` rounds up, `width * 1.0f` is 16777220,
    so at progress 1 the offset of `slideLeft` exceeds the width by one and the
    last pixel of the row, with `x + offset - width = width`, takes the black
    branch. Here every byte of `frame1` is 1 and every byte of `frame2` is 2;
    at progress 1 the base of `pow` is 0. -/
theorem C21_slideLeft_wide_frame_counterexample :
    IsFrame 16777219 1 (List.replicate (16777219 * 1 * 4) 1) ∧
    IsFrame 16777219 1 (List.replicate (16777219 * 1 * 4) 2) ∧
    VideoTransitions.slideOffsetWith F32.powf (VideoTransitions.mk 16777219 1) 1 = 16777220 ∧
    (VideoTransitions.slideLeftWith F32.powf (VideoTransitions.mk 16777219 1)
      (List.replicate (16777219 * 1 * 4) 1)
      (List.replicate (16777219 * 1 * 4) 2) 1).getD ((0 * 16777219 + 16777218) * 4 + 0) 0 = 0 := by
  have hoff : VideoTransitions.slideOffsetWith F32.powf (VideoTransitions.mk 16777219 1) 1
      = 16777220 := by
    decide!
  refine ⟨⟨List.length_replicate _ _, fun b hb => ?_⟩, ⟨List.length_replicate _ _, fun b hb => ?_⟩,
    hoff, ?_⟩
  · rw [List.eq_of_mem_replicate hb]; norm_num
  · rw [List.eq_of_mem_replicate hb]; norm_num
  · have hs := (VideoTransitions.slideLeftWith_spec F32.powf (VideoTransitions.mk 16777219 1)
      (List.replicate (16777219 * 1 * 4) 1) (List.replicate (16777219 * 1 * 4) 2) 1 16777218 0
      (by show 16777218 < 16777219; norm_num) (by show 0 < 1; norm_num)).1 0 (by norm_num)
    rw [hs]
    unfold VideoTransitions.slideSourceWith
    rw [hoff]
    have hw : ((VideoTransitions.mk 16777219 1).width : Int) = 16777219 := rfl
    rw [hw]
    rw [if_neg (by norm_num), if_neg (by norm_num)]

/-- C21, amended: for a width whose conversion to `float` does not round up
    (every width up to `2 ^ 24` is one), every progress in `[0, 1]`, frames of
    the configured size and a library function `pow` within
    `F32.FaithfulPow`, the offset `o` of `slideLeft` lies in `[0, width]`;
    channel `c` of the output pixel `(x, y)` is the byte of `frame1` at column
    `x + o` when `x + o < width`, and otherwise `x + o - width` is a column
    and it is the byte of `frame2` there; the byte read lies inside the frame,
    and the black branch is not taken. -/
theorem C21_slideLeft_sources (pow : ℚ → ℚ → ℚ) (T : VideoTransitions)
    (frame1 frame2 : List Nat) (p : ℚ) (x y c : Nat) (hpow : F32.FaithfulPow pow)
    (h1 : IsFrame T.width T.height frame1) (h2 : IsFrame T.width T.height frame2)
    (hw : F32.ofInt (T.width : Int) ≤ (T.width : ℚ)) (hp0 : 0 ≤ p) (hp1 : p ≤ 1)
    (hx : x < T.width) (hy : y < T.height) (hc : c < 3) :
    ∃ o : Nat, VideoTransitions.slideOffsetWith pow T p = (o : Int) ∧ o ≤ T.width ∧
      (x + o < T.width →
        (VideoTransitions.slideLeftWith pow T frame1 frame2 p).getD ((y * T.width + x) * 4 + c) 0
          = frame1.getD ((y * T.width + (x + o)) * 4 + c) 0 ∧
        (y * T.width + (x + o)) * 4 + c < frame1.length) ∧
      (T.width ≤ x + o →
        x + o - T.width < T.width ∧
        (VideoTransitions.slideLeftWith pow T frame1 frame2 p).getD ((y * T.width + x) * 4 + c) 0
          = frame2.getD ((y * T.width + (x + o - T.width)) * 4 + c) 0 ∧
        (y * T.width + (x + o - T.width)) * 4 + c < frame2.length) ∧
      (((x : Int) + VideoTransitions.slideOffsetWith pow T p < (T.width : Int)
          ∧ (x : Int) + VideoTransitions.slideOffsetWith pow T p ≥ 0) ∨
        ((x : Int) + VideoTransitions.slideOffsetWith pow T p - (T.width : Int) ≥ 0
          ∧ (x : Int) + VideoTransitions.slideOffsetWith pow T p - (T.width : Int)
            < (T.width : Int))) := by
  obtain ⟨o0, o1⟩ := VideoTransitions.slideOffsetWith_range pow hpow T p hw hp0 hp1
  obtain ⟨o, ho⟩ : ∃ o : Nat, VideoTransitions.slideOffsetWith pow T p = (o : Int) :=
    ⟨(VideoTransitions.slideOffsetWith pow T p).toNat, by omega⟩
  have hs := (VideoTransitions.slideLeftWith_spec pow T frame1 frame2 p x y hx hy).1 c hc
  refine ⟨o, ho, by omega, ?_, ?_, by omega⟩
  · intro hlt
    rw [hs]
    unfold VideoTransitions.slideSourceWith
    rw [ho, if_pos (by omega)]
    have e : (((y : Int) * (T.width : Int) + ((x : Int) + (o : Int)))
        * (VideoTransitions.channels : Int)).toNat = (y * T.width + (x + o)) * 4 := by
      have : ((y : Int) * (T.width : Int) + ((x : Int) + (o : Int)))
          * (VideoTransitions.channels : Int) = (((y * T.width + (x + o)) * 4 : Nat) : Int) := by
        unfold VideoTransitions.channels; push_cast; ring
      rw [this]; exact Int.toNat_ofNat _
    rw [e]
    refine ⟨rfl, ?_⟩
    rw [h1.1]
    have := pixel_index_lt T.width T.height (x + o) y hlt hy
    omega
  · intro hge
    have hlt : x + o - T.width < T.width := by omega
    rw [hs]
    unfold VideoTransitions.slideSourceWith
    rw [ho, if_neg (by omega), if_pos (by omega)]
    have e : (((y : Int) * (T.width : Int) + ((x : Int) + (o : Int) - (T.width : Int)))
        * (VideoTransitions.channels : Int)).toNat = (y * T.width + (x + o - T.width)) * 4 := by
      have : ((y : Int) * (T.width : Int) + ((x : Int) + (o : Int) - (T.width : Int)))
          * (VideoTransitions.channels : Int)
          = (((y * T.width + (x + o - T.width)) * 4 : Nat) : Int) := by
        unfold VideoTransitions.channels; push_cast [Nat.cast_sub hge]; ring
      rw [this]; exact Int.toNat_ofNat _
    rw [e]
    refine ⟨hlt, rfl, ?_⟩
    rw [h2.1]
    have := pixel_index_lt T.width T.height (x + o - T.width) y hlt hy
    omega

/-- C21, at a 2 x 1 frame, progress one half and the correctly rounded `pow`:
    the offset is 1, pixel `(0, 0)` comes from column 1 of `frame1` and pixel
    `(1, 0)` from column 0 of `frame2`. -/
theorem C21_slideLeft_sources_witness :
    IsFrame 2 1 [1, 2, 3, 4, 5, 6, 7, 8] ∧ IsFrame 2 1 [9, 10, 11, 12, 13, 14, 15, 16] ∧
    F32.ofInt (((VideoTransitions.mk 2 1).width : Nat) : Int)
      ≤ (((VideoTransitions.mk 2 1).width : Nat) : ℚ) ∧
    VideoTransitions.slideOffsetWith F32.powf (VideoTransitions.mk 2 1) (1 / 2) = 1 ∧
    (VideoTransitions.slideLeftWith F32.powf (VideoTransitions.mk 2 1) [1, 2, 3, 4, 5, 6, 7, 8]
      [9, 10, 11, 12, 13, 14, 15, 16] (1 / 2)).getD ((0 * 2 + 1) * 4 + 2) 0 = 11 :=
  have h := C21_slideLeft_sources F32.powf (VideoTransitions.mk 2 1) [1, 2, 3, 4, 5, 6, 7, 8]
    [9, 10, 11, 12, 13, 14, 15, 16] (1 / 2) 1 0 2 F32.powf_faithful (by decide) (by decide)
    (by decide!) (by norm_num) (by norm_num) (by decide) (by decide) (by decide)
  ⟨by decide, by decide, by decide!, by decide!, by
    obtain ⟨o, ho, _, _, hb, _⟩ := h
    have e : VideoTransitions.slideOffsetWith F32.powf (VideoTransitions.mk 2 1) (1 / 2) = 1 := by
      decide!
    have ho1 : o = 1 := by rw [e] at ho; exact_mod_cast ho.symm
    subst ho1
    exact (hb (by decide)).2.1.trans (by decide)⟩

/-! ### Library functions that do not round correctly -/

namespace F32

/-- Between 1/2 and 1 the binary32 values are multiples of `2 ^ (-24)`. -/
theorem isF32_half_binade (f : ℚ) (hf : IsF32 f) (h1 : 1 / 2 ≤ f) (h2 : f ≤ 1) :
    ∃ m : Nat, f = (m : ℚ) / 2 ^ 24 := by
  obtain ⟨m, _, _, hm⟩ := round_unit_binade (2 * f) (by linarith) (by linarith)
  have h := round_half (2 * f) (by linarith)
  have e : 2 * f / 2 = f := by ring
  rw [e, hm] at h
  unfold IsF32 at hf
  rw [hf] at h
  exact ⟨m, by rw [h]; ring⟩

/-- Where the cube of `a` lies strictly between the neighbouring binary32
    values `k / 2 ^ 24` and `(k + 1) / 2 ^ 24` of `[1/2, 1]`, a library
    function may return either of the two. -/
theorem faithfulPow_neighbours (a : ℚ) (k : Nat) (hk : 2 ^ 23 ≤ k) (hk2 : k + 1 ≤ 2 ^ 24)
    (h1 : (k : ℚ) / 2 ^ 24 < a ^ 3) (h2 : a ^ 3 < ((k : ℚ) + 1) / 2 ^ 24) :
    FaithfulPow (fun x y => if x = a then (k : ℚ) / 2 ^ 24 else powf x y) ∧
    FaithfulPow (fun x y => if x = a then ((k : ℚ) + 1) / 2 ^ 24 else powf x y) := by
  have hkq : ((2 ^ 23 : Nat) : ℚ) ≤ (k : ℚ) := by exact_mod_cast hk
  have hkq2 : (k : ℚ) + 1 ≤ ((2 ^ 24 : Nat) : ℚ) := by exact_mod_cast hk2
  have hlow : (1 : ℚ) / 2 ≤ (k : ℚ) / 2 ^ 24 := by
    rw [le_div_iff₀ (by positivity)]
    push_cast at hkq
    linarith
  have hhigh : ((k : ℚ) + 1) / 2 ^ 24 ≤ 1 := by
    rw [div_le_one (by positivity)]
    push_cast at hkq2
    linarith
  -- a binary32 value is not strictly between the two neighbours
  have hgrid : ∀ f : ℚ, IsF32 f → (f < ((k : ℚ) + 1) / 2 ^ 24 → f ≤ (k : ℚ) / 2 ^ 24) := by
    intro f hf hlt
    by_contra hcon
    have hgt : (k : ℚ) / 2 ^ 24 < f := not_le.mp hcon
    obtain ⟨m, hm⟩ := isF32_half_binade f hf (by linarith) (by linarith)
    rw [hm] at hgt hlt
    have a1 : (k : ℚ) < (m : ℚ) := by
      rwa [div_lt_div_iff_of_pos_right (by positivity)] at hgt
    have a2 : (m : ℚ) < (k : ℚ) + 1 := by
      rwa [div_lt_div_iff_of_pos_right (by positivity)] at hlt
    have b1 : k < m := by exact_mod_cast a1
    have b2 : m < k + 1 := by exact_mod_cast a2
    omega
  constructor
  · intro x hx0 hx1 f hf
    by_cases hxa : x = a
    · simp only [hxa, if_true]
      constructor
      · intro hle
        exact hgrid f hf (lt_of_le_of_lt hle h2)
      · intro hle
        linarith
    · simp only [hxa, if_false]
      exact powf_faithful x hx0 hx1 f hf
  · intro x hx0 hx1 f hf
    by_cases hxa : x = a
    · simp only [hxa, if_true]
      constructor
      · intro hle
        linarith
      · intro hle
        by_contra hcon
        have := hgrid f hf (not_le.mp hcon)
        linarith
    · simp only [hxa, if_false]
      exact powf_faithful x hx0 hx1 f hf

end F32

namespace VideoTransitions

/-- The value of the ease curve depends on which admitted library function
    computes the cube. At `t = 8397012 / 2 ^ 24` the base of `pow` is
    `8380204 / 2 ^ 23`, and its cube lies between `16726842 / 2 ^ 24`, the
    nearer, and `16726843 / 2 ^ 24`: with the first the curve has the value
    `8413795 / 2 ^ 24`, with the second `8413794 / 2 ^ 24`. -/
theorem easeInOutCubicWith_depends_on_pow :
    easeInOutCubicWith F32.powf (8397012 / 2 ^ 24) = 8413795 / 2 ^ 24 ∧
    ∃ pow : ℚ → ℚ → ℚ, F32.FaithfulPow pow ∧
      easeInOutCubicWith pow (8397012 / 2 ^ 24) = 8413794 / 2 ^ 24 := by
  refine ⟨by decide!, fun x y => if x = 8380204 / 2 ^ 23 then (((16726842 : Nat) : ℚ) + 1) / 2 ^ 24
    else F32.powf x y, ?_, by decide!⟩
  exact (F32.faithfulPow_neighbours (8380204 / 2 ^ 23) 16726842 (by norm_num) (by norm_num)
    (by norm_num) (by norm_num)).2

/-- The offset of `slideLeft` depends on the library function as well: for a
    frame 114 pixels wide at progress `9785728 / 2 ^ 24` it is 81 with the
    correctly rounded cube and 80 with its upper neighbour. -/
theorem slideOffsetWith_depends_on_pow :
    slideOffsetWith F32.powf (VideoTransitions.mk 114 1) (9785728 / 2 ^ 24) = 81 ∧
    ∃ pow : ℚ → ℚ → ℚ, F32.FaithfulPow pow ∧
      slideOffsetWith pow (VideoTransitions.mk 114 1) (9785728 / 2 ^ 24) = 80 := by
  refine ⟨by decide!, fun x y => if x = 6991488 / 2 ^ 23 then (((9713126 : Nat) : ℚ) + 1) / 2 ^ 24
    else F32.powf x y, ?_, by decide!⟩
  exact (F32.faithfulPow_neighbours (6991488 / 2 ^ 23) 9713126 (by norm_num) (by norm_num)
    (by norm_num) (by norm_num)).2

end VideoTransitions

/-! ### The vignette at radius one -/

namespace F32

/-- The rounded square root as a significand of `p` bits times a power of two. -/
theorem sqrtRound_form (p : Nat) (hp : 1 ≤ p) (q : ℚ) (hq : 0 < q) :
    ∃ m : Nat, 2 ^ (p - 1) ≤ m ∧ m ≤ 2 ^ p ∧
      sqrtRound p q = (m : ℚ) * (2 : ℚ) ^ (ilog2 q / 2 - ((p : Int) - 1)) := by
  obtain ⟨d1, d2⟩ := sqrtRound_digits p hp q hq
  unfold sqrtRound
  rw [if_neg (not_le.mpr hq)]
  simp only [pow2_eq] at d1 d2 ⊢
  split_ifs
  · exact ⟨_, d1, by omega, rfl⟩
  · exact ⟨_, by omega, d2, by push_cast; rfl⟩
  · exact ⟨_, d1, by omega, rfl⟩
  · exact ⟨_, by omega, d2, by push_cast; rfl⟩

/-- The `float` square root of a value that is not tiny is a binary32 value. -/
theorem round_sqrt (q : ℚ) (hq : 0 < q) (hk : -126 ≤ ilog2 q / 2) : round (sqrt q) = sqrt q := by
  have two_ne : (2 : ℚ) ≠ 0 := by norm_num
  obtain ⟨m, m1, m2, hm⟩ := sqrtRound_form 24 (by norm_num) q hq
  obtain ⟨b1, b2⟩ := sqrtRound_bounds 24 (by norm_num) q hq
  unfold sqrt
  set k := ilog2 q / 2 with hkdef
  set r := sqrtRound 24 q with hr
  have hm' : r = (m : ℚ) * (2 : ℚ) ^ (k - 23) := by
    rw [hm]; norm_num
  have hpos : 0 < r := lt_of_lt_of_le (zpow_pos (by norm_num) k) b1
  rcases lt_or_eq_of_le b2 with hlt | heq
  · have hlog : ilog2 r = k := ilog2_unique r k b1 hlt
    apply round_eq_self r hpos (m : Int)
    rw [hlog, max_eq_left hk, hm']
    have hu : (2 : ℚ) ^ (k - 23) ≠ 0 := ne_of_gt (zpow_pos (by norm_num) _)
    field_simp
  · have hlog : ilog2 r = k + 1 := by
      apply ilog2_unique r (k + 1) (le_of_eq heq.symm)
      rw [heq]
      exact zpow_lt_zpow_right₀ (by norm_num) (by omega)
    apply round_eq_self r hpos (2 ^ 23)
    rw [hlog, max_eq_left (by omega), heq, ← zpow_sub₀ two_ne]
    have : k + 1 - (k + 1 - 23) = ((23 : Nat) : Int) := by push_cast; ring
    rw [this, zpow_natCast]
    norm_num

end F32

namespace VideoFilters

/-- Half of a positive dimension, as the code computes it, is half of the
    dimension as a `float`, and is itself a binary32 value of at least 1/2. -/
theorem half_dimension_pos (n : Nat) (hpos : 0 < n) :
    F32.div (F32.ofInt n) 2 = F32.round (n : ℚ) / 2 ∧ 1 ≤ F32.round (n : ℚ) := by
  have h1 : (1 : ℚ) ≤ (n : ℚ) := by exact_mod_cast hpos
  have hr1 : (1 : ℚ) ≤ F32.round (n : ℚ) := by
    have h := F32.round_mono 1 (n : ℚ) h1
    have e : F32.round 1 = 1 := by decide!
    rw [e] at h
    exact h
  refine ⟨?_, hr1⟩
  unfold F32.div F32.ofInt
  rw [Int.cast_natCast, F32.round_half _ hr1, F32.round_round]

/-- The computed offset of a coordinate `i < n` from the centre `n / 2.0f` is
    at most the centre in magnitude. -/
theorem centre_offset_le (n i : Nat) (hi : i < n) :
    |F32.sub (F32.ofInt i) (F32.div (F32.ofInt n) 2)| ≤ F32.div (F32.ofInt n) 2 := by
  obtain ⟨hc, hr1⟩ := half_dimension_pos n (by omega)
  have hcf : F32.round (F32.div (F32.ofInt n) 2) = F32.div (F32.ofInt n) 2 := by
    unfold F32.div; exact F32.round_round _
  have hi0 : 0 ≤ F32.ofInt i := by
    unfold F32.ofInt
    exact F32.round_nonneg _ (by positivity)
  have hin : F32.ofInt i ≤ F32.round (n : ℚ) := by
    unfold F32.ofInt
    apply F32.round_mono
    have : i ≤ n := by omega
    exact_mod_cast this
  rw [abs_le]
  constructor
  · have h := F32.round_mono (-(F32.div (F32.ofInt n) 2))
      (F32.ofInt i - F32.div (F32.ofInt n) 2) (by linarith)
    rw [F32.round_neg, hcf] at h
    exact h
  · have h := F32.round_mono (F32.ofInt i - F32.div (F32.ofInt n) 2)
      (F32.div (F32.ofInt n) 2) (by rw [hc]; linarith)
    rw [hcf] at h
    exact h

/-- The radicand of `maxDist` is at least 1/4. -/
theorem maxDist_radicand (F : VideoFilters) (hw : 0 < F.width) :
    1 / 4 ≤ F32.add (F32.mul F.centerX F.centerX) (F32.mul F.centerY F.centerY) := by
  obtain ⟨hc, hr1⟩ := half_dimension_pos F.width hw
  have hcx : 1 / 2 ≤ F.centerX := by
    unfold centerX; rw [hc]; linarith
  have e : F32.round (1 / 4) = 1 / 4 := by decide!
  have h1 : 1 / 4 ≤ F32.mul F.centerX F.centerX := by
    have h := F32.round_mono (1 / 4) (F.centerX * F.centerX) (by nlinarith)
    rw [e] at h
    exact h
  have h2 : 0 ≤ F32.mul F.centerY F.centerY := by
    unfold F32.mul
    exact F32.round_nonneg _ (mul_self_nonneg _)
  have h := F32.round_mono (1 / 4)
    (F32.mul F.centerX F.centerX + F32.mul F.centerY F.centerY) (by linarith)
  rw [e] at h
  exact h

/-- The largest distance `maxDist` is a binary32 value. -/
theorem maxDist_round (F : VideoFilters) (hw : 0 < F.width) : F32.round F.maxDist = F.maxDist := by
  have hq := maxDist_radicand F hw
  unfold maxDist
  apply F32.round_sqrt _ (by linarith)
  have h1 : F32.ilog2 (1 / 4) = -2 := F32.ilog2_unique (1 / 4) (-2) (by norm_num) (by norm_num)
  have h2 := F32.ilog2_mono (1 / 4) _ (by norm_num) hq
  omega

/-- No pixel of the frame is farther from the centre than `maxDist`, in the
    code's arithmetic. -/
theorem centreDistance_le_maxDist (F : VideoFilters) (x y : Nat) (hx : x < F.width)
    (hy : y < F.height) : centreDistance F.centerX F.centerY x y ≤ F.maxDist := by
  have hdx := centre_offset_le F.width x hx
  have hdy := centre_offset_le F.height y hy
  unfold centreDistance maxDist
  simp only []
  unfold F32.sqrt
  apply F32.sqrtRound_mono 24 (by norm_num)
  unfold F32.add
  apply F32.round_mono
  have hx2 : F32.mul (F32.sub (F32.ofInt x) F.centerX) (F32.sub (F32.ofInt x) F.centerX)
      ≤ F32.mul F.centerX F.centerX := by
    unfold F32.mul
    apply F32.round_mono
    unfold centerX
    obtain ⟨a1, a2⟩ := abs_le.mp hdx
    nlinarith
  have hy2 : F32.mul (F32.sub (F32.ofInt y) F.centerY) (F32.sub (F32.ofInt y) F.centerY)
      ≤ F32.mul F.centerY F.centerY := by
    unfold F32.mul
    apply F32.round_mono
    unfold centerY
    obtain ⟨a1, a2⟩ := abs_le.mp hdy
    nlinarith
  linarith

theorem vignette_length (F : VideoFilters) (data : List Nat) (intensity radius : ℚ) :
    (F.vignette data intensity radius).length = data.length := by
  unfold vignette
  apply forLoop_induction (fun t : List Nat => t.length = data.length) _ _ _ _ rfl
  intro y _ _ t ht
  apply forLoop_induction (fun t : List Nat => t.length = data.length) _ _ _ _ ht
  intro x _ _ t ht
  simp only []
  rw [length_writeRGB, ht]

end VideoFilters

/-- C25: `vignette` with radius 1 leaves the whole frame unchanged for every
    intensity: no pixel of the frame has a computed distance from the centre
    above `maxDist * 1.0f`, so the darkening branch, whose divisor
    `maxDist * (1.0f - 1.0f)` is 0, is not taken at any pixel. -/
theorem C25_vignette_radius_one (F : VideoFilters) (data : List Nat) (intensity : ℚ)
    (hd : IsFrame F.width F.height data) :
    F.vignette data intensity 1 = data ∧
    (∀ x y, x < F.width → y < F.height →
      ¬ VideoFilters.centreDistance F.centerX F.centerY x y > F32.mul F.maxDist 1 ∧
      VideoFilters.vignetteFactor (VideoFilters.centreDistance F.centerX F.centerY x y)
        F.maxDist intensity 1 = 1) ∧
    F32.mul F.maxDist (F32.sub 1 1) = 0 := by
  have hbranch : ∀ x y, x < F.width → y < F.height →
      ¬ VideoFilters.centreDistance F.centerX F.centerY x y > F32.mul F.maxDist 1 := by
    intro x y hx hy
    have h1 : F32.mul F.maxDist 1 = F.maxDist := by
      unfold F32.mul
      rw [mul_one]
      exact VideoFilters.maxDist_round F (by omega)
    rw [h1]
    exact not_lt.mpr (VideoFilters.centreDistance_le_maxDist F x y hx hy)
  have hfactor : ∀ x y, x < F.width → y < F.height →
      VideoFilters.vignetteFactor (VideoFilters.centreDistance F.centerX F.centerY x y)
        F.maxDist intensity 1 = 1 := by
    intro x y hx hy
    unfold VideoFilters.vignetteFactor
    rw [if_neg (hbranch x y hx hy)]
  refine ⟨?_, fun x y hx hy => ⟨hbranch x y hx hy, hfactor x y hx hy⟩, ?_⟩
  · apply buffer_ext _ _ (VideoFilters.vignette_length F data intensity 1)
    intro j hj
    rw [hd.1] at hj
    obtain ⟨hx, hy, hc, hdec⟩ := offset_decompose F.width F.height j hj
    have h := VideoFilters.vignette_unchanged F data intensity 1 hd _ _ _ hx hy hc
      (hfactor _ _ hx hy)
    rw [hdec] at h
    exact h
  · unfold F32.mul F32.sub
    rw [sub_self, F32.round_zero, mul_zero, F32.round_zero]

/-- C25, at a 3 x 2 frame with intensity 1. -/
theorem C25_vignette_radius_one_witness :
    IsFrame 3 2 (List.replicate 24 200) ∧
    (VideoFilters.mk 3 2).vignette (List.replicate 24 200) 1 1 = List.replicate 24 200 :=
  ⟨by decide, (C25_vignette_radius_one (VideoFilters.mk 3 2) (List.replicate 24 200) 1
    (by decide)).1⟩

/-! ### The colour helpers in binary32 -/

namespace F32

end F32

namespace VideoFilters

end VideoFilters


namespace F32

end F32

namespace VideoFilters

end VideoFilters

namespace F32

end F32

namespace VideoFilters

end VideoFilters

